import Mathlib

/-!
# Reflective RapidJSON: generated (de)serialisation code and the reflection runtime

A verification development for

* `lib/json/reflector.h`: the `push` / `pull` overload set and `fromJson`,
* `generator/jsonserializationcodegenerator.cpp`: the emitter of per-class `push` / `pull`
  specialisations,
* `moc/codegenerator.cpp`: the earlier emitter,
* `lib/jsonreflector.h`: the earlier header, whose overloads take no error context.

`push` and `pull` are C++ templates selected by the static type of the value; the type is an
explicit argument here (`Ty`, `ScalarType`), and the overloads that are generic in the element or
member type take the nested overload as a function argument.  The `JsonDeserializationErrors *`
argument is an `Option`: `none` is the null pointer.  A function that changes its arguments
returns their new values.

What the code takes from outside is modelled as follows.

* RapidJSON: a value is a tree (`Value`); an integer number passes `Is<T>` exactly when it is in
  the range of `T`; `AddMember` and `PushBack` append; `FindMember` finds the first member of a
  name.  The parser is an argument of `fromJson` (`Parser`).  A JSON string holds its
  characters with their number, NUL characters included; `GetString()` gives a C string, so a
  `std::string` assigned from it holds the characters before the first NUL (`Val.ofCString`).
* The object that the declaration `Type res;` of `fromJson` creates is default-initialised;
  what it holds is an argument of `fromJson` (`res`).
* Clang: a `CXXRecordDecl` is the tree of its base classes with their data members, and a
  declaration handle is the declaration.
* `errorhandling.h` is not among the sources; the error context is modelled from the
  specification.
* An object of a class is the list of its data members, those of all base class sub-objects
  included, each under the class that declares it; the reference
  `static_cast<Base &>(reflectable)` is the same list.
* The static types of data members are booleans, the integer types RapidJSON knows, `std::string`
  and sequences of these, nested to any depth.
-/

set_option autoImplicit false

namespace ReflectiveRapidJSON

/-! ## RapidJSON values -/

/-- The enumeration `rapidjson::Type`, the result of `GetType()`. -/
inductive JsonType where
  | kNullType
  | kFalseType
  | kTrueType
  | kObjectType
  | kArrayType
  | kStringType
  | kNumberType
  deriving DecidableEq, Repr

/-- A `rapidjson::GenericValue`.  A number is stored either as an integer (`int`) or as a double
(`double`, the payload is kept as its bit pattern and never inspected).  The members of an object
are kept in insertion order; `AddMember` does not look for an existing member of the same name. -/
inductive Value where
  | null
  | bool (b : Bool)
  | int (i : Int)
  | double (bits : Nat)
  | string (s : String)
  | array (items : List Value)
  | object (members : List (String × Value))

mutual
/-- Equality of JSON values is decidable. -/
def Value.decEq : (a b : Value) → Decidable (a = b)
  | .null, .null => isTrue rfl
  | .bool x, .bool y =>
    if h : x = y then isTrue (by rw [h])
    else isFalse (by intro e; cases e; exact h rfl)
  | .int x, .int y =>
    if h : x = y then isTrue (by rw [h])
    else isFalse (by intro e; cases e; exact h rfl)
  | .double x, .double y =>
    if h : x = y then isTrue (by rw [h])
    else isFalse (by intro e; cases e; exact h rfl)
  | .string x, .string y =>
    if h : x = y then isTrue (by rw [h])
    else isFalse (by intro e; cases e; exact h rfl)
  | .array x, .array y =>
    match Value.decEqList x y with
    | isTrue h => isTrue (by rw [h])
    | isFalse h => isFalse (by intro e; cases e; exact h rfl)
  | .object x, .object y =>
    match Value.decEqMembers x y with
    | isTrue h => isTrue (by rw [h])
    | isFalse h => isFalse (by intro e; cases e; exact h rfl)
  | .null, .bool _ | .null, .int _ | .null, .double _ | .null, .string _ | .null, .array _ | .null, .object _
  | .bool _, .null | .bool _, .int _ | .bool _, .double _ | .bool _, .string _ | .bool _, .array _ | .bool _, .object _
  | .int _, .null | .int _, .bool _ | .int _, .double _ | .int _, .string _ | .int _, .array _ | .int _, .object _
  | .double _, .null | .double _, .bool _ | .double _, .int _ | .double _, .string _ | .double _, .array _ | .double _, .object _
  | .string _, .null | .string _, .bool _ | .string _, .int _ | .string _, .double _ | .string _, .array _ | .string _, .object _
  | .array _, .null | .array _, .bool _ | .array _, .int _ | .array _, .double _ | .array _, .string _ | .array _, .object _
  | .object _, .null | .object _, .bool _ | .object _, .int _ | .object _, .double _ | .object _, .string _ | .object _, .array _ =>
    isFalse (by intro e; cases e)
/-- Equality of lists of JSON values is decidable. -/
def Value.decEqList : (a b : List Value) → Decidable (a = b)
  | [], [] => isTrue rfl
  | [], _ :: _ => isFalse (by intro h; cases h)
  | _ :: _, [] => isFalse (by intro h; cases h)
  | x :: xs, y :: ys =>
    match Value.decEq x y with
    | isTrue hx =>
      match Value.decEqList xs ys with
      | isTrue hxs => isTrue (by rw [hx, hxs])
      | isFalse hxs => isFalse (by intro h; cases h; exact hxs rfl)
    | isFalse hx => isFalse (by intro h; cases h; exact hx rfl)
/-- Equality of member lists is decidable. -/
def Value.decEqMembers : (a b : List (String × Value)) → Decidable (a = b)
  | [], [] => isTrue rfl
  | [], _ :: _ => isFalse (by intro h; cases h)
  | _ :: _, [] => isFalse (by intro h; cases h)
  | (n, x) :: xs, (m, y) :: ys =>
    if hn : n = m then
      match Value.decEq x y with
      | isTrue hx =>
        match Value.decEqMembers xs ys with
        | isTrue hxs => isTrue (by rw [hn, hx, hxs])
        | isFalse hxs => isFalse (by intro h; cases h; exact hxs rfl)
      | isFalse hx => isFalse (by intro h; cases h; exact hx rfl)
    else isFalse (by intro h; cases h; exact hn rfl)
end
instance : DecidableEq Value := Value.decEq

/-- The members of a JSON object (`Value::Object` / `ConstObject`), in insertion order. -/
abbrev Object := List (String × Value)

/-- The method `GenericValue::GetType`. -/
def Value.GetType : Value → JsonType
  | .null => .kNullType
  | .bool false => .kFalseType
  | .bool true => .kTrueType
  | .int _ => .kNumberType
  | .double _ => .kNumberType
  | .string _ => .kStringType
  | .array _ => .kArrayType
  | .object _ => .kObjectType

/-- The method `GenericValue::IsString`. -/
def Value.IsString : Value → Bool
  | .string _ => true
  | _ => false

/-- The method `GenericValue::IsArray`. -/
def Value.IsArray : Value → Bool
  | .array _ => true
  | _ => false

/-- The method `GenericValue::IsObject`. -/
def Value.IsObject : Value → Bool
  | .object _ => true
  | _ => false

/-- The method `GenericValue::GetString`; only called after `IsString`.  The characters are
all those of the JSON string, as many as `GetStringLength()` tells; what C++ gets is a pointer to
them (see `Val.ofCString`). -/
def Value.GetString : Value → String
  | .string s => s
  | _ => ""

/-- The method `GenericValue::GetArray`; only called after `IsArray`. -/
def Value.GetArray : Value → List Value
  | .array items => items
  | _ => []

/-- The method `GenericValue::GetObject`; only called after `IsObject`. -/
def Value.GetObject : Value → Object
  | .object members => members
  | _ => []

/-- The method `GenericValue::FindMember`: the value of the first member named `name`, `none`
standing for `MemberEnd()`. -/
def FindMember : Object → String → Option Value
  | [], _ => none
  | (n, v) :: rest, name => if n = name then some v else FindMember rest name

/-- The method `GenericValue::AddMember`: appends, whatever the members already present. -/
def AddMember (value : Object) (name : String) (member : Value) : Object :=
  value ++ [(name, member)]

/-- The method `GenericValue::Reserve`: the elements are unchanged. -/
def Reserve (array : List Value) (_size : Nat) : List Value :=
  array

/-- The method `GenericValue::PushBack`. -/
def PushBack (value : List Value) (item : Value) : List Value :=
  value ++ [item]

/-! ## Host types and values -/

/-- The arithmetic types the scalar overloads are instantiated with (those RapidJSON has an
`Is<T>` / `Get<T>` for, floating point apart). -/
inductive ScalarType where
  | bool
  | int
  | unsigned
  | int64
  | uint64
  deriving DecidableEq, Repr

/-- The traits of an iteratable container that select the overload: `Traits::HasSize` and
`Traits::IsReservable`. -/
structure SeqTraits where
  hasSize : Bool
  isReservable : Bool
  deriving DecidableEq, Repr

/-- The static type of a field or of a sequence element. -/
inductive Ty where
  | scalar (t : ScalarType)
  | string
  | seq (traits : SeqTraits) (elem : Ty)
  deriving DecidableEq, Repr

/-- A host value of a type of `Ty`. -/
inductive Val where
  | bool (b : Bool)
  | int (i : Int)
  | string (s : String)
  | seq (items : List Val)

mutual
/-- Equality of host values is decidable. -/
def Val.decEq : (a b : Val) → Decidable (a = b)
  | .bool x, .bool y =>
    if h : x = y then isTrue (by rw [h])
    else isFalse (by intro e; cases e; exact h rfl)
  | .int x, .int y =>
    if h : x = y then isTrue (by rw [h])
    else isFalse (by intro e; cases e; exact h rfl)
  | .string x, .string y =>
    if h : x = y then isTrue (by rw [h])
    else isFalse (by intro e; cases e; exact h rfl)
  | .seq x, .seq y =>
    match Val.decEqList x y with
    | isTrue h => isTrue (by rw [h])
    | isFalse h => isFalse (by intro e; cases e; exact h rfl)
  | .bool _, .int _ => isFalse (by intro e; cases e)
  | .bool _, .string _ => isFalse (by intro e; cases e)
  | .bool _, .seq _ => isFalse (by intro e; cases e)
  | .int _, .bool _ => isFalse (by intro e; cases e)
  | .int _, .string _ => isFalse (by intro e; cases e)
  | .int _, .seq _ => isFalse (by intro e; cases e)
  | .string _, .bool _ => isFalse (by intro e; cases e)
  | .string _, .int _ => isFalse (by intro e; cases e)
  | .string _, .seq _ => isFalse (by intro e; cases e)
  | .seq _, .bool _ => isFalse (by intro e; cases e)
  | .seq _, .int _ => isFalse (by intro e; cases e)
  | .seq _, .string _ => isFalse (by intro e; cases e)
/-- Equality of lists of host values is decidable. -/
def Val.decEqList : (a b : List Val) → Decidable (a = b)
  | [], [] => isTrue rfl
  | [], _ :: _ => isFalse (by intro h; cases h)
  | _ :: _, [] => isFalse (by intro h; cases h)
  | x :: xs, y :: ys =>
    match Val.decEq x y with
    | isTrue hx =>
      match Val.decEqList xs ys with
      | isTrue hxs => isTrue (by rw [hx, hxs])
      | isFalse hxs => isFalse (by intro h; cases h; exact hxs rfl)
    | isFalse hx => isFalse (by intro h; cases h; exact hx rfl)
end
instance : DecidableEq Val := Val.decEq

/-- The lower bound (inclusive) and upper bound (exclusive) of an integral type. -/
def ScalarType.range : ScalarType → Int × Int
  | .bool => (0, 2)
  | .int => (-(2 ^ 31), 2 ^ 31)
  | .unsigned => (0, 2 ^ 32)
  | .int64 => (-(2 ^ 63), 2 ^ 63)
  | .uint64 => (0, 2 ^ 64)

/-- The template method `GenericValue::Is<T>`: `IsBool`, `IsInt`, `IsUint`, `IsInt64`, `IsUint64`.
An integer number carries the flag of every integral type whose range holds it; a double carries
none of them. -/
def Value.Is : ScalarType → Value → Bool
  | .bool, .bool _ => true
  | .bool, _ => false
  | t, .int i => decide (t.range.1 ≤ i) && decide (i < t.range.2)
  | _, _ => false

/-- The template method `GenericValue::Get<T>`; only called after `Is<T>`. -/
def Value.Get : ScalarType → Value → Val
  | .bool, .bool b => .bool b
  | .bool, _ => .bool false
  | _, .int i => .int i
  | _, _ => .int 0

/-- The value-initialised object `Type()`. -/
def Ty.default : Ty → Val
  | .scalar .bool => .bool false
  | .scalar _ => .int 0
  | .string => .string ""
  | .seq _ _ => .seq []

/-- The membership of a host value in a static type. -/
def Ty.hasType : Ty → Val → Bool
  | .scalar .bool, .bool _ => true
  | .scalar .bool, _ => false
  | .scalar t, .int i => decide (t.range.1 ≤ i) && decide (i < t.range.2)
  | .scalar _, _ => false
  | .string, .string _ => true
  | .string, _ => false
  | .seq _ e, .seq items => items.all (fun item => e.hasType item)
  | .seq _ _, _ => false

/-- Whether no text of a host value of the static type holds a NUL character. -/
def Ty.nulFree : Ty → Val → Bool
  | .string, .string s => s.data.all (fun c => c != Char.ofNat 0)
  | .seq _ e, .seq items => items.all (fun item => e.nulFree item)
  | _, _ => true

/-- The constructor `GenericValue(T)` for an arithmetic `T`. -/
def Value.ofScalar : Val → Value
  | .bool b => .bool b
  | .int i => .int i
  | _ => .null

/-- The items of a container, as iterated by a range-based `for`. -/
def Val.items : Val → List Val
  | .seq items => items
  | _ => []

/-- The contents of a `std::string`. -/
def Val.data : Val → String
  | .string s => s
  | _ => ""

/-- The `std::string` made from a `const char *`, as in `reflectable = value.GetString()`: the
characters before the first NUL character.  `GetString()` returns the pointer only, so what
follows a NUL in the JSON string is not copied. -/
def Val.ofCString (s : String) : Val :=
  .string (String.mk (s.data.takeWhile (fun c => c != Char.ofNat 0)))

/-! ## Error context -/

/-- Modelled from the spec: the error kinds of `errorhandling.h`, a header of this repository
that is not among the sources at hand. -/
inductive JsonDeserializationErrorKind where
  | TypeMismatch
  | MemberMissing
  deriving DecidableEq, Repr

/-- Modelled from the spec: one reported error of `errorhandling.h`: its kind, the JSON category
that was found, and the snapshot of the path (record, member, array index) at the time of the
report.  `none` is the null record or member name and the constant `noIndex`. -/
structure JsonDeserializationError where
  kind : JsonDeserializationErrorKind
  actualType : JsonType
  record : Option String
  member : Option String
  index : Option Nat
  deriving DecidableEq, Repr

/-- Modelled from the spec: the class `JsonDeserializationErrors` of `errorhandling.h`: the list
of the errors reported so far, in order, and the current path. -/
structure JsonDeserializationErrors where
  errors : List JsonDeserializationError
  currentRecord : Option String
  currentMember : Option String
  currentIndex : Option Nat
  deriving DecidableEq, Repr

/-- Modelled from the spec: the method `reportTypeMismatch` of `errorhandling.h`: appends one
`TypeMismatch` error carrying the found category and the current path. -/
def JsonDeserializationErrors.reportTypeMismatch (errors : JsonDeserializationErrors)
    (presentType : JsonType) : JsonDeserializationErrors :=
  { errors with
    errors := errors.errors ++
      [{ kind := .TypeMismatch, actualType := presentType, record := errors.currentRecord,
         member := errors.currentMember, index := errors.currentIndex }] }

/-- The statement `if (errors) { errors->reportTypeMismatch<Type>(presentType); }`. -/
def reportTypeMismatch (errors : Option JsonDeserializationErrors) (presentType : JsonType) :
    Option JsonDeserializationErrors :=
  errors.map (fun e => e.reportTypeMismatch presentType)

/-- The statement `if (errors) { errors->currentIndex = index; }`. -/
def setCurrentIndex (errors : Option JsonDeserializationErrors) (index : Option Nat) :
    Option JsonDeserializationErrors :=
  errors.map (fun e => { e with currentIndex := index })

/-- The statement `if (errors) { errors->currentMember = name; }`. -/
def setCurrentMember (errors : Option JsonDeserializationErrors) (name : Option String) :
    Option JsonDeserializationErrors :=
  errors.map (fun e => { e with currentMember := name })

/-- The statement `if (errors) { errors->currentRecord = name; }`. -/
def setCurrentRecord (errors : Option JsonDeserializationErrors) (name : Option String) :
    Option JsonDeserializationErrors :=
  errors.map (fun e => { e with currentRecord := name })

/-- The shape of a `pull` overload from a value: the destination and the error context after the
call, from the destination before it, the source and the error context. -/
abbrev Pull (α : Type) := α → Value → Option JsonDeserializationErrors →
  α × Option JsonDeserializationErrors

/-- The shape of a `pull` overload from an object, the one the code generator provides. -/
abbrev PullObject (α : Type) := α → Object → Option JsonDeserializationErrors →
  α × Option JsonDeserializationErrors

/-! ## The `pull` overloads of `lib/json/reflector.h` -/

/-- The overload `pull(Type &, const GenericValue &, errors)` for a custom type (l. 252-264). -/
def pullCustom {α : Type} (pullObject : PullObject α) : Pull α :=
  fun reflectable value errors =>
    if !value.IsObject then
      (reflectable, reportTypeMismatch errors value.GetType)
    else
      pullObject reflectable value.GetObject errors

/-- The overload `pull(Type &, const GenericValue &, errors)` for an integer or boolean
(l. 286-297). -/
def pullScalar (t : ScalarType) : Pull Val :=
  fun reflectable value errors =>
    if !value.Is t then
      (reflectable, reportTypeMismatch errors value.GetType)
    else
      (value.Get t, errors)

/-- The overload `pull<std::string>(std::string &, const GenericValue &, errors)` (l. 319-330). -/
def pullString : Pull Val :=
  fun reflectable value errors =>
    if !value.IsString then
      (reflectable, reportTypeMismatch errors value.GetType)
    else
      (Val.ofCString value.GetString, errors)

/-- The loop of the overload from a `ConstArray` (l. 420-429): for each item, sets the current
index, appends a value-initialised element and pulls the item into it. -/
def pullArrayLoop (pullItem : Pull Val) (fresh : Val) :
    List Value → Nat → List Val → Option JsonDeserializationErrors →
    List Val × Option JsonDeserializationErrors
  | [], _, reflectable, errors => (reflectable, errors)
  | item :: rest, index, reflectable, errors =>
    let r := pullItem fresh item (setCurrentIndex errors (some index))
    pullArrayLoop pullItem fresh rest (index + 1) (reflectable ++ [r.1]) r.2

/-- The overload `pull(Type &, ConstArray, errors)` for an iteratable (l. 413-435): clears the
destination, runs the loop, and sets the current index to `noIndex`. -/
def pullArray (pullItem : Pull Val) (fresh : Val) (_reflectable : Val) (array : List Value)
    (errors : Option JsonDeserializationErrors) : Val × Option JsonDeserializationErrors :=
  let r := pullArrayLoop pullItem fresh array 0 [] errors
  (.seq r.1, setCurrentIndex r.2 none)

/-- The overload `pull(Type &, const GenericValue &, errors)` for an iteratable without
`reserve()` (l. 378-390). -/
def pullIteratable (pullItem : Pull Val) (fresh : Val) : Pull Val :=
  fun reflectable value errors =>
    if !value.IsArray then
      (reflectable, reportTypeMismatch errors value.GetType)
    else
      pullArray pullItem fresh reflectable value.GetArray errors

/-- The method `reserve` of a container: the elements are unchanged. -/
def Val.reserve (reflectable : Val) (_size : Nat) : Val :=
  reflectable

/-- The overload `pull(Type &, const GenericValue &, errors)` for an iteratable with `reserve()`
(l. 395-408). -/
def pullReservable (pullItem : Pull Val) (fresh : Val) : Pull Val :=
  fun reflectable value errors =>
    if !value.IsArray then
      (reflectable, reportTypeMismatch errors value.GetType)
    else
      let array := value.GetArray
      pullArray pullItem fresh (reflectable.reserve array.length) array errors

/-- The overload of `pull` from a value that the static type `t` selects. -/
def pull : Ty → Pull Val
  | .scalar t => pullScalar t
  | .string => pullString
  | .seq traits elem =>
    if traits.isReservable then pullReservable (pull elem) elem.default
    else pullIteratable (pull elem) elem.default

/-- The overload `pull(Type &, const char *name, const ConstObject &, errors)` (l. 442-466): the
name-keyed member wrapper. -/
def pullMember {α : Type} (pullValue : Pull α) (reflectable : α) (name : String) (value : Object)
    (errors : Option JsonDeserializationErrors) : α × Option JsonDeserializationErrors :=
  match FindMember value name with
  | none => (reflectable, errors)
  | some member =>
    match errors with
    | none => pullValue reflectable member none
    | some e =>
      let previousMember := e.currentMember
      let r := pullValue reflectable member (some { e with currentMember := some name })
      (r.1, setCurrentMember r.2 previousMember)

/-! ## The `push` overloads of `lib/json/reflector.h` -/

/-- The overloads `push(reflectable, Value::Array &, allocator)` for a scalar (l. 74-78), a
`std::string` (l. 103-108) and an iteratable (l. 113-123). -/
def pushToArray : Ty → Val → List Value → List Value
  | .scalar _, reflectable, value => PushBack value (Value.ofScalar reflectable)
  | .string, reflectable, value => PushBack value (.string reflectable.data)
  | .seq _ elem, reflectable, value =>
    PushBack value
      (.array (reflectable.items.foldl (fun array item => pushToArray elem item array)
        (Reserve [] reflectable.items.length)))

/-- The overload `push(reflectable, const char *name, Value::Object &, allocator)` for an
iteratable without `size()` (l. 183-195). -/
def pushIteratableMember (pushItem : Val → List Value → List Value) (reflectable : Val)
    (name : String) (value : Object) : Object :=
  AddMember value name (.array (reflectable.items.foldl (fun array item => pushItem item array) []))

/-- The overload `push(reflectable, const char *name, Value::Object &, allocator)` for an
iteratable with `size()` (l. 200-212). -/
def pushSizedMember (pushItem : Val → List Value → List Value) (reflectable : Val)
    (name : String) (value : Object) : Object :=
  AddMember value name
    (.array (reflectable.items.foldl (fun array item => pushItem item array)
      (Reserve [] reflectable.items.length)))

/-- The overload `push(reflectable, const char *name, Value::Object &, allocator)` that the
static type selects: a scalar (l. 143-148), a `std::string` (l. 173-178) or an iteratable. -/
def pushMember : Ty → Val → String → Object → Object
  | .scalar _, reflectable, name, value => AddMember value name (Value.ofScalar reflectable)
  | .string, reflectable, name, value => AddMember value name (.string reflectable.data)
  | .seq traits elem, reflectable, name, value =>
    if traits.hasSize then pushSizedMember (pushToArray elem) reflectable name value
    else pushIteratableMember (pushToArray elem) reflectable name value

/-- The overload `push(reflectable, const char *name, Value::Object &, allocator)` for a custom
type (l. 128-138). -/
def pushCustomMember {α : Type} (pushObject : α → Object → Object) (reflectable : α)
    (name : String) (value : Object) : Object :=
  AddMember value name (.object (pushObject reflectable []))

/-- The overload `push(reflectable, Value::Array &, allocator)` for a custom type
(l. 217-226). -/
def pushCustomToArray {α : Type} (pushObject : α → Object → Object) (reflectable : α)
    (value : List Value) : List Value :=
  PushBack value (.object (pushObject reflectable []))

/-! ## Values of the right kind -/

/-- Whether a JSON value has the kind the static type asks for, at every level of nesting:
what the `Is<T>`, `IsString` and `IsArray` tests of the `pull` overloads check. -/
def Ty.accepts : Ty → Value → Bool
  | .scalar t, v => v.Is t
  | .string, v => v.IsString
  | .seq _ e, .array items => items.all (fun item => e.accepts item)
  | .seq _ _, _ => false

/-- The host value that is stored from a JSON value of the right kind: what `Get<T>`, the
C string of `GetString` and the items of `GetArray` give. -/
def Ty.decode : Ty → Value → Val
  | .scalar t, v => v.Get t
  | .string, v => Val.ofCString v.GetString
  | .seq _ e, v => .seq (v.GetArray.map (fun item => e.decode item))

/-- The JSON value the `push` overloads create for a host value. -/
def Ty.encode : Ty → Val → Value
  | .scalar _, v => Value.ofScalar v
  | .string, v => .string v.data
  | .seq _ e, v => .array (v.items.map (fun item => e.encode item))

/-! ## Declarations, as far as the code generator inspects them -/

/-- A `clang::FieldDecl`: the name (`getName()`) and the static type of a data member. -/
structure FieldDecl where
  name : String
  type : Ty
  deriving DecidableEq, Repr

/-- A `clang::CXXRecordDecl`: the qualified name, whether a definition exists, the records of the
direct base specifiers (`bases()`) and the data members declared by the class itself
(`fields()`).  A declaration handle is the declaration: two handles are the same pointer when
they are the same term, and a class cannot be among its own bases. -/
inductive CXXRecordDecl where
  | mk (qualifiedName : String) (hasDefinition : Bool) (bases : List CXXRecordDecl)
      (fields : List FieldDecl)

/-- The method `getQualifiedNameAsString`. -/
def CXXRecordDecl.getQualifiedNameAsString : CXXRecordDecl → String
  | .mk qualifiedName _ _ _ => qualifiedName

/-- The method `hasDefinition`. -/
def CXXRecordDecl.hasDefinition : CXXRecordDecl → Bool
  | .mk _ hasDefinition _ _ => hasDefinition

/-- The method `bases`. -/
def CXXRecordDecl.bases : CXXRecordDecl → List CXXRecordDecl
  | .mk _ _ bases _ => bases

/-- The method `fields`. -/
def CXXRecordDecl.fields : CXXRecordDecl → List FieldDecl
  | .mk _ _ _ fields => fields

mutual
/-- Equality of declaration handles is decidable. -/
def CXXRecordDecl.decEq : (a b : CXXRecordDecl) → Decidable (a = b)
  | .mk n1 h1 b1 f1, .mk n2 h2 b2 f2 =>
    if hn : n1 = n2 then
      if hh : h1 = h2 then
        if hf : f1 = f2 then
          match CXXRecordDecl.decEqList b1 b2 with
          | isTrue hb => isTrue (by subst hn hh hf hb; rfl)
          | isFalse hb => isFalse (by intro h; cases h; exact hb rfl)
        else isFalse (by intro h; cases h; exact hf rfl)
      else isFalse (by intro h; cases h; exact hh rfl)
    else isFalse (by intro h; cases h; exact hn rfl)
/-- Equality of lists of declaration handles is decidable. -/
def CXXRecordDecl.decEqList : (a b : List CXXRecordDecl) → Decidable (a = b)
  | [], [] => isTrue rfl
  | [], _ :: _ => isFalse (by intro h; cases h)
  | _ :: _, [] => isFalse (by intro h; cases h)
  | x :: xs, y :: ys =>
    match CXXRecordDecl.decEq x y with
    | isTrue hx =>
      match CXXRecordDecl.decEqList xs ys with
      | isTrue hxs => isTrue (by subst hx hxs; rfl)
      | isFalse hxs => isFalse (by intro h; cases h; exact hxs rfl)
    | isFalse hx => isFalse (by intro h; cases h; exact hx rfl)
end

instance : DecidableEq CXXRecordDecl := CXXRecordDecl.decEq

mutual
/-- Whether `base` is a direct or indirect base class of the record. -/
def CXXRecordDecl.hasBase : CXXRecordDecl → CXXRecordDecl → Bool
  | .mk _ _ bases _, base => CXXRecordDecl.hasBaseIn bases base
/-- Whether `base` is one of the records of the list or a direct or indirect base class of
one of them. -/
def CXXRecordDecl.hasBaseIn : List CXXRecordDecl → CXXRecordDecl → Bool
  | [], _ => false
  | b :: bs, base => decide (b = base) || b.hasBase base || CXXRecordDecl.hasBaseIn bs base
end

/-- The method `CXXRecordDecl::isDerivedFrom`: false for the class itself, else whether `base`
is a direct or indirect base class. -/
def CXXRecordDecl.isDerivedFrom (record base : CXXRecordDecl) : Bool :=
  if record = base then false else record.hasBase base

mutual
/-- The height of the inheritance graph above the record: 0 without base classes. -/
def CXXRecordDecl.depth : CXXRecordDecl → Nat
  | .mk _ _ bases _ => CXXRecordDecl.depthIn bases
/-- One more than the largest height of the records of the list, 0 for the empty list. -/
def CXXRecordDecl.depthIn : List CXXRecordDecl → Nat
  | [] => 0
  | b :: bs => max (b.depth + 1) (CXXRecordDecl.depthIn bs)
end

/-! ## Objects of a class -/

/-- One data member of an object: the class that declares it, its name and its value. -/
structure Slot where
  owner : CXXRecordDecl
  name : String
  value : Val
  deriving DecidableEq

/-- An object of a class: its data members, those of the base class sub-objects included.  A
reference to a base class sub-object (`static_cast<Base &>(reflectable)`) is the same object,
looked at through the members `Base` declares. -/
abbrev Reflectable := List Slot

/-- The member access `reflectable.name` in the scope of class `owner`: the value of the first
slot of that class and name. -/
def Reflectable.getField : Reflectable → CXXRecordDecl → FieldDecl → Val
  | [], _, field => field.type.default
  | s :: rest, owner, field =>
    if s.owner = owner ∧ s.name = field.name then s.value
    else Reflectable.getField rest owner field

/-- The assignment to `reflectable.name` in the scope of class `owner`: replaces the value of
the slot that `getField` reads. -/
def Reflectable.setField : Reflectable → CXXRecordDecl → FieldDecl → Val → Reflectable
  | [], _, _, _ => []
  | s :: rest, owner, field, value =>
    if s.owner = owner ∧ s.name = field.name then { s with value := value } :: rest
    else s :: Reflectable.setField rest owner field value

mutual
/-- The data members of an object of the class, base class sub-objects first, each with the
class that declares it. -/
def CXXRecordDecl.layout : CXXRecordDecl → List (CXXRecordDecl × FieldDecl)
  | .mk qualifiedName hasDefinition bases fields =>
    CXXRecordDecl.layoutIn bases ++
      fields.map (fun f => (CXXRecordDecl.mk qualifiedName hasDefinition bases fields, f))
/-- The data members of the base class sub-objects of the list, in order. -/
def CXXRecordDecl.layoutIn : List CXXRecordDecl → List (CXXRecordDecl × FieldDecl)
  | [] => []
  | b :: bs => b.layout ++ CXXRecordDecl.layoutIn bs
end

/-- The value-initialised object `Type()` of a class. -/
def CXXRecordDecl.default (record : CXXRecordDecl) : Reflectable :=
  record.layout.map (fun p => { owner := p.1, name := p.2.name, value := p.2.type.default })

/-- Whether the slots are those of the given data members, in order, each holding a value of
the static type of its member. -/
def Reflectable.hasLayout : Reflectable → List (CXXRecordDecl × FieldDecl) → Bool
  | [], [] => true
  | s :: slots, p :: members =>
    decide (s.owner = p.1) && decide (s.name = p.2.name) && p.2.type.hasType s.value &&
      Reflectable.hasLayout slots members
  | _, _ => false

/-- The membership of an object in a class. -/
def CXXRecordDecl.hasInstance (record : CXXRecordDecl) (reflectable : Reflectable) : Bool :=
  reflectable.hasLayout record.layout

/-! ## The code generator `generator/jsonserializationcodegenerator.cpp` -/

/-- The structure `JsonSerializationCodeGenerator::RelevantClass`: an entry of
`m_relevantClasses`. -/
structure RelevantClass where
  qualifiedName : String
  record : CXXRecordDecl
  deriving DecidableEq

/-- The method `findRelevantBaseClasses` (l. 145-155). -/
def findRelevantBaseClasses (m_relevantClasses : List RelevantClass)
    (relevantClass : RelevantClass) : List RelevantClass :=
  m_relevantClasses.filter (fun otherClass =>
    decide (relevantClass.record ≠ otherClass.record) &&
      relevantClass.record.isDerivedFrom otherClass.record)

/-- The statements the generator writes into the body of a `push` or `pull` specialisation. -/
inductive Statement where
  /-- The line `push(static_cast<const ::Base &>(reflectable), value, allocator);`. -/
  | pushBase (baseClass : RelevantClass)
  /-- The line `push(reflectable.field, "field", value, allocator);`. -/
  | pushField (field : FieldDecl)
  /-- The line `pull(static_cast<::Base &>(reflectable), value, errors);`. -/
  | pullBase (baseClass : RelevantClass)
  /-- The lines `const char *previousRecord; if (errors) { previousRecord =
  errors->currentRecord; errors->currentRecord = "Name"; }`. -/
  | setRecord (qualifiedName : String)
  /-- The line `pull(reflectable.field, "field", value, errors);`. -/
  | pullField (field : FieldDecl)
  /-- The lines `if (errors) { errors->currentRecord = previousRecord; }`. -/
  | restoreRecord
  deriving DecidableEq

/-- The body of the `push` specialisation written for a class (l. 74-85). -/
def generatePush (m_relevantClasses : List RelevantClass) (relevantClass : RelevantClass) :
    List Statement :=
  (findRelevantBaseClasses m_relevantClasses relevantClass).map Statement.pushBase ++
    relevantClass.record.fields.map Statement.pushField

/-- The body of the `pull` specialisation written for a class (l. 87-112). -/
def generatePull (m_relevantClasses : List RelevantClass) (relevantClass : RelevantClass) :
    List Statement :=
  (findRelevantBaseClasses m_relevantClasses relevantClass).map Statement.pullBase ++
    [Statement.setRecord relevantClass.qualifiedName] ++
    relevantClass.record.fields.map Statement.pullField ++
    [Statement.restoreRecord]

/-! ## Running the generated code -/

/-- The effect of one statement of a generated `push` body of class `self`; `callBase` is the
`push` specialisation of a base class. -/
def execPush (callBase : RelevantClass → Reflectable → Object → Object) (self : CXXRecordDecl)
    (reflectable : Reflectable) : Statement → Object → Object
  | .pushBase baseClass, value => callBase baseClass reflectable value
  | .pushField field, value =>
    pushMember field.type (reflectable.getField self field) field.name value
  | _, value => value

/-- The generated `push` specialisation of a class, where the calls for base classes are
followed `fuel` levels up; with no level left a base class call does nothing.  A relevant base
class is less deep than the class (`depth_lt_of_mem_findRelevantBaseClasses`), so with
`fuel` the depth of the class every call is followed (`pushGenerated_unfold`). -/
def pushGenerated (m_relevantClasses : List RelevantClass) :
    Nat → RelevantClass → Reflectable → Object → Object
  | 0, relevantClass, reflectable, value =>
    (generatePush m_relevantClasses relevantClass).foldl
      (fun v s => execPush (fun _ _ v0 => v0) relevantClass.record reflectable s v) value
  | fuel + 1, relevantClass, reflectable, value =>
    (generatePush m_relevantClasses relevantClass).foldl
      (fun v s =>
        execPush (pushGenerated m_relevantClasses fuel) relevantClass.record reflectable s v)
      value

/-- The generated specialisation `push<Class>(reflectable, Value::Object &, allocator)`. -/
def pushRecord (m_relevantClasses : List RelevantClass) (relevantClass : RelevantClass) :
    Reflectable → Object → Object :=
  pushGenerated m_relevantClasses relevantClass.record.depth relevantClass

/-- The variables of a generated `pull` body: the destination, the error context and the local
`previousRecord`. -/
structure PullState where
  reflectable : Reflectable
  errors : Option JsonDeserializationErrors
  previousRecord : Option String
  deriving DecidableEq

/-- The effect of one statement of a generated `pull` body of class `self`; `callBase` is the
`pull` specialisation of a base class. -/
def execPull (callBase : RelevantClass → PullObject Reflectable) (self : CXXRecordDecl)
    (value : Object) : Statement → PullState → PullState
  | .pullBase baseClass, s =>
    let r := callBase baseClass s.reflectable value s.errors
    { s with reflectable := r.1, errors := r.2 }
  | .setRecord qualifiedName, s =>
    match s.errors with
    | none => s
    | some e =>
      { s with previousRecord := e.currentRecord
               errors := some { e with currentRecord := some qualifiedName } }
  | .pullField field, s =>
    let r := pullMember (pull field.type) (s.reflectable.getField self field) field.name value
      s.errors
    { s with reflectable := s.reflectable.setField self field r.1, errors := r.2 }
  | .restoreRecord, s => { s with errors := setCurrentRecord s.errors s.previousRecord }
  | _, s => s

/-- The generated `pull` specialisation of a class, where the calls for base classes are
followed `fuel` levels up; with no level left a base class call does nothing.  With `fuel` the
depth of the class every call is followed (`pullGenerated_unfold`). -/
def pullGenerated (m_relevantClasses : List RelevantClass) :
    Nat → RelevantClass → PullObject Reflectable
  | 0, relevantClass, reflectable, value, errors =>
    let s := (generatePull m_relevantClasses relevantClass).foldl
      (fun s st => execPull (fun _ r _ e => (r, e)) relevantClass.record value st s)
      { reflectable := reflectable, errors := errors, previousRecord := none }
    (s.reflectable, s.errors)
  | fuel + 1, relevantClass, reflectable, value, errors =>
    let s := (generatePull m_relevantClasses relevantClass).foldl
      (fun s st =>
        execPull (pullGenerated m_relevantClasses fuel) relevantClass.record value st s)
      { reflectable := reflectable, errors := errors, previousRecord := none }
    (s.reflectable, s.errors)

/-- The generated specialisation `pull<Class>(reflectable, const ConstObject &, errors)`. -/
def pullRecord (m_relevantClasses : List RelevantClass) (relevantClass : RelevantClass) :
    PullObject Reflectable :=
  pullGenerated m_relevantClasses relevantClass.record.depth relevantClass

/-! ## The two phases of a generated body -/

/-- The base class calls of a generated `push` body, in order. -/
def pushBases (callBase : RelevantClass → Reflectable → Object → Object)
    (reflectable : Reflectable) (bases : List RelevantClass) (value : Object) : Object :=
  bases.foldl (fun v b => callBase b reflectable v) value

/-- The member pushes of a generated `push` body of class `self`, in order. -/
def pushFields (self : CXXRecordDecl) (reflectable : Reflectable) (fields : List FieldDecl)
    (value : Object) : Object :=
  fields.foldl (fun v f => pushMember f.type (reflectable.getField self f) f.name v) value

/-- The base class calls of a generated `pull` body, in order. -/
def pullBases (callBase : RelevantClass → PullObject Reflectable) (value : Object)
    (bases : List RelevantClass) (s : Reflectable × Option JsonDeserializationErrors) :
    Reflectable × Option JsonDeserializationErrors :=
  bases.foldl (fun s b => callBase b s.1 value s.2) s

/-- One member pull of a generated `pull` body of class `self`. -/
def pullField (self : CXXRecordDecl) (value : Object) (field : FieldDecl)
    (s : Reflectable × Option JsonDeserializationErrors) :
    Reflectable × Option JsonDeserializationErrors :=
  let r := pullMember (pull field.type) (s.1.getField self field) field.name value s.2
  (s.1.setField self field r.1, r.2)

/-- The member pulls of a generated `pull` body of class `self`, in order. -/
def pullFields (self : CXXRecordDecl) (value : Object) (fields : List FieldDecl)
    (s : Reflectable × Option JsonDeserializationErrors) :
    Reflectable × Option JsonDeserializationErrors :=
  fields.foldl (fun s f => pullField self value f s) s

/-- The record name a generated `pull` body saves in `previousRecord`. -/
def savedRecord (errors : Option JsonDeserializationErrors) : Option String :=
  errors.bind (fun e => e.currentRecord)

/-! ## Error contexts after further reports -/

/-- The error context `before` after the errors `appended` were reported and the current index
became `index`; the current record and member are those of `before`. -/
def JsonDeserializationErrors.appended (before : JsonDeserializationErrors)
    (appended : List JsonDeserializationError) (index : Option Nat) :
    JsonDeserializationErrors :=
  { before with errors := before.errors ++ appended, currentIndex := index }

/-- The error context `after` is `before` with further errors reported, with the current record
and member of `before`, and with the current index of `before` or `noIndex`. -/
def JsonDeserializationErrors.Continues (before : JsonDeserializationErrors)
    (after : Option JsonDeserializationErrors) : Prop :=
  ∃ app idx, after = some (before.appended app idx) ∧ (idx = before.currentIndex ∨ idx = none)

/-- Whether the static type is a boolean, integer or text type, not a sequence. -/
def Ty.isLeaf : Ty → Bool
  | .scalar _ => true
  | .string => true
  | .seq _ _ => false

/-- Whether a JSON value has the kind that the `pull` overload selected by the static type tests
for before anything else: `Is<T>` (l. 290), `IsString` (l. 323) or `IsArray` (l. 383, 399). -/
def Ty.kindMatches : Ty → Value → Bool
  | .scalar t, v => v.Is t
  | .string, v => v.IsString
  | .seq _ _, v => v.IsArray

/-- The error the member pull of a scalar or text data member leaves under the given record
name and index: none when the object has no member of the name of the data member or the member
has the right kind, else one `TypeMismatch` with the kind that was found. -/
def FieldDecl.mismatch (field : FieldDecl) (record : Option String) (index : Option Nat)
    (value : Object) : Option JsonDeserializationError :=
  match FindMember value field.name with
  | none => none
  | some member =>
    if field.type.accepts member then none
    else some { kind := .TypeMismatch, actualType := member.GetType, record := record,
                member := some field.name, index := index }

/-! ## Discovery of the relevant classes -/

/-- A `clang::Decl`, by its kind: a `CXXRecord` with its record, an `Enum`, or a declaration of
any other kind. -/
inductive Decl where
  | CXXRecord (record : CXXRecordDecl)
  | Enum
  | Other

/-- An `ApplicationUtilities::Argument` after the command line was read: whether the argument
is present, and its values. -/
structure Argument where
  isPresent : Bool
  values : List String

/-- The structure `JsonSerializationCodeGenerator::Options`. -/
structure Options where
  additionalClassesArg : Argument

/-- The class `JsonSerializationCodeGenerator`: the options and the catalogue of the relevant
classes found so far. -/
structure JsonSerializationCodeGenerator where
  m_options : Options
  m_relevantClasses : List RelevantClass

/-- Modelled from the spec: the constant `JsonSerializable<void>::qualifiedName` of
`lib/json/serializable.h`, a header that is not among the sources: the qualified name of the
marker type, as the comment in `addDeclaration` gives it. -/
def JsonSerializable.qualifiedName : String :=
  "ReflectiveRapidJSON::JsonSerializable"

/-- The loop of `CodeGenerator::inheritsFromInstantiationOf` over the base specifiers. -/
def CodeGenerator.inheritsFromInstantiationOfLoop : List CXXRecordDecl → String → Bool
  | [], _ => false
  | baseDecl :: rest, templateClass =>
    if baseDecl.getQualifiedNameAsString = templateClass then true
    else CodeGenerator.inheritsFromInstantiationOfLoop rest templateClass

/-- The function `CodeGenerator::inheritsFromInstantiationOf` (`moc/codegenerator.cpp`,
l. 41-50): whether a direct base class has the qualified name `templateClass`. -/
def CodeGenerator.inheritsFromInstantiationOf (record : CXXRecordDecl)
    (templateClass : String) : Bool :=
  CodeGenerator.inheritsFromInstantiationOfLoop record.bases templateClass

/-- The loop of `qualifiedNameIfRelevant` over the values of the argument (l. 136-142). -/
def JsonSerializationCodeGenerator.qualifiedNameIfListed : List String → String → String
  | [], _ => ""
  | className :: rest, qualifiedName =>
    if className = qualifiedName then qualifiedName
    else JsonSerializationCodeGenerator.qualifiedNameIfListed rest qualifiedName

/-- The method `qualifiedNameIfRelevant` (l. 123-143): the qualified name of the record if it
is considered relevant, else the empty string. -/
def JsonSerializationCodeGenerator.qualifiedNameIfRelevant
    (generator : JsonSerializationCodeGenerator) (record : CXXRecordDecl) : String :=
  if CodeGenerator.inheritsFromInstantiationOf record JsonSerializable.qualifiedName then
    record.getQualifiedNameAsString
  else if !generator.m_options.additionalClassesArg.isPresent then
    ""
  else
    JsonSerializationCodeGenerator.qualifiedNameIfListed
      generator.m_options.additionalClassesArg.values record.getQualifiedNameAsString

/-- The method `addDeclaration` (l. 31-53). -/
def JsonSerializationCodeGenerator.addDeclaration (generator : JsonSerializationCodeGenerator)
    (decl : Decl) : JsonSerializationCodeGenerator :=
  match decl with
  | .CXXRecord record =>
    if !record.hasDefinition then
      generator
    else
      let qualifiedName := generator.qualifiedNameIfRelevant record
      if !qualifiedName.isEmpty then
        { generator with
          m_relevantClasses := generator.m_relevantClasses ++
            [{ qualifiedName := qualifiedName, record := record }] }
      else
        generator
  | .Enum => generator
  | .Other => generator

/-- The class `JSONSerializationCodeGenerator` of `moc/codegenerator.cpp`: the catalogue of the
relevant classes found so far. -/
structure JSONSerializationCodeGenerator where
  m_relevantClasses : List RelevantClass

/-- Modelled from the spec: the constant `JSONSerializable<void>::qualifiedName` of
`lib/jsonserializable.h`, a header that is not among the sources: the qualified name of the
marker type, as the comment in `addDeclaration` of `moc/codegenerator.cpp` gives it. -/
def JSONSerializable.qualifiedName : String :=
  "ReflectiveRapidJSON::JSONSerializable"

/-- The method `JSONSerializationCodeGenerator::addDeclaration` (`moc/codegenerator.cpp`,
l. 52-72). -/
def JSONSerializationCodeGenerator.addDeclaration (generator : JSONSerializationCodeGenerator)
    (decl : Decl) : JSONSerializationCodeGenerator :=
  match decl with
  | .CXXRecord record =>
    if !record.hasDefinition then
      generator
    else if CodeGenerator.inheritsFromInstantiationOf record JSONSerializable.qualifiedName then
      { generator with
        m_relevantClasses := generator.m_relevantClasses ++
          [{ qualifiedName := record.getQualifiedNameAsString, record := record }] }
    else
      generator
  | .Enum => generator
  | .Other => generator

/-! ## The text written by `generate`

The output stream is a `String`; `os << text` appends `text` to it. -/

/-- The text that `generate` writes for a statement of a body (l. 79, 83, 94, 97-103, 106,
109-111). -/
def Statement.text : Statement → String
  | .pushBase baseClass =>
    "    push(static_cast<const ::" ++ baseClass.qualifiedName ++
      " &>(reflectable), value, allocator);\n"
  | .pushField field =>
    "    push(reflectable." ++ field.name ++ ", \"" ++ field.name ++
      "\", value, allocator);\n"
  | .pullBase baseClass =>
    "    pull(static_cast<::" ++ baseClass.qualifiedName ++
      " &>(reflectable), value, errors);\n"
  | .setRecord qualifiedName =>
    "    const char *previousRecord;\n" ++
    "    if (errors) \x7b\n" ++
    "        previousRecord = errors->currentRecord;\n" ++
    "        errors->currentRecord = \"" ++
    qualifiedName ++
    "\";\n" ++
    "    \x7d\n"
  | .pullField field =>
    "    pull(reflectable." ++ field.name ++ ", \"" ++ field.name ++
      "\", value, errors);\n"
  | .restoreRecord =>
    "    if (errors) \x7b\n" ++
    "        errors->currentRecord = previousRecord;\n" ++
    "    \x7d\n"

/-- The part of the loop body of `generate` under the comment `print push method`
(l. 74-85). -/
def JsonSerializationCodeGenerator.printPushMethod (relevantBases : List RelevantClass)
    (relevantClass : RelevantClass) (os : String) : String :=
  let os := os ++ "template <> inline void push<::" ++ relevantClass.qualifiedName ++
    ">(const ::" ++ relevantClass.qualifiedName ++
    " &reflectable, ::RAPIDJSON_NAMESPACE::Value::Object &value, ::RAPIDJSON_NAMESPACE::Document::AllocatorType &allocator)\n\x7b\n" ++
    "    // push base classes\n"
  let os := relevantBases.foldl (fun os baseClass =>
    os ++ "    push(static_cast<const ::" ++ baseClass.qualifiedName ++
      " &>(reflectable), value, allocator);\n") os
  let os := os ++ "    // push members\n"
  let os := relevantClass.record.fields.foldl (fun os field =>
    os ++ "    push(reflectable." ++ field.name ++ ", \"" ++ field.name ++
      "\", value, allocator);\n") os
  os ++ "\x7d\n"

/-- The part of the loop body of `generate` under the comment `print pull method`
(l. 87-112). -/
def JsonSerializationCodeGenerator.printPullMethod (relevantBases : List RelevantClass)
    (relevantClass : RelevantClass) (os : String) : String :=
  let os := os ++ "template <> inline void pull<::" ++ relevantClass.qualifiedName ++
    ">(::" ++ relevantClass.qualifiedName ++
    " &reflectable, const ::RAPIDJSON_NAMESPACE::GenericValue<::RAPIDJSON_NAMESPACE::UTF8<char>>::ConstObject &value, " ++
    "JsonDeserializationErrors " ++
    "*errors)\n\x7b\n" ++
    "    // pull base classes\n"
  let os := relevantBases.foldl (fun os baseClass =>
    os ++ "    pull(static_cast<::" ++ baseClass.qualifiedName ++
      " &>(reflectable), value, errors);\n") os
  let os := os ++ "    // set error context for current record\n" ++
    "    const char *previousRecord;\n" ++
    "    if (errors) \x7b\n" ++
    "        previousRecord = errors->currentRecord;\n" ++
    "        errors->currentRecord = \"" ++
    relevantClass.qualifiedName ++
    "\";\n" ++
    "    \x7d\n" ++
    "    // pull members\n"
  let os := relevantClass.record.fields.foldl (fun os field =>
    os ++ "    pull(reflectable." ++ field.name ++ ", \"" ++ field.name ++
      "\", value, errors);\n") os
  let os := os ++ "    // restore error context for previous record\n" ++
    "    if (errors) \x7b\n" ++
    "        errors->currentRecord = previousRecord;\n" ++
    "    \x7d\n"
  os ++ "\x7d\n\n"

/-- The body of the loop of `generate` over the relevant classes (l. 67-113). -/
def JsonSerializationCodeGenerator.generateClass (generator : JsonSerializationCodeGenerator)
    (os : String) (relevantClass : RelevantClass) : String :=
  let os := os ++ "// define code for (de)serializing " ++ relevantClass.qualifiedName ++
    " objects\n"
  let relevantBases := findRelevantBaseClasses generator.m_relevantClasses relevantClass
  let os := JsonSerializationCodeGenerator.printPushMethod relevantBases relevantClass os
  JsonSerializationCodeGenerator.printPullMethod relevantBases relevantClass os

/-- The method `generate` (l. 55-118): the stream after the code for all relevant classes was
written to it. -/
def JsonSerializationCodeGenerator.generate (generator : JsonSerializationCodeGenerator)
    (os : String) : String :=
  if generator.m_relevantClasses.isEmpty then
    os
  else
    let os := os ++ "namespace ReflectiveRapidJSON \x7b\n" ++
      "namespace JsonReflector \x7b\n\n"
    let os := generator.m_relevantClasses.foldl generator.generateClass os
    os ++ "\x7d // namespace JsonReflector\n" ++
      "\x7d // namespace ReflectiveRapidJSON\n"

/-- The part of the loop body of `JSONSerializationCodeGenerator::generate` under the comment
`print push method` (`moc/codegenerator.cpp`, l. 87-93). -/
def JSONSerializationCodeGenerator.printPushMethod (relevantClass : RelevantClass)
    (os : String) : String :=
  let os := os ++ "template <> inline void push<::" ++ relevantClass.qualifiedName ++
    ">(const ::" ++ relevantClass.qualifiedName ++
    " &reflectable, ::RAPIDJSON_NAMESPACE::Value::Object &value, ::RAPIDJSON_NAMESPACE::Document::AllocatorType &allocator)\n\x7b\n"
  let os := relevantClass.record.fields.foldl (fun os field =>
    os ++ "    push(reflectable." ++ field.name ++ ", \"" ++ field.name ++
      "\", value, allocator);\n") os
  os ++ "\x7d\n"

/-- The part of the loop body of `JSONSerializationCodeGenerator::generate` under the comment
`print pull method` (`moc/codegenerator.cpp`, l. 95-101). -/
def JSONSerializationCodeGenerator.printPullMethod (relevantClass : RelevantClass)
    (os : String) : String :=
  let os := os ++ "template <> inline void pull<::" ++ relevantClass.qualifiedName ++
    ">(::" ++ relevantClass.qualifiedName ++
    " &reflectable, const ::RAPIDJSON_NAMESPACE::GenericValue<::RAPIDJSON_NAMESPACE::UTF8<char>>::ConstObject &value)\n\x7b\n"
  let os := relevantClass.record.fields.foldl (fun os field =>
    os ++ "    pull(reflectable." ++ field.name ++ ", \"" ++ field.name ++
      "\", value);\n") os
  os ++ "\x7d\n\n"

/-- The body of the loop of `JSONSerializationCodeGenerator::generate` over the relevant
classes (`moc/codegenerator.cpp`, l. 86-102). -/
def JSONSerializationCodeGenerator.generateClass (os : String)
    (relevantClass : RelevantClass) : String :=
  let os := JSONSerializationCodeGenerator.printPushMethod relevantClass os
  JSONSerializationCodeGenerator.printPullMethod relevantClass os

/-- The method `JSONSerializationCodeGenerator::generate` (`moc/codegenerator.cpp`,
l. 74-107). -/
def JSONSerializationCodeGenerator.generate (generator : JSONSerializationCodeGenerator)
    (os : String) : String :=
  if generator.m_relevantClasses.isEmpty then
    os
  else
    let os := os ++ "namespace ReflectiveRapidJSON \x7b\n" ++
      "namespace Reflector \x7b\n\n"
    let os := generator.m_relevantClasses.foldl JSONSerializationCodeGenerator.generateClass os
    os ++ "\x7d // namespace Reflector\n" ++
      "\x7d // namespace ReflectiveRapidJSON\n"

/-! ## The relevance rule in the words of the specification -/

/-- The relevance rule as the specification words it: the type has a definition, and either a
direct supertype is an instantiation of the marker type, or the inclusion list is configured
and holds the qualified name of the type. -/
def Spec.relevant (options : Options) (record : CXXRecordDecl) : Prop :=
  record.hasDefinition = true ∧
    ((∃ base ∈ record.bases,
        base.getQualifiedNameAsString = JsonSerializable.qualifiedName) ∨
      (options.additionalClassesArg.isPresent = true ∧
        record.getQualifiedNameAsString ∈ options.additionalClassesArg.values))

instance Spec.relevant.decidable (options : Options) (record : CXXRecordDecl) :
    Decidable (Spec.relevant options record) :=
  inferInstanceAs (Decidable (record.hasDefinition = true ∧
    ((∃ base ∈ record.bases,
        base.getQualifiedNameAsString = JsonSerializable.qualifiedName) ∨
      (options.additionalClassesArg.isPresent = true ∧
        record.getQualifiedNameAsString ∈ options.additionalClassesArg.values))))

/-- The catalogue entry the specification expects for a declaration: the qualified name and
the record of a relevant structured type, and nothing for any other declaration. -/
def Spec.catalogEntry (options : Options) : Decl → Option RelevantClass
  | .CXXRecord record =>
    if Spec.relevant options record then
      some { qualifiedName := record.getQualifiedNameAsString, record := record }
    else none
  | .Enum => none
  | .Other => none

/-- The relevance rule of the earlier generator in `moc`: the type has a definition and a
direct supertype is an instantiation of its marker type. -/
def Spec.mocCatalogEntry : Decl → Option RelevantClass
  | .CXXRecord record =>
    if record.hasDefinition = true ∧
        (∃ base ∈ record.bases,
          base.getQualifiedNameAsString = JSONSerializable.qualifiedName) then
      some { qualifiedName := record.getQualifiedNameAsString, record := record }
    else none
  | .Enum => none
  | .Other => none

/-! ## The entry points `fromJson` of `lib/json/reflector.h` -/

/-- The class `rapidjson::ParseResult`: whether the parse failed, the error code and the
offset of the error. -/
structure ParseResult where
  IsError : Bool
  code : Nat
  offset : Nat
  deriving DecidableEq, Repr

/-- The method `Document::Parse(json, jsonSize)` of RapidJSON: the document and the parse
result.  The parser is an argument of the entry points. -/
abbrev Parser := String → Nat → Value × ParseResult

/-- The function `parseJsonDocFromString` (l. 40-48): the parsed document, or the thrown
`ParseResult`. -/
def parseJsonDocFromString (Parse : Parser) (json : String) (jsonSize : Nat) :
    Except ParseResult Value :=
  let document := Parse json jsonSize
  if document.2.IsError then
    throw document.2
  else
    pure document.1

/-- The function `fromJson` for a custom type (l. 519-533).  `fresh` is the value-initialised
object `Type()` that is returned for a document of another kind (l. 527); `res` is the object
that the declaration `Type res;` (l. 530) creates, which is default-initialised: its members
without an initialiser of their own hold no determined value, so it is an argument. -/
def fromJsonCustom {α : Type} (Parse : Parser) (pullObject : PullObject α) (fresh res : α)
    (json : String) (jsonSize : Nat) (errors : Option JsonDeserializationErrors) :
    Except ParseResult (α × Option JsonDeserializationErrors) :=
  match parseJsonDocFromString Parse json jsonSize with
  | .error parseRes => throw parseRes
  | .ok doc =>
    if !doc.IsObject then
      pure (fresh, reportTypeMismatch errors doc.GetType)
    else
      pure (pullObject res doc.GetObject errors)

/-- The function `fromJson` for an integer or boolean (l. 538-550). -/
def fromJsonScalar (Parse : Parser) (t : ScalarType) (json : String) (jsonSize : Nat)
    (errors : Option JsonDeserializationErrors) :
    Except ParseResult (Val × Option JsonDeserializationErrors) :=
  match parseJsonDocFromString Parse json jsonSize with
  | .error parseRes => throw parseRes
  | .ok doc =>
    if !doc.Is t then
      pure ((Ty.scalar t).default, reportTypeMismatch errors doc.GetType)
    else
      pure (doc.Get t, errors)

/-- The function `fromJson` for a `std::string` (l. 555-567). -/
def fromJsonString (Parse : Parser) (json : String) (jsonSize : Nat)
    (errors : Option JsonDeserializationErrors) :
    Except ParseResult (Val × Option JsonDeserializationErrors) :=
  match parseJsonDocFromString Parse json jsonSize with
  | .error parseRes => throw parseRes
  | .ok doc =>
    if !doc.IsString then
      pure (Ty.string.default, reportTypeMismatch errors doc.GetType)
    else
      pure (Val.ofCString doc.GetString, errors)

/-- The function `fromJson` for a class of the catalogue: the custom-type overload with the
generated `pull` specialisation; `Type()` is the value-initialised object of the class, and
`res` is what the declaration `Type res;` creates. -/
def fromJsonRecord (Parse : Parser) (m_relevantClasses : List RelevantClass)
    (relevantClass : RelevantClass) (res : Reflectable) (json : String) (jsonSize : Nat)
    (errors : Option JsonDeserializationErrors) :
    Except ParseResult (Reflectable × Option JsonDeserializationErrors) :=
  fromJsonCustom Parse (pullRecord m_relevantClasses relevantClass) relevantClass.record.default
    res json jsonSize errors

/-! ## The overloads of `pull` from a value iterator of `lib/json/reflector.h` -/

/-- A `GenericValue::ValueIterator`: a pointer to an element of an array, given by the elements
of the array and the position pointed at. -/
structure ValueIterator where
  values : List Value
  position : Nat
  deriving DecidableEq

/-- The element `*value` the iterator points at; the overloads dereference the iterator they
are given, which has to point at an element. -/
def ValueIterator.deref (value : ValueIterator) : Value :=
  value.values.getD value.position .null

/-- The increment `++value`. -/
def ValueIterator.next (value : ValueIterator) : ValueIterator :=
  { value with position := value.position + 1 }

/-- The shape of a `pull` overload from a value iterator: the destination, the iterator and the
error context after the call. -/
abbrev PullIterator (α : Type) := α → ValueIterator → Option JsonDeserializationErrors →
  α × ValueIterator × Option JsonDeserializationErrors

/-- The overload `pull(Type &, ValueIterator &, errors)` for an integer or boolean
(l. 269-281). -/
def pullScalarFromIterator (t : ScalarType) : PullIterator Val :=
  fun reflectable value errors =>
    if !value.deref.Is t then
      (reflectable, value, reportTypeMismatch errors value.deref.GetType)
    else
      (value.deref.Get t, value.next, errors)

/-- The overload `pull<std::string>(std::string &, ValueIterator &, errors)` (l. 302-314). -/
def pullStringFromIterator : PullIterator Val :=
  fun reflectable value errors =>
    if !value.deref.IsString then
      (reflectable, value, reportTypeMismatch errors value.deref.GetType)
    else
      (Val.ofCString value.deref.GetString, value.next, errors)

/-- The overload `pull(Type &, ValueIterator &, errors)` for an iteratable without `reserve()`
(l. 341-354). -/
def pullIteratableFromIterator (pullItem : Pull Val) (fresh : Val) : PullIterator Val :=
  fun reflectable value errors =>
    if !value.deref.IsArray then
      (reflectable, value, reportTypeMismatch errors value.deref.GetType)
    else
      let r := pullArray pullItem fresh reflectable value.deref.GetArray errors
      (r.1, value.next, r.2)

/-- The overload `pull(Type &, ValueIterator &, errors)` for an iteratable with `reserve()`
(l. 359-373). -/
def pullReservableFromIterator (pullItem : Pull Val) (fresh : Val) : PullIterator Val :=
  fun reflectable value errors =>
    if !value.deref.IsArray then
      (reflectable, value, reportTypeMismatch errors value.deref.GetType)
    else
      let array := value.deref.GetArray
      let r := pullArray pullItem fresh (reflectable.reserve array.length) array errors
      (r.1, value.next, r.2)

/-- The overload of `pull` from a value iterator that the static type `t` selects. -/
def pullFromIterator : Ty → PullIterator Val
  | .scalar t => pullScalarFromIterator t
  | .string => pullStringFromIterator
  | .seq traits elem =>
    if traits.isReservable then pullReservableFromIterator (pull elem) elem.default
    else pullIteratableFromIterator (pull elem) elem.default

/-! ## The earlier header `lib/jsonreflector.h`

Its overloads take no error context; they are kept under `Legacy`. -/

/-- The enumeration `ErrorFlags` (l. 24), whose underlying type is `unsigned char`: a value of
the enumeration is a value of the underlying type. -/
structure ErrorFlags where
  value : Nat
  deriving DecidableEq, Repr

/-- The enumerator `ErrorFlags::TypeMismatch`, the first one. -/
def ErrorFlags.TypeMismatch : ErrorFlags :=
  { value := 0 }

/-- The enumerator `ErrorFlags::MemberMissing`, the second one. -/
def ErrorFlags.MemberMissing : ErrorFlags :=
  { value := 1 }

/-- The conversion `static_cast<unsigned char>(flags)`. -/
def ErrorFlags.toUnsignedChar (flags : ErrorFlags) : Nat :=
  flags.value % 2 ^ 8

/-- The conversion `static_cast<ErrorFlags>(number)`. -/
def ErrorFlags.ofNumber (number : Nat) : ErrorFlags :=
  { value := number % 2 ^ 8 }

/-- The function `operator&(ErrorFlags lhs, ErrorFlags rhs)` (l. 26-29). -/
def ErrorFlags.and (lhs rhs : ErrorFlags) : ErrorFlags :=
  ErrorFlags.ofNumber (lhs.toUnsignedChar &&& rhs.toUnsignedChar)

/-- The function `operator|(ErrorFlags lhs, ErrorFlags rhs)` (l. 31-34). -/
def ErrorFlags.or (lhs rhs : ErrorFlags) : ErrorFlags :=
  ErrorFlags.ofNumber (lhs.toUnsignedChar ||| rhs.toUnsignedChar)

/-- The overload `pull(Type &, const GenericValue &)` for a custom type (l. 203-209). -/
def Legacy.pullCustom {α : Type} (pullObject : α → Object → α) (reflectable : α)
    (value : Value) : α :=
  if !value.IsObject then
    reflectable
  else
    pullObject reflectable value.GetObject

/-- The overload `pull(Type &, ValueIterator &)` for an integer or boolean (l. 212-219). -/
def Legacy.pullScalarFromIterator (t : ScalarType) (reflectable : Val)
    (value : ValueIterator) : Val × ValueIterator :=
  if !value.deref.Is t then
    (reflectable, value)
  else
    (value.deref.Get t, value.next)

/-- The overload `pull(Type &, const GenericValue &)` for an integer or boolean
(l. 222-228). -/
def Legacy.pullScalar (t : ScalarType) (reflectable : Val) (value : Value) : Val :=
  if !value.Is t then
    reflectable
  else
    value.Get t

/-- The overload `pull<std::string>(std::string &, ValueIterator &)` (l. 231-238). -/
def Legacy.pullStringFromIterator (reflectable : Val) (value : ValueIterator) :
    Val × ValueIterator :=
  if !value.deref.IsString then
    (reflectable, value)
  else
    (Val.ofCString value.deref.GetString, value.next)

/-- The overload `pull<std::string>(std::string &, const GenericValue &)` (l. 240-246). -/
def Legacy.pullString (reflectable : Val) (value : Value) : Val :=
  if !value.IsString then
    reflectable
  else
    Val.ofCString value.GetString

/-- The loop of the overload from a `ConstArray` (l. 305-308): for each item, appends a
value-initialised element and pulls the item into it. -/
def Legacy.pullArrayLoop (pullItem : Val → Value → Val) (fresh : Val) :
    List Value → List Val → List Val
  | [], reflectable => reflectable
  | item :: rest, reflectable =>
    Legacy.pullArrayLoop pullItem fresh rest (reflectable ++ [pullItem fresh item])

/-- The overload `pull(Type &, ConstArray)` for an iteratable (l. 299-309): clears the
destination and runs the loop. -/
def Legacy.pullArray (pullItem : Val → Value → Val) (fresh : Val) (_reflectable : Val)
    (array : List Value) : Val :=
  .seq (Legacy.pullArrayLoop pullItem fresh array [])

/-- The overload `pull(Type &, ValueIterator &)` for an iteratable without `reserve()`
(l. 251-261). -/
def Legacy.pullIteratableFromIterator (pullItem : Val → Value → Val) (fresh : Val)
    (reflectable : Val) (value : ValueIterator) : Val × ValueIterator :=
  if !value.deref.IsArray then
    (reflectable, value)
  else
    (Legacy.pullArray pullItem fresh reflectable value.deref.GetArray, value.next)

/-- The overload `pull(Type &, ValueIterator &)` for an iteratable with `reserve()`
(l. 263-274). -/
def Legacy.pullReservableFromIterator (pullItem : Val → Value → Val) (fresh : Val)
    (reflectable : Val) (value : ValueIterator) : Val × ValueIterator :=
  if !value.deref.IsArray then
    (reflectable, value)
  else
    let array := value.deref.GetArray
    (Legacy.pullArray pullItem fresh (reflectable.reserve array.length) array, value.next)

/-- The overload `pull(Type &, const GenericValue &)` for an iteratable without `reserve()`
(l. 276-285). -/
def Legacy.pullIteratable (pullItem : Val → Value → Val) (fresh : Val) (reflectable : Val)
    (value : Value) : Val :=
  if !value.IsArray then
    reflectable
  else
    Legacy.pullArray pullItem fresh reflectable value.GetArray

/-- The overload `pull(Type &, const GenericValue &)` for an iteratable with `reserve()`
(l. 287-297). -/
def Legacy.pullReservable (pullItem : Val → Value → Val) (fresh : Val) (reflectable : Val)
    (value : Value) : Val :=
  if !value.IsArray then
    reflectable
  else
    let array := value.GetArray
    Legacy.pullArray pullItem fresh (reflectable.reserve array.length) array

/-- The overload of the earlier `pull` from a value that the static type `t` selects. -/
def Legacy.pull : Ty → Val → Value → Val
  | .scalar t => Legacy.pullScalar t
  | .string => Legacy.pullString
  | .seq traits elem =>
    if traits.isReservable then Legacy.pullReservable (Legacy.pull elem) elem.default
    else Legacy.pullIteratable (Legacy.pull elem) elem.default

/-- The overload of the earlier `pull` from a value iterator that the static type `t`
selects. -/
def Legacy.pullFromIterator : Ty → Val → ValueIterator → Val × ValueIterator
  | .scalar t => Legacy.pullScalarFromIterator t
  | .string => Legacy.pullStringFromIterator
  | .seq traits elem =>
    if traits.isReservable then
      Legacy.pullReservableFromIterator (Legacy.pull elem) elem.default
    else Legacy.pullIteratableFromIterator (Legacy.pull elem) elem.default

/-- The overload `pull(Type &, const char *name, const ConstObject &)` (l. 311-319). -/
def Legacy.pullMember {α : Type} (pullValue : α → Value → α) (reflectable : α) (name : String)
    (value : Object) : α :=
  match FindMember value name with
  | none => reflectable
  | some member => pullValue reflectable member

/-- The function `parseDocumentFromString` (l. 46-54): the parsed document, or the thrown
`ParseResult`. -/
def Legacy.parseDocumentFromString (Parse : Parser) (json : String) (jsonSize : Nat) :
    Except ParseResult Value :=
  let document := Parse json jsonSize
  if document.2.IsError then
    throw document.2
  else
    pure document.1

/-- The function `fromJson` of the earlier header for a custom type (l. 357-367); `fresh` is
the value-initialised object `Type()` (l. 361) and `res` is the default-initialised object that
the declaration `Type res;` (l. 364) creates, an argument as in the later header. -/
def Legacy.fromJsonCustom {α : Type} (Parse : Parser) (pullObject : α → Object → α)
    (fresh res : α) (json : String) (jsonSize : Nat) : Except ParseResult α :=
  match Legacy.parseDocumentFromString Parse json jsonSize with
  | .error parseRes => throw parseRes
  | .ok doc =>
    if !doc.IsObject then
      pure fresh
    else
      pure (pullObject res doc.GetObject)

/-- The function `fromJson` of the earlier header for an integer or boolean (l. 369-378). -/
def Legacy.fromJsonScalar (Parse : Parser) (t : ScalarType) (json : String) (jsonSize : Nat) :
    Except ParseResult Val :=
  match Legacy.parseDocumentFromString Parse json jsonSize with
  | .error parseRes => throw parseRes
  | .ok doc =>
    if !doc.Is t then
      pure (Ty.scalar t).default
    else
      pure (doc.Get t)

/-- The function `fromJson` of the earlier header for a `std::string` (l. 380-388). -/
def Legacy.fromJsonString (Parse : Parser) (json : String) (jsonSize : Nat) :
    Except ParseResult Val :=
  match Legacy.parseDocumentFromString Parse json jsonSize with
  | .error parseRes => throw parseRes
  | .ok doc =>
    if !doc.IsString then
      pure Ty.string.default
    else
      pure (Val.ofCString doc.GetString)

/-! ## Example classes and texts -/

namespace Example

/-- An instantiation of the marker class template `JsonSerializable`. -/
def Marker : CXXRecordDecl :=
  .mk "ReflectiveRapidJSON::JsonSerializable" true [] []

/-- The container `std::vector`. -/
def vector : SeqTraits :=
  { hasSize := true, isReservable := true }

/-- The class `struct Base : JsonSerializable<Base> { int a; };`. -/
def Base : CXXRecordDecl :=
  .mk "Base" true [Marker] [{ name := "a", type := .scalar .int }]

/-- The class `struct Derived : Base { std::string b; };`. -/
def Derived : CXXRecordDecl :=
  .mk "Derived" true [Base] [{ name := "b", type := .string }]

/-- The class `struct Leaf : Derived { bool c; };`, two levels below `Base`. -/
def Leaf : CXXRecordDecl :=
  .mk "Leaf" true [Derived] [{ name := "c", type := .scalar .bool }]

/-- The catalogue after `Base`, `Derived` and `Leaf` were added. -/
def catalogue : List RelevantClass :=
  [{ qualifiedName := "Base", record := Base }, { qualifiedName := "Derived", record := Derived },
   { qualifiedName := "Leaf", record := Leaf }]

/-- The object `Derived{a = 1, b = "x"}`. -/
def derived : Reflectable :=
  [{ owner := Base, name := "a", value := .int 1 },
   { owner := Derived, name := "b", value := .string "x" }]

/-- The object `Leaf{a = 1, b = "x", c = true}`. -/
def leaf : Reflectable :=
  [{ owner := Base, name := "a", value := .int 1 },
   { owner := Derived, name := "b", value := .string "x" },
   { owner := Leaf, name := "c", value := .bool true }]

/-- The class `struct Triple : JsonSerializable<Triple> { int x; std::string y;
std::vector<int> z; };`. -/
def Triple : CXXRecordDecl :=
  .mk "Triple" true [Marker]
    [{ name := "x", type := .scalar .int }, { name := "y", type := .string },
     { name := "z", type := .seq vector (.scalar .int) }]

/-- The object `Triple{x = 5, y = "y", z = {9, 9, 9, 9}}`. -/
def triple : Reflectable :=
  [{ owner := Triple, name := "x", value := .int 5 },
   { owner := Triple, name := "y", value := .string "y" },
   { owner := Triple, name := "z", value := .seq [.int 9, .int 9, .int 9, .int 9] }]

/-- The class `struct Pair : JsonSerializable<Pair> { int first; std::string second;
bool third; };`. -/
def Pair : CXXRecordDecl :=
  .mk "Pair" true [Marker]
    [{ name := "first", type := .scalar .int }, { name := "second", type := .string },
     { name := "third", type := .scalar .bool }]

/-- The class `struct Plain { int x; };`, which does not derive from the marker type. -/
def Plain : CXXRecordDecl :=
  .mk "Plain" true [] [{ name := "x", type := .scalar .int }]

/-- The forward declaration `struct Forward;`. -/
def Forward : CXXRecordDecl :=
  .mk "Forward" false [] []

/-- The options after `--additional-classes Derived Leaf Forward` was read. -/
def options : Options :=
  { additionalClassesArg := { isPresent := true, values := ["Derived", "Leaf", "Forward"] } }

/-- The options when the argument `--additional-classes` was not given. -/
def noOptions : Options :=
  { additionalClassesArg := { isPresent := false, values := [] } }

/-- The declarations of a translation unit, in the order they are visited. -/
def declarations : List Decl :=
  [.CXXRecord Forward, .CXXRecord Base, .Enum, .CXXRecord Plain, .CXXRecord Derived, .Other,
   .CXXRecord Leaf]

/-- The class `struct Empty : JsonSerializable<Empty> {};`, without data members. -/
def Empty : CXXRecordDecl :=
  .mk "Empty" true [Marker] []

/-- The class `struct Mixed : JsonSerializable<Mixed>, Plain { int y; };`: its base class `Plain`
holds a data member and does not derive from the marker type. -/
def Mixed : CXXRecordDecl :=
  .mk "Mixed" true [Marker, Plain] [{ name := "y", type := .scalar .int }]

/-- The object `Mixed{x = 5, y = 1}`. -/
def mixed : Reflectable :=
  [{ owner := Plain, name := "x", value := .int 5 },
   { owner := Mixed, name := "y", value := .int 1 }]

/-- The object `Derived{a = 1, b = "a\0b"}`, whose text holds a NUL character between `a`
and `b`. -/
def derivedNul : Reflectable :=
  [{ owner := Base, name := "a", value := .int 1 },
   { owner := Derived, name := "b", value := .string "a\x00b" }]

/-- An error context without errors and without a path. -/
def noErrors : JsonDeserializationErrors :=
  { errors := [], currentRecord := none, currentMember := none, currentIndex := none }

/-- Drops leading JSON whitespace. -/
def skipWhitespace : List Char → List Char
  | [] => []
  | c :: cs => if c = ' ' ∨ c = '\n' ∨ c = '\t' ∨ c = '\r' then skipWhitespace cs else c :: cs

/-- Reads the digits at the head of the text, continuing the number `acc`. -/
def readDigits : List Char → Nat → Nat × List Char
  | [], acc => (acc, [])
  | c :: cs, acc =>
    if '0' ≤ c ∧ c ≤ '9' then readDigits cs (acc * 10 + (c.toNat - '0'.toNat)) else (acc, c :: cs)

/-- Reads a string after its opening quote, up to the closing quote; escapes are not read. -/
def readString : List Char → List Char → Option (String × List Char)
  | [], _ => none
  | c :: cs, acc =>
    if c = '"' then some (String.mk acc.reverse, cs)
    else if c = '\\' then none
    else readString cs (c :: acc)

mutual
/-- Reads one JSON value: a literal, an integer, a string, an array or an object. -/
def readValue : Nat → List Char → Option (Value × List Char)
  | 0, _ => none
  | fuel + 1, cs =>
    match skipWhitespace cs with
    | 'n' :: 'u' :: 'l' :: 'l' :: rest => some (.null, rest)
    | 't' :: 'r' :: 'u' :: 'e' :: rest => some (.bool true, rest)
    | 'f' :: 'a' :: 'l' :: 's' :: 'e' :: rest => some (.bool false, rest)
    | '"' :: rest => (readString rest []).map (fun p => (.string p.1, p.2))
    | '[' :: rest =>
      match skipWhitespace rest with
      | ']' :: rest2 => some (.array [], rest2)
      | _ => (readItems fuel rest []).map (fun p => (.array p.1, p.2))
    | '{' :: rest =>
      match skipWhitespace rest with
      | '}' :: rest2 => some (.object [], rest2)
      | _ => (readMembers fuel rest []).map (fun p => (.object p.1, p.2))
    | '-' :: c :: rest =>
      if '0' ≤ c ∧ c ≤ '9' then
        some (.int (-((readDigits (c :: rest) 0).1 : Int)), (readDigits (c :: rest) 0).2)
      else none
    | c :: rest =>
      if '0' ≤ c ∧ c ≤ '9' then
        some (.int ((readDigits (c :: rest) 0).1 : Int), (readDigits (c :: rest) 0).2)
      else none
    | [] => none
/-- Reads the items of an array up to the closing bracket. -/
def readItems : Nat → List Char → List Value → Option (List Value × List Char)
  | 0, _, _ => none
  | fuel + 1, cs, acc =>
    match readValue fuel cs with
    | none => none
    | some (v, rest) =>
      match skipWhitespace rest with
      | ',' :: rest2 => readItems fuel rest2 (acc ++ [v])
      | ']' :: rest2 => some (acc ++ [v], rest2)
      | _ => none
/-- Reads the members of an object up to the closing brace. -/
def readMembers : Nat → List Char → Object → Option (Object × List Char)
  | 0, _, _ => none
  | fuel + 1, cs, acc =>
    match skipWhitespace cs with
    | '"' :: rest =>
      match readString rest [] with
      | none => none
      | some (name, rest2) =>
        match skipWhitespace rest2 with
        | ':' :: rest3 =>
          match readValue fuel rest3 with
          | none => none
          | some (v, rest4) =>
            match skipWhitespace rest4 with
            | ',' :: rest5 => readMembers fuel rest5 (acc ++ [(name, v)])
            | '}' :: rest5 => some (acc ++ [(name, v)], rest5)
            | _ => none
        | _ => none
    | _ => none
end

/-- A reader of JSON texts without escapes, fractions and exponents, as an instance of
`Parser`: the document, or an error when the first `jsonSize` characters are not one JSON
value. -/
def Parse : Parser := fun json jsonSize =>
  match readValue (jsonSize + 1) (json.toList.take jsonSize) with
  | some (v, rest) =>
    if skipWhitespace rest = [] then (v, { IsError := false, code := 0, offset := 0 })
    else (.null, { IsError := true, code := 2, offset := jsonSize - rest.length })
  | none => (.null, { IsError := true, code := 1, offset := 0 })

/-- A reader of JSON texts that reads the text `"a\u0000b"` as RapidJSON does, to the string
of the three characters `a`, NUL, `b`, and every other text as `Parse` does, which knows no
escapes. -/
def ParseEscaped : Parser := fun json jsonSize =>
  if json.toList.take jsonSize = "\"a\\u0000b\"".toList then
    (.string "a\x00b", { IsError := false, code := 0, offset := 0 })
  else Parse json jsonSize

end Example

/-! # Theorems -/

/-! ## The inheritance graph -/

mutual
theorem CXXRecordDecl.depth_lt_of_hasBase :
    ∀ (record base : CXXRecordDecl), record.hasBase base = true → base.depth < record.depth
  | .mk _ _ bases _, base, h => by
    simp only [CXXRecordDecl.hasBase] at h
    simp only [CXXRecordDecl.depth]
    exact CXXRecordDecl.depth_lt_of_hasBaseIn bases base h
theorem CXXRecordDecl.depth_lt_of_hasBaseIn :
    ∀ (bases : List CXXRecordDecl) (base : CXXRecordDecl),
      CXXRecordDecl.hasBaseIn bases base = true → base.depth < CXXRecordDecl.depthIn bases
  | [], _, h => by simp [CXXRecordDecl.hasBaseIn] at h
  | b :: bs, base, h => by
    simp only [CXXRecordDecl.hasBaseIn, Bool.or_eq_true, decide_eq_true_eq] at h
    simp only [CXXRecordDecl.depthIn]
    rcases h with (h | h) | h
    · subst h; omega
    · have := CXXRecordDecl.depth_lt_of_hasBase b base h; omega
    · have := CXXRecordDecl.depth_lt_of_hasBaseIn bs base h; omega
end

theorem CXXRecordDecl.depth_lt_of_isDerivedFrom (record base : CXXRecordDecl)
    (h : record.isDerivedFrom base = true) : base.depth < record.depth := by
  unfold CXXRecordDecl.isDerivedFrom at h
  split at h
  · simp at h
  · exact CXXRecordDecl.depth_lt_of_hasBase record base h

theorem depth_lt_of_mem_findRelevantBaseClasses (cat : List RelevantClass)
    (rc b : RelevantClass) (h : b ∈ findRelevantBaseClasses cat rc) :
    b.record.depth < rc.record.depth := by
  simp only [findRelevantBaseClasses, List.mem_filter, Bool.and_eq_true] at h
  exact CXXRecordDecl.depth_lt_of_isDerivedFrom _ _ h.2.2

/-! ## Kind checks of the leaf overloads -/

theorem Value.is_true_iff (t : ScalarType) (value : Value) :
    value.Is t = true ↔
      (t = .bool ∧ ∃ b, value = .bool b) ∨
      (t ≠ .bool ∧ ∃ i, value = .int i ∧ t.range.1 ≤ i ∧ i < t.range.2) := by
  cases t <;> cases value <;> simp [Value.Is]

/-- The kind checks of the scalar and the text `pull`: from a value of another kind the
destination stays as it was and, with an error context, exactly one `TypeMismatch` error carrying
the current path is appended; from a boolean or an integer in range the value of the source is
stored, from a String the characters before its first NUL character, and nothing is appended. -/
theorem pull_scalar_and_text_kind_check (reflectable : Val) (e : JsonDeserializationErrors) :
    (∀ (t : ScalarType) (value : Value), value.Is t = false →
      pullScalar t reflectable value none = (reflectable, none) ∧
      pullScalar t reflectable value (some e) =
        (reflectable, some { e with errors := e.errors ++
          [{ kind := .TypeMismatch, actualType := value.GetType, record := e.currentRecord,
             member := e.currentMember, index := e.currentIndex }] })) ∧
    (∀ value : Value, value.IsString = false →
      pullString reflectable value none = (reflectable, none) ∧
      pullString reflectable value (some e) =
        (reflectable, some { e with errors := e.errors ++
          [{ kind := .TypeMismatch, actualType := value.GetType, record := e.currentRecord,
             member := e.currentMember, index := e.currentIndex }] })) ∧
    (∀ (b : Bool) (errors : Option JsonDeserializationErrors),
      pullScalar .bool reflectable (.bool b) errors = (.bool b, errors)) ∧
    (∀ (t : ScalarType) (i : Int) (errors : Option JsonDeserializationErrors),
      t ≠ .bool → t.range.1 ≤ i → i < t.range.2 →
      pullScalar t reflectable (.int i) errors = (.int i, errors)) ∧
    (∀ (s : String) (errors : Option JsonDeserializationErrors),
      pullString reflectable (.string s) errors = (Val.ofCString s, errors)) := by
  refine ⟨?_, ?_, ?_, ?_, ?_⟩
  · intro t value h
    simp [pullScalar, h, reportTypeMismatch, JsonDeserializationErrors.reportTypeMismatch]
  · intro value h
    simp [pullString, h, reportTypeMismatch, JsonDeserializationErrors.reportTypeMismatch]
  · intro b errors
    simp [pullScalar, Value.Is, Value.Get]
  · intro t i errors ht h1 h2
    have : (Value.int i).Is t = true := by
      rw [Value.is_true_iff]; exact Or.inr ⟨ht, i, rfl, h1, h2⟩
    cases t <;> simp_all [pullScalar, Value.Get]
  · intro s errors
    simp [pullString, Value.IsString, Value.GetString]

/-! ## Unfolding the generated bodies -/

theorem foldl_execPush_bases (cb : RelevantClass → Reflectable → Object → Object)
    (self : CXXRecordDecl) (r : Reflectable) (bases : List RelevantClass) (value : Object) :
    (bases.map Statement.pushBase).foldl (fun v s => execPush cb self r s v) value =
      pushBases cb r bases value := by
  induction bases generalizing value with
  | nil => rfl
  | cons b bs ih => simpa [pushBases, execPush] using ih (cb b r value)

theorem foldl_execPush_fields (cb : RelevantClass → Reflectable → Object → Object)
    (self : CXXRecordDecl) (r : Reflectable) (fields : List FieldDecl) (value : Object) :
    (fields.map Statement.pushField).foldl (fun v s => execPush cb self r s v) value =
      pushFields self r fields value := by
  induction fields generalizing value with
  | nil => rfl
  | cons f fs ih => simpa [pushFields, execPush] using ih _

theorem foldl_execPull_bases (cb : RelevantClass → PullObject Reflectable)
    (self : CXXRecordDecl) (value : Object) (bases : List RelevantClass) (s : PullState) :
    (bases.map Statement.pullBase).foldl (fun s st => execPull cb self value st s) s =
      { reflectable := (pullBases cb value bases (s.reflectable, s.errors)).1
        errors := (pullBases cb value bases (s.reflectable, s.errors)).2
        previousRecord := s.previousRecord } := by
  induction bases generalizing s with
  | nil => rfl
  | cons b bs ih =>
    simp only [List.map_cons, List.foldl_cons, pullBases]
    rw [ih]
    simp [execPull, pullBases]

theorem foldl_execPull_fields (cb : RelevantClass → PullObject Reflectable)
    (self : CXXRecordDecl) (value : Object) (fields : List FieldDecl) (s : PullState) :
    (fields.map Statement.pullField).foldl (fun s st => execPull cb self value st s) s =
      { reflectable := (pullFields self value fields (s.reflectable, s.errors)).1
        errors := (pullFields self value fields (s.reflectable, s.errors)).2
        previousRecord := s.previousRecord } := by
  induction fields generalizing s with
  | nil => rfl
  | cons f fs ih =>
    simp only [List.map_cons, List.foldl_cons, pullFields]
    rw [ih]
    simp [execPull, pullFields, pullField]

theorem pushBases_congr (cb cb2 : RelevantClass → Reflectable → Object → Object)
    (r : Reflectable) (bases : List RelevantClass) (value : Object)
    (h : ∀ b ∈ bases, cb b = cb2 b) :
    pushBases cb r bases value = pushBases cb2 r bases value := by
  induction bases generalizing value with
  | nil => rfl
  | cons b bs ih =>
    simp only [pushBases, List.foldl_cons]
    rw [h b (List.mem_cons_self _ _)]
    exact ih _ (fun x hx => h x (List.mem_cons_of_mem _ hx))

theorem pullBases_congr (cb cb2 : RelevantClass → PullObject Reflectable)
    (value : Object) (bases : List RelevantClass)
    (s : Reflectable × Option JsonDeserializationErrors) (h : ∀ b ∈ bases, cb b = cb2 b) :
    pullBases cb value bases s = pullBases cb2 value bases s := by
  induction bases generalizing s with
  | nil => rfl
  | cons b bs ih =>
    simp only [pullBases, List.foldl_cons]
    rw [h b (List.mem_cons_self _ _)]
    exact ih _ (fun x hx => h x (List.mem_cons_of_mem _ hx))

theorem pushGenerated_zero (cat : List RelevantClass) (rc : RelevantClass) (r : Reflectable)
    (value : Object) :
    pushGenerated cat 0 rc r value =
      pushFields rc.record r rc.record.fields
        (pushBases (fun _ _ v0 => v0) r (findRelevantBaseClasses cat rc) value) := by
  simp only [pushGenerated, generatePush, List.foldl_append, foldl_execPush_bases,
    foldl_execPush_fields]

theorem pushGenerated_succ (cat : List RelevantClass) (fuel : Nat) (rc : RelevantClass)
    (r : Reflectable) (value : Object) :
    pushGenerated cat (fuel + 1) rc r value =
      pushFields rc.record r rc.record.fields
        (pushBases (pushGenerated cat fuel) r (findRelevantBaseClasses cat rc) value) := by
  simp only [pushGenerated, generatePush, List.foldl_append, foldl_execPush_bases,
    foldl_execPush_fields]

theorem pushGenerated_unfold (cat : List RelevantClass) (fuel : Nat) :
    ∀ (rc : RelevantClass), rc.record.depth ≤ fuel → ∀ (r : Reflectable) (value : Object),
      pushGenerated cat fuel rc r value =
        pushFields rc.record r rc.record.fields
          (pushBases (fun b => pushGenerated cat b.record.depth b) r
            (findRelevantBaseClasses cat rc) value) := by
  induction fuel using Nat.strong_induction_on with
  | _ fuel ih =>
    intro rc hle r value
    cases fuel with
    | zero =>
      rw [pushGenerated_zero]
      congr 1
      apply pushBases_congr
      intro b hb
      have := depth_lt_of_mem_findRelevantBaseClasses cat rc b hb
      omega
    | succ m =>
      rw [pushGenerated_succ]
      congr 1
      apply pushBases_congr
      intro b hb
      have hlt := depth_lt_of_mem_findRelevantBaseClasses cat rc b hb
      funext r2 v2
      rw [ih m (Nat.lt_succ_self m) b (by omega) r2 v2,
        ih b.record.depth (by omega) b (le_refl _) r2 v2]

theorem pushRecord_eq (cat : List RelevantClass) (rc : RelevantClass) (r : Reflectable)
    (value : Object) :
    pushRecord cat rc r value =
      pushFields rc.record r rc.record.fields
        (pushBases (pushRecord cat) r (findRelevantBaseClasses cat rc) value) :=
  pushGenerated_unfold cat rc.record.depth rc (le_refl _) r value

theorem pullGenerated_zero (cat : List RelevantClass) (rc : RelevantClass) (r : Reflectable)
    (value : Object) (errors : Option JsonDeserializationErrors) :
    pullGenerated cat 0 rc r value errors =
      (let s1 := pullBases (fun _ r0 _ e0 => (r0, e0)) value (findRelevantBaseClasses cat rc)
          (r, errors)
       let s2 := pullFields rc.record value rc.record.fields
          (s1.1, setCurrentRecord s1.2 (some rc.qualifiedName))
       (s2.1, setCurrentRecord s2.2 (savedRecord s1.2))) := by
  simp only [pullGenerated, generatePull, List.foldl_append, foldl_execPull_bases,
    foldl_execPull_fields, List.foldl_cons, List.foldl_nil]
  cases h : (pullBases (fun _ r0 _ e0 => (r0, e0)) value (findRelevantBaseClasses cat rc)
      (r, errors)).2 <;>
    simp [execPull, h, setCurrentRecord, savedRecord]

theorem pullGenerated_succ (cat : List RelevantClass) (fuel : Nat) (rc : RelevantClass)
    (r : Reflectable) (value : Object) (errors : Option JsonDeserializationErrors) :
    pullGenerated cat (fuel + 1) rc r value errors =
      (let s1 := pullBases (pullGenerated cat fuel) value (findRelevantBaseClasses cat rc)
          (r, errors)
       let s2 := pullFields rc.record value rc.record.fields
          (s1.1, setCurrentRecord s1.2 (some rc.qualifiedName))
       (s2.1, setCurrentRecord s2.2 (savedRecord s1.2))) := by
  simp only [pullGenerated, generatePull, List.foldl_append, foldl_execPull_bases,
    foldl_execPull_fields, List.foldl_cons, List.foldl_nil]
  cases h : (pullBases (pullGenerated cat fuel) value (findRelevantBaseClasses cat rc)
      (r, errors)).2 <;>
    simp [execPull, h, setCurrentRecord, savedRecord]

theorem pullGenerated_unfold (cat : List RelevantClass) (fuel : Nat) :
    ∀ (rc : RelevantClass), rc.record.depth ≤ fuel →
      ∀ (r : Reflectable) (value : Object) (errors : Option JsonDeserializationErrors),
      pullGenerated cat fuel rc r value errors =
        (let s1 := pullBases (fun b => pullGenerated cat b.record.depth b) value
            (findRelevantBaseClasses cat rc) (r, errors)
         let s2 := pullFields rc.record value rc.record.fields
            (s1.1, setCurrentRecord s1.2 (some rc.qualifiedName))
         (s2.1, setCurrentRecord s2.2 (savedRecord s1.2))) := by
  induction fuel using Nat.strong_induction_on with
  | _ fuel ih =>
    intro rc hle r value errors
    cases fuel with
    | zero =>
      rw [pullGenerated_zero]
      have hc : pullBases (fun _ r0 _ e0 => (r0, e0)) value (findRelevantBaseClasses cat rc)
          (r, errors) =
          pullBases (fun b => pullGenerated cat b.record.depth b) value
            (findRelevantBaseClasses cat rc) (r, errors) := by
        apply pullBases_congr
        intro b hb
        have := depth_lt_of_mem_findRelevantBaseClasses cat rc b hb
        omega
      rw [hc]
    | succ m =>
      rw [pullGenerated_succ]
      have hc : pullBases (pullGenerated cat m) value (findRelevantBaseClasses cat rc)
          (r, errors) =
          pullBases (fun b => pullGenerated cat b.record.depth b) value
            (findRelevantBaseClasses cat rc) (r, errors) := by
        apply pullBases_congr
        intro b hb
        have hlt := depth_lt_of_mem_findRelevantBaseClasses cat rc b hb
        funext r2 v2 e2
        rw [ih m (Nat.lt_succ_self m) b (by omega) r2 v2 e2,
          ih b.record.depth (by omega) b (le_refl _) r2 v2 e2]
      rw [hc]

theorem pullRecord_eq (cat : List RelevantClass) (rc : RelevantClass) (r : Reflectable)
    (value : Object) (errors : Option JsonDeserializationErrors) :
    pullRecord cat rc r value errors =
      (let s1 := pullBases (pullRecord cat) value (findRelevantBaseClasses cat rc) (r, errors)
       let s2 := pullFields rc.record value rc.record.fields
          (s1.1, setCurrentRecord s1.2 (some rc.qualifiedName))
       (s2.1, setCurrentRecord s2.2 (savedRecord s1.2))) :=
  pullGenerated_unfold cat rc.record.depth rc (le_refl _) r value errors

/-- Induction along the inheritance graph: a property of catalogue entries holds for all of
them once it holds for an entry whenever it holds for its relevant base classes. -/
theorem relevantClass_induction (cat : List RelevantClass) (P : RelevantClass → Prop)
    (step : ∀ rc, (∀ b ∈ findRelevantBaseClasses cat rc, P b) → P rc) (rc : RelevantClass) :
    P rc := by
  have h : ∀ n (rc : RelevantClass), rc.record.depth ≤ n → P rc := by
    intro n
    induction n with
    | zero =>
      intro rc hle
      apply step
      intro b hb
      have := depth_lt_of_mem_findRelevantBaseClasses cat rc b hb
      omega
    | succ m ih =>
      intro rc hle
      apply step
      intro b hb
      have := depth_lt_of_mem_findRelevantBaseClasses cat rc b hb
      exact ih b (by omega)
  exact h _ rc (le_refl _)

/-! ## Error context bookkeeping -/

theorem setCurrentRecord_restore (errors : Option JsonDeserializationErrors)
    (name : Option String) :
    setCurrentRecord (setCurrentRecord errors name) (savedRecord errors) = errors := by
  cases errors with
  | none => rfl
  | some e => cases e; rfl

theorem setCurrentMember_restore (e : JsonDeserializationErrors) (name : Option String) :
    setCurrentMember (some { e with currentMember := name }) e.currentMember = some e := by
  cases e; rfl

/-! ## Field access -/

theorem Reflectable.setField_getField (r : Reflectable) (owner : CXXRecordDecl)
    (field : FieldDecl) : r.setField owner field (r.getField owner field) = r := by
  induction r with
  | nil => rfl
  | cons s rest ih =>
    simp only [Reflectable.setField, Reflectable.getField]
    split
    · rfl
    · rw [ih]

/-! ## Missing members -/

theorem pullMember_of_not_found {α : Type} (pullValue : Pull α) (reflectable : α)
    (name : String) (value : Object) (errors : Option JsonDeserializationErrors)
    (h : FindMember value name = none) :
    pullMember pullValue reflectable name value errors = (reflectable, errors) := by
  simp [pullMember, h]

theorem pullFields_nil_object (self : CXXRecordDecl) (fields : List FieldDecl)
    (s : Reflectable × Option JsonDeserializationErrors) :
    pullFields self [] fields s = s := by
  induction fields generalizing s with
  | nil => rfl
  | cons f fs ih =>
    simp only [pullFields, List.foldl_cons] at ih ⊢
    have h1 : pullField self [] f s = s := by
      simp [pullField, pullMember, FindMember, Reflectable.setField_getField]
    rw [h1]
    exact ih s

theorem pullBases_id (cb : RelevantClass → PullObject Reflectable) (value : Object)
    (bases : List RelevantClass) (s : Reflectable × Option JsonDeserializationErrors)
    (h : ∀ b ∈ bases, ∀ r e, cb b r value e = (r, e)) :
    pullBases cb value bases s = s := by
  induction bases generalizing s with
  | nil => rfl
  | cons b bs ih =>
    simp only [pullBases, List.foldl_cons]
    rw [h b (List.mem_cons_self _ _)]
    exact ih s (fun x hx => h x (List.mem_cons_of_mem _ hx))

theorem pullRecord_nil_object (cat : List RelevantClass) (rc : RelevantClass) :
    ∀ (r : Reflectable) (errors : Option JsonDeserializationErrors),
      pullRecord cat rc r [] errors = (r, errors) := by
  refine relevantClass_induction cat
    (fun rc => ∀ (r : Reflectable) (errors : Option JsonDeserializationErrors),
      pullRecord cat rc r [] errors = (r, errors)) ?_ rc
  intro rc ih r errors
  rw [pullRecord_eq, pullBases_id _ _ _ _ ih]
  simp [pullFields_nil_object, setCurrentRecord_restore]

/-- C6: the name-keyed `pull` of a member the object does not have returns the destination
and the whole error context (error list, current record, member and index) as they were; the
generated `pull` of any class from the empty object returns the object of the class and
the error context as they were. -/
theorem missing_member_tolerance {α : Type} (pullValue : Pull α) (reflectable : α)
    (name : String) (value : Object) (errors : Option JsonDeserializationErrors)
    (cat : List RelevantClass) (rc : RelevantClass) (record : Reflectable)
    (h : FindMember value name = none) :
    pullMember pullValue reflectable name value errors = (reflectable, errors) ∧
    pullRecord cat rc record [] errors = (record, errors) :=
  ⟨pullMember_of_not_found pullValue reflectable name value errors h,
    pullRecord_nil_object cat rc record errors⟩

/-! ## Kind checks of the container overloads -/

/-- C8: a sequence `pull` from a value that is not an array, and a class `pull` from a value
that is not an object, return the destination as it was and, with an error context, append
exactly one `TypeMismatch` error carrying the current path. -/
theorem container_kind_mismatch (traits : SeqTraits) (elem : Ty) (reflectable : Val)
    (value : Value) (e : JsonDeserializationErrors) (cat : List RelevantClass)
    (rc : RelevantClass) (record : Reflectable) :
    (value.IsArray = false →
      pull (.seq traits elem) reflectable value none = (reflectable, none) ∧
      pull (.seq traits elem) reflectable value (some e) =
        (reflectable, some { e with errors := e.errors ++
          [{ kind := .TypeMismatch, actualType := value.GetType, record := e.currentRecord,
             member := e.currentMember, index := e.currentIndex }] })) ∧
    (value.IsObject = false →
      pullCustom (pullRecord cat rc) record value none = (record, none) ∧
      pullCustom (pullRecord cat rc) record value (some e) =
        (record, some { e with errors := e.errors ++
          [{ kind := .TypeMismatch, actualType := value.GetType, record := e.currentRecord,
             member := e.currentMember, index := e.currentIndex }] })) := by
  constructor
  · intro h
    cases hr : traits.isReservable <;>
      simp [pull, hr, pullReservable, pullIteratable, h, reportTypeMismatch,
        JsonDeserializationErrors.reportTypeMismatch]
  · intro h
    simp [pullCustom, h, reportTypeMismatch, JsonDeserializationErrors.reportTypeMismatch]

/-! ## Pulling a value of the right kind -/

theorem setCurrentIndex_setCurrentIndex (errors : Option JsonDeserializationErrors)
    (i j : Option Nat) :
    setCurrentIndex (setCurrentIndex errors i) j = setCurrentIndex errors j := by
  cases errors <;> rfl

theorem setCurrentIndex_errors (errors : Option JsonDeserializationErrors) (i : Option Nat) :
    (setCurrentIndex errors i).map (fun e => e.errors) = errors.map (fun e => e.errors) := by
  cases errors <;> rfl

theorem pullArrayLoop_accepts (pullItem : Pull Val) (fresh : Val) (decode : Value → Val)
    (items : List Value)
    (h : ∀ item ∈ items, ∀ errors, (pullItem fresh item errors).1 = decode item ∧
      ((pullItem fresh item errors).2 = errors ∨
        (pullItem fresh item errors).2 = setCurrentIndex errors none)) :
    ∀ (index : Nat) (acc : List Val) (errors : Option JsonDeserializationErrors),
      (pullArrayLoop pullItem fresh items index acc errors).1 = acc ++ items.map decode ∧
      ((pullArrayLoop pullItem fresh items index acc errors).2 = errors ∨
        ∃ i, (pullArrayLoop pullItem fresh items index acc errors).2 =
          setCurrentIndex errors i) := by
  induction items with
  | nil => intro index acc errors; simp [pullArrayLoop]
  | cons item rest ih =>
    intro index acc errors
    have hi := h item (List.mem_cons_self _ _) (setCurrentIndex errors (some index))
    have hr := ih (fun x hx => h x (List.mem_cons_of_mem _ hx)) (index + 1)
      (acc ++ [(pullItem fresh item (setCurrentIndex errors (some index))).1])
      (pullItem fresh item (setCurrentIndex errors (some index))).2
    simp only [pullArrayLoop]
    refine ⟨by rw [hr.1, hi.1]; simp, Or.inr ?_⟩
    have hstep : ∃ j, (pullItem fresh item (setCurrentIndex errors (some index))).2 =
        setCurrentIndex errors j := by
      rcases hi.2 with h2 | h2
      · exact ⟨some index, h2⟩
      · exact ⟨none, by rw [h2, setCurrentIndex_setCurrentIndex]⟩
    obtain ⟨j, hj⟩ := hstep
    rcases hr.2 with h3 | ⟨i, h3⟩
    · exact ⟨j, by rw [h3, hj]⟩
    · exact ⟨i, by rw [h3, hj, setCurrentIndex_setCurrentIndex]⟩

theorem pullArray_accepts (pullItem : Pull Val) (fresh : Val) (decode : Value → Val)
    (items : List Value) (reflectable : Val) (errors : Option JsonDeserializationErrors)
    (h : ∀ item ∈ items, ∀ errors, (pullItem fresh item errors).1 = decode item ∧
      ((pullItem fresh item errors).2 = errors ∨
        (pullItem fresh item errors).2 = setCurrentIndex errors none)) :
    pullArray pullItem fresh reflectable items errors =
      (.seq (items.map decode), setCurrentIndex errors none) := by
  have hl := pullArrayLoop_accepts pullItem fresh decode items h 0 [] errors
  simp only [pullArray]
  rw [hl.1]
  rcases hl.2 with h2 | ⟨i, h2⟩
  · rw [h2]; simp
  · rw [h2, setCurrentIndex_setCurrentIndex]; simp

theorem pull_accepts (ty : Ty) :
    ∀ (reflectable : Val) (value : Value) (errors : Option JsonDeserializationErrors),
      ty.accepts value = true →
      (pull ty reflectable value errors).1 = ty.decode value ∧
      ((pull ty reflectable value errors).2 = errors ∨
        (pull ty reflectable value errors).2 = setCurrentIndex errors none) := by
  induction ty with
  | scalar t =>
    intro reflectable value errors h
    simp only [Ty.accepts] at h
    simp [pull, pullScalar, h, Ty.decode]
  | string =>
    intro reflectable value errors h
    simp only [Ty.accepts] at h
    simp [pull, pullString, h, Ty.decode]
  | seq traits elem ih =>
    intro reflectable value errors h
    cases value with
    | array items =>
      simp only [Ty.accepts, List.all_eq_true] at h
      have hp := fun (r : Val) =>
        pullArray_accepts (pull elem) elem.default elem.decode items r errors
          (fun item hitem errs => ih elem.default item errs (h item hitem))
      cases hr : traits.isReservable <;>
        simp [pull, hr, pullReservable, pullIteratable, Value.IsArray, Value.GetArray, hp,
          Ty.decode]
    | _ => simp [Ty.accepts] at h

theorem pull_seq_accepts (traits : SeqTraits) (elem : Ty) (prior : Val) (items : List Value)
    (errors : Option JsonDeserializationErrors)
    (h : ∀ item ∈ items, elem.accepts item = true) :
    pull (.seq traits elem) prior (.array items) errors =
      (.seq (items.map elem.decode), setCurrentIndex errors none) := by
  have hp := fun (r : Val) =>
    pullArray_accepts (pull elem) elem.default elem.decode items r errors
      (fun item hitem errs => pull_accepts elem elem.default item errs (h item hitem))
  cases hr : traits.isReservable <;>
    simp [pull, hr, pullReservable, pullIteratable, Value.IsArray, Value.GetArray, hp]

/-- A sequence `pull` from an array whose items all have the kind of the element type (at every
level of nesting) makes the destination the list of what `Ty.decode` gives for the items (the
number or boolean, and of a text the characters before the first NUL character), in the order
of the array and whatever the destination held before; the error list is as before, and the
current index is `noIndex`. -/
theorem sequence_reset (traits : SeqTraits) (elem : Ty) (prior : Val) (items : List Value)
    (errors : Option JsonDeserializationErrors)
    (h : ∀ item ∈ items, elem.accepts item = true) :
    pull (.seq traits elem) prior (.array items) errors =
      (.seq (items.map elem.decode), setCurrentIndex errors none) ∧
    (pull (.seq traits elem) prior (.array items) errors).2.map (fun e => e.errors) =
      errors.map (fun e => e.errors) := by
  rw [pull_seq_accepts traits elem prior items errors h]
  exact ⟨rfl, setCurrentIndex_errors errors none⟩

theorem sequence_reset_witness :
    (∀ item ∈ [Value.int 1, Value.int 2], (Ty.scalar .int).accepts item = true) ∧
    (pull (.seq Example.vector (.scalar .int)) (.seq [.int 9, .int 9, .int 9, .int 9])
        (.array [.int 1, .int 2]) (some Example.noErrors) =
      (.seq [.int 1, .int 2], some Example.noErrors) ∧
     (pull (.seq Example.vector (.scalar .int)) (.seq [.int 9, .int 9, .int 9, .int 9])
        (.array [.int 1, .int 2]) (some Example.noErrors)).2.map (fun e => e.errors) =
      some []) :=
  ⟨by decide, sequence_reset Example.vector (.scalar .int) (.seq [.int 9, .int 9, .int 9, .int 9])
    [.int 1, .int 2] (some Example.noErrors) (by decide)⟩

/-! ## What `push` creates -/

theorem foldl_pushItem (pushItem : Val → List Value → List Value) (encode : Val → Value)
    (items : List Val) (h : ∀ item ∈ items, ∀ array, pushItem item array = array ++ [encode item])
    (array : List Value) :
    items.foldl (fun array item => pushItem item array) array = array ++ items.map encode := by
  induction items generalizing array with
  | nil => simp
  | cons item rest ih =>
    simp only [List.foldl_cons, List.map_cons]
    rw [h item (List.mem_cons_self _ _), ih (fun x hx => h x (List.mem_cons_of_mem _ hx))]
    simp

theorem pushToArray_eq (ty : Ty) :
    ∀ (reflectable : Val) (value : List Value),
      pushToArray ty reflectable value = value ++ [ty.encode reflectable] := by
  induction ty with
  | scalar t => intro r v; rfl
  | string => intro r v; rfl
  | seq traits elem ih =>
    intro r v
    simp only [pushToArray, PushBack, Reserve, Ty.encode]
    rw [foldl_pushItem (fun item array => pushToArray elem item array) elem.encode r.items
      (fun item _ array => ih item array)]
    simp

theorem pushMember_eq (ty : Ty) (reflectable : Val) (name : String) (value : Object) :
    pushMember ty reflectable name value = value ++ [(name, ty.encode reflectable)] := by
  cases ty with
  | scalar t => rfl
  | string => rfl
  | seq traits elem =>
    have hf := foldl_pushItem (fun item array => pushToArray elem item array) elem.encode
      reflectable.items (fun item _ array => pushToArray_eq elem item array) []
    cases hs : traits.hasSize <;>
      simp [pushMember, hs, pushSizedMember, pushIteratableMember, AddMember, Reserve, hf,
        Ty.encode]

theorem Ty.accepts_encode (ty : Ty) :
    ∀ (v : Val), ty.hasType v = true → ty.accepts (ty.encode v) = true := by
  induction ty with
  | scalar t =>
    intro v h
    cases t <;> cases v <;> simp_all [Ty.hasType, Ty.accepts, Ty.encode, Value.ofScalar, Value.Is]
  | string =>
    intro v h
    cases v <;> simp_all [Ty.hasType, Ty.accepts, Ty.encode, Val.data, Value.IsString]
  | seq traits elem ih =>
    intro v h
    cases v with
    | seq items =>
      simp only [Ty.hasType, List.all_eq_true] at h
      simp only [Ty.accepts, Ty.encode, Val.items, List.all_eq_true, List.mem_map]
      rintro x ⟨item, hitem, rfl⟩
      exact ih item (h item hitem)
    | _ => simp [Ty.hasType] at h

/-- A text without NUL character is the text its C string gives. -/
theorem Val.ofCString_of_nulFree (s : String)
    (h : s.data.all (fun c => c != Char.ofNat 0) = true) : Val.ofCString s = .string s := by
  have ht : s.data.takeWhile (fun c => c != Char.ofNat 0) = s.data :=
    List.takeWhile_eq_self_iff.mpr (fun x hx => List.all_eq_true.mp h x hx)
  simp only [Val.ofCString, ht]

theorem Ty.decode_encode (ty : Ty) :
    ∀ (v : Val), ty.hasType v = true → ty.nulFree v = true → ty.decode (ty.encode v) = v := by
  induction ty with
  | scalar t =>
    intro v h _
    cases t <;> cases v <;> simp_all [Ty.hasType, Ty.decode, Ty.encode, Value.ofScalar, Value.Get]
  | string =>
    intro v h hn
    cases v with
    | string s =>
      simp only [Ty.nulFree] at hn
      simp only [Ty.decode, Ty.encode, Val.data, Value.GetString]
      exact Val.ofCString_of_nulFree s hn
    | _ => simp [Ty.hasType] at h
  | seq traits elem ih =>
    intro v h hn
    cases v with
    | seq items =>
      simp only [Ty.hasType, List.all_eq_true] at h
      simp only [Ty.nulFree, List.all_eq_true] at hn
      simp only [Ty.decode, Ty.encode, Val.items, Value.GetArray, List.map_map]
      congr 1
      conv_rhs => rw [← List.map_id items]
      apply List.map_congr_left
      intro item hitem
      exact ih item (h item hitem) (hn item hitem)
    | _ => simp [Ty.hasType] at h

/-- The value and the error list after a member pull of an encoded value. -/
theorem pullMember_encoded (ty : Ty) (v prior : Val) (name : String) (value : Object)
    (errors : Option JsonDeserializationErrors) (h : ty.hasType v = true)
    (hn : ty.nulFree v = true)
    (hfind : FindMember value name = some (ty.encode v)) :
    (pullMember (pull ty) prior name value errors).1 = v ∧
    ((pullMember (pull ty) prior name value errors).2 = errors ∨
      (pullMember (pull ty) prior name value errors).2 = setCurrentIndex errors none) := by
  cases errors with
  | none =>
    have hp := pull_accepts ty prior (ty.encode v) none (ty.accepts_encode v h)
    simp only [pullMember, hfind]
    rw [ty.decode_encode v h hn] at hp
    exact hp
  | some e =>
    have hp := pull_accepts ty prior (ty.encode v) (some { e with currentMember := some name })
      (ty.accepts_encode v h)
    simp only [pullMember, hfind]
    rw [ty.decode_encode v h hn] at hp
    refine ⟨hp.1, ?_⟩
    rcases hp.2 with h2 | h2
    · left; rw [h2]; exact setCurrentMember_restore e (some name)
    · right; rw [h2]; cases e; rfl

/-- Pushing a boolean, an integer, a text or a sequence of such values as member `n` into the
empty object and pulling member `n` of that object into a destination of the same type gives the
value back, whatever the destination held, and leaves the error list as it was, when no text of
the value holds a NUL character. -/
theorem leaf_and_sequence_round_trip (ty : Ty) (v prior : Val) (n : String)
    (errors : Option JsonDeserializationErrors) (h : ty.hasType v = true)
    (hn : ty.nulFree v = true) :
    (pullMember (pull ty) prior n (pushMember ty v n []) errors).1 = v ∧
    (pullMember (pull ty) prior n (pushMember ty v n []) errors).2.map (fun e => e.errors) =
      errors.map (fun e => e.errors) := by
  have hfind : FindMember (pushMember ty v n []) n = some (ty.encode v) := by
    rw [pushMember_eq]; simp [FindMember]
  have hp := pullMember_encoded ty v prior n _ errors h hn hfind
  refine ⟨hp.1, ?_⟩
  rcases hp.2 with h2 | h2
  · rw [h2]
  · rw [h2, setCurrentIndex_errors]

theorem leaf_and_sequence_round_trip_witness :
    (Ty.seq Example.vector .string).hasType (.seq [.string "x", .string "y"]) = true ∧
    (Ty.seq Example.vector .string).nulFree (.seq [.string "x", .string "y"]) = true ∧
    ((pullMember (pull (.seq Example.vector .string)) (.seq [.string "old"]) "names"
        (pushMember (.seq Example.vector .string) (.seq [.string "x", .string "y"]) "names" [])
        (some Example.noErrors)).1 = .seq [.string "x", .string "y"] ∧
     (pullMember (pull (.seq Example.vector .string)) (.seq [.string "old"]) "names"
        (pushMember (.seq Example.vector .string) (.seq [.string "x", .string "y"]) "names" [])
        (some Example.noErrors)).2.map (fun e => e.errors) = some []) :=
  ⟨by decide, by decide, leaf_and_sequence_round_trip (.seq Example.vector .string)
    (.seq [.string "x", .string "y"]) (.seq [.string "old"]) "names" (some Example.noErrors)
    (by decide) (by decide)⟩

/-! ## The entry points -/

theorem parseJsonDocFromString_ok (Parse : Parser) (json : String) (jsonSize : Nat)
    (h : (Parse json jsonSize).2.IsError = false) :
    parseJsonDocFromString Parse json jsonSize = .ok (Parse json jsonSize).1 := by
  simp [parseJsonDocFromString, h, pure, Except.pure]

theorem parseJsonDocFromString_error (Parse : Parser) (json : String) (jsonSize : Nat)
    (h : (Parse json jsonSize).2.IsError = true) :
    parseJsonDocFromString Parse json jsonSize = .error (Parse json jsonSize).2 := by
  simp [parseJsonDocFromString, h, throw, throwThe, MonadExceptOf.throw]

/-- The kind check of `fromJson`: when the text parses to a document `d`, `fromJson` for a class
returns the result of the generated `pull` from the members of `d` into the declared object
`res` if `d` is an object; for a boolean or integer type it returns the value of `d` if `d` is a
boolean or an integer in the range of the type; for a text it returns the characters before the
first NUL character of the string `d` holds; and if the kind of `d` is another one it returns
the value-initialised result and, with an error context, appends exactly one `TypeMismatch`
error. -/
theorem fromJson_top_level_kind_check (Parse : Parser) (json : String) (jsonSize : Nat)
    (cat : List RelevantClass) (rc : RelevantClass) (res : Reflectable) (t : ScalarType)
    (e : JsonDeserializationErrors) (errors : Option JsonDeserializationErrors)
    (hparse : (Parse json jsonSize).2.IsError = false) :
    (∀ members, (Parse json jsonSize).1 = .object members →
      fromJsonRecord Parse cat rc res json jsonSize errors =
        .ok (pullRecord cat rc res members errors)) ∧
    (∀ b, (Parse json jsonSize).1 = .bool b →
      fromJsonScalar Parse .bool json jsonSize errors = .ok (.bool b, errors)) ∧
    (∀ i, (Parse json jsonSize).1 = .int i → t ≠ .bool → t.range.1 ≤ i → i < t.range.2 →
      fromJsonScalar Parse t json jsonSize errors = .ok (.int i, errors)) ∧
    (∀ s, (Parse json jsonSize).1 = .string s →
      fromJsonString Parse json jsonSize errors = .ok (Val.ofCString s, errors)) ∧
    ((Parse json jsonSize).1.IsObject = false →
      fromJsonRecord Parse cat rc res json jsonSize none = .ok (rc.record.default, none) ∧
      fromJsonRecord Parse cat rc res json jsonSize (some e) =
        .ok (rc.record.default, some { e with errors := e.errors ++
          [{ kind := .TypeMismatch, actualType := (Parse json jsonSize).1.GetType,
             record := e.currentRecord, member := e.currentMember,
             index := e.currentIndex }] })) ∧
    ((Parse json jsonSize).1.Is t = false →
      fromJsonScalar Parse t json jsonSize none = .ok ((Ty.scalar t).default, none) ∧
      fromJsonScalar Parse t json jsonSize (some e) =
        .ok ((Ty.scalar t).default, some { e with errors := e.errors ++
          [{ kind := .TypeMismatch, actualType := (Parse json jsonSize).1.GetType,
             record := e.currentRecord, member := e.currentMember,
             index := e.currentIndex }] })) ∧
    ((Parse json jsonSize).1.IsString = false →
      fromJsonString Parse json jsonSize none = .ok (Ty.string.default, none) ∧
      fromJsonString Parse json jsonSize (some e) =
        .ok (Ty.string.default, some { e with errors := e.errors ++
          [{ kind := .TypeMismatch, actualType := (Parse json jsonSize).1.GetType,
             record := e.currentRecord, member := e.currentMember,
             index := e.currentIndex }] })) := by
  have hp := parseJsonDocFromString_ok Parse json jsonSize hparse
  refine ⟨?_, ?_, ?_, ?_, ?_, ?_, ?_⟩
  · intro members hd
    simp [fromJsonRecord, fromJsonCustom, hp, hd, Value.IsObject, Value.GetObject, pure,
      Except.pure]
  · intro b hd
    simp [fromJsonScalar, hp, hd, Value.Is, Value.Get, pure, Except.pure]
  · intro i hd ht h1 h2
    have his : (Value.int i).Is t = true := by
      rw [Value.is_true_iff]; exact Or.inr ⟨ht, i, rfl, h1, h2⟩
    cases t <;> simp_all [fromJsonScalar, Value.Get, pure, Except.pure]
  · intro s hd
    simp [fromJsonString, hp, hd, Value.IsString, Value.GetString, pure, Except.pure]
  · intro hd
    simp [fromJsonRecord, fromJsonCustom, hp, hd, reportTypeMismatch,
      JsonDeserializationErrors.reportTypeMismatch, pure, Except.pure]
  · intro hd
    simp [fromJsonScalar, hp, hd, reportTypeMismatch,
      JsonDeserializationErrors.reportTypeMismatch, pure, Except.pure]
  · intro hd
    simp [fromJsonString, hp, hd, reportTypeMismatch,
      JsonDeserializationErrors.reportTypeMismatch, pure, Except.pure]

theorem fromJson_top_level_kind_check_witness :
    (Example.Parse "\x7b\"a\":1,\"b\":\"x\"\x7d" 15).2.IsError = false ∧
    fromJsonRecord Example.Parse Example.catalogue
        { qualifiedName := "Derived", record := Example.Derived } Example.Derived.default
        "\x7b\"a\":1,\"b\":\"x\"\x7d" 15 (some Example.noErrors) =
      .ok (Example.derived, some Example.noErrors) :=
  ⟨by decide,
    ((fromJson_top_level_kind_check Example.Parse "\x7b\"a\":1,\"b\":\"x\"\x7d" 15
      Example.catalogue { qualifiedName := "Derived", record := Example.Derived }
      Example.Derived.default .int
      Example.noErrors (some Example.noErrors) (by decide)).1
        [("a", .int 1), ("b", .string "x")] (by decide)).trans
      (congrArg Except.ok (by decide))⟩

/-- C10: when parsing the text reports an error, `fromJson` for every target type ends with
the thrown parse result: it returns neither a value nor an error context, so no error is
appended to the error context of the caller. -/
theorem parse_failure_is_fatal {α : Type} (Parse : Parser) (json : String) (jsonSize : Nat)
    (pullObject : PullObject α) (fresh res : α) (cat : List RelevantClass) (rc : RelevantClass)
    (r : Reflectable) (t : ScalarType) (errors : Option JsonDeserializationErrors)
    (h : (Parse json jsonSize).2.IsError = true) :
    fromJsonCustom Parse pullObject fresh res json jsonSize errors =
      .error (Parse json jsonSize).2 ∧
    fromJsonRecord Parse cat rc r json jsonSize errors = .error (Parse json jsonSize).2 ∧
    fromJsonScalar Parse t json jsonSize errors = .error (Parse json jsonSize).2 ∧
    fromJsonString Parse json jsonSize errors = .error (Parse json jsonSize).2 := by
  have hp := parseJsonDocFromString_error Parse json jsonSize h
  simp [fromJsonRecord, fromJsonCustom, fromJsonScalar, fromJsonString, hp, throw, throwThe,
    MonadExceptOf.throw]

theorem parse_failure_is_fatal_witness :
    (Example.Parse "\x7b\"a\":" 5).2.IsError = true ∧
    (fromJsonCustom Example.Parse (pullRecord Example.catalogue
        { qualifiedName := "Derived", record := Example.Derived }) Example.Derived.default
        Example.Derived.default
        "\x7b\"a\":" 5 (some Example.noErrors) = .error (Example.Parse "\x7b\"a\":" 5).2 ∧
     fromJsonRecord Example.Parse Example.catalogue
        { qualifiedName := "Derived", record := Example.Derived } Example.Derived.default
        "\x7b\"a\":" 5
        (some Example.noErrors) = .error (Example.Parse "\x7b\"a\":" 5).2 ∧
     fromJsonScalar Example.Parse .int "\x7b\"a\":" 5 (some Example.noErrors) =
        .error (Example.Parse "\x7b\"a\":" 5).2 ∧
     fromJsonString Example.Parse "\x7b\"a\":" 5 (some Example.noErrors) =
        .error (Example.Parse "\x7b\"a\":" 5).2) :=
  ⟨by decide, parse_failure_is_fatal Example.Parse "\x7b\"a\":" 5
    (pullRecord Example.catalogue { qualifiedName := "Derived", record := Example.Derived })
    Example.Derived.default Example.Derived.default Example.catalogue
    { qualifiedName := "Derived", record := Example.Derived } Example.Derived.default .int
    (some Example.noErrors) (by decide)⟩

/-! ## Closed instances -/

theorem pull_scalar_and_text_kind_check_witness :
    (Value.string "not-a-number").Is .int = false ∧
    pullScalar .int (.int 7) (.string "not-a-number") (some Example.noErrors) =
      (.int 7, some { errors := [{ kind := .TypeMismatch, actualType := .kStringType,
                                   record := none, member := none, index := none }],
                      currentRecord := none, currentMember := none, currentIndex := none }) :=
  ⟨by decide,
    (((pull_scalar_and_text_kind_check (.int 7) Example.noErrors).1 .int
      (.string "not-a-number") (by decide)).2).trans (by decide)⟩

theorem missing_member_tolerance_witness :
    FindMember [] "x" = none ∧
    (pullMember (pull (.scalar .int)) (.int 5) "x" [] (some Example.noErrors) =
        (.int 5, some Example.noErrors) ∧
     pullRecord [{ qualifiedName := "Triple", record := Example.Triple }]
        { qualifiedName := "Triple", record := Example.Triple } Example.triple []
        (some Example.noErrors) = (Example.triple, some Example.noErrors)) :=
  ⟨by decide, missing_member_tolerance (pull (.scalar .int)) (.int 5) "x" []
    (some Example.noErrors) [{ qualifiedName := "Triple", record := Example.Triple }]
    { qualifiedName := "Triple", record := Example.Triple } Example.triple (by decide)⟩

theorem container_kind_mismatch_witness :
    (Value.int 3).IsArray = false ∧ (Value.int 3).IsObject = false ∧
    pull (.seq Example.vector (.scalar .int)) (.seq [.int 9, .int 9]) (.int 3)
        (some Example.noErrors) =
      (.seq [.int 9, .int 9],
        some { errors := [{ kind := .TypeMismatch, actualType := .kNumberType,
                            record := none, member := none, index := none }],
               currentRecord := none, currentMember := none, currentIndex := none }) ∧
    pullCustom (pullRecord Example.catalogue
        { qualifiedName := "Derived", record := Example.Derived }) Example.derived (.int 3)
        (some Example.noErrors) =
      (Example.derived,
        some { errors := [{ kind := .TypeMismatch, actualType := .kNumberType,
                            record := none, member := none, index := none }],
               currentRecord := none, currentMember := none, currentIndex := none }) :=
  ⟨by decide, by decide,
    (((container_kind_mismatch Example.vector (.scalar .int) (.seq [.int 9, .int 9]) (.int 3)
      Example.noErrors Example.catalogue
      { qualifiedName := "Derived", record := Example.Derived } Example.derived).1
        (by decide)).2).trans (by decide),
    (((container_kind_mismatch Example.vector (.scalar .int) (.seq [.int 9, .int 9]) (.int 3)
      Example.noErrors Example.catalogue
      { qualifiedName := "Derived", record := Example.Derived } Example.derived).2
        (by decide)).2).trans (by decide)⟩

/-! ## The layout of an object -/

theorem CXXRecordDecl.hasBase_irrefl (record : CXXRecordDecl) : record.hasBase record = false := by
  cases h : record.hasBase record
  · rfl
  · exact absurd (CXXRecordDecl.depth_lt_of_hasBase record record h) (Nat.lt_irrefl _)

theorem CXXRecordDecl.isDerivedFrom_iff (record base : CXXRecordDecl) :
    record.isDerivedFrom base = true ↔ record.hasBase base = true := by
  unfold CXXRecordDecl.isDerivedFrom
  split
  · rename_i h
    subst h
    simp [CXXRecordDecl.hasBase_irrefl]
  · rfl

theorem CXXRecordDecl.layout_eq (record : CXXRecordDecl) :
    record.layout =
      CXXRecordDecl.layoutIn record.bases ++ record.fields.map (fun f => (record, f)) := by
  cases record; rfl

mutual
theorem CXXRecordDecl.mem_layout :
    ∀ (record : CXXRecordDecl) (p : CXXRecordDecl × FieldDecl), p ∈ record.layout →
      p.2 ∈ p.1.fields ∧ (p.1 = record ∨ record.hasBase p.1 = true)
  | .mk n d bases fields, p, h => by
    simp only [CXXRecordDecl.layout, List.mem_append, List.mem_map] at h
    rcases h with h | ⟨f, hf, rfl⟩
    · have := CXXRecordDecl.mem_layoutIn bases p h
      exact ⟨this.1, Or.inr (by simpa [CXXRecordDecl.hasBase] using this.2)⟩
    · exact ⟨hf, Or.inl rfl⟩
theorem CXXRecordDecl.mem_layoutIn :
    ∀ (bases : List CXXRecordDecl) (p : CXXRecordDecl × FieldDecl),
      p ∈ CXXRecordDecl.layoutIn bases →
      p.2 ∈ p.1.fields ∧ CXXRecordDecl.hasBaseIn bases p.1 = true
  | [], p, h => by simp [CXXRecordDecl.layoutIn] at h
  | b :: bs, p, h => by
    simp only [CXXRecordDecl.layoutIn, List.mem_append] at h
    simp only [CXXRecordDecl.hasBaseIn, Bool.or_eq_true, decide_eq_true_eq]
    rcases h with h | h
    · have := CXXRecordDecl.mem_layout b p h
      refine ⟨this.1, Or.inl ?_⟩
      rcases this.2 with h2 | h2
      · exact Or.inl h2.symm
      · exact Or.inr h2
    · have := CXXRecordDecl.mem_layoutIn bs p h
      exact ⟨this.1, Or.inr this.2⟩
end

theorem CXXRecordDecl.own_mem_layout (record : CXXRecordDecl) (f : FieldDecl)
    (h : f ∈ record.fields) : (record, f) ∈ record.layout := by
  rw [CXXRecordDecl.layout_eq]
  exact List.mem_append_right _ (List.mem_map.mpr ⟨f, h, rfl⟩)

mutual
theorem CXXRecordDecl.layout_subset_of_hasBase :
    ∀ (record base : CXXRecordDecl), record.hasBase base = true →
      ∀ p ∈ base.layout, p ∈ record.layout
  | .mk n d bases fields, base, h, p, hp => by
    simp only [CXXRecordDecl.hasBase] at h
    simp only [CXXRecordDecl.layout, List.mem_append]
    exact Or.inl (CXXRecordDecl.layoutIn_subset_of_hasBaseIn bases base h p hp)
theorem CXXRecordDecl.layoutIn_subset_of_hasBaseIn :
    ∀ (bases : List CXXRecordDecl) (base : CXXRecordDecl),
      CXXRecordDecl.hasBaseIn bases base = true →
      ∀ p ∈ base.layout, p ∈ CXXRecordDecl.layoutIn bases
  | [], _, h, _, _ => by simp [CXXRecordDecl.hasBaseIn] at h
  | b :: bs, base, h, p, hp => by
    simp only [CXXRecordDecl.hasBaseIn, Bool.or_eq_true, decide_eq_true_eq] at h
    simp only [CXXRecordDecl.layoutIn, List.mem_append]
    rcases h with (h | h) | h
    · subst h; exact Or.inl hp
    · exact Or.inl (CXXRecordDecl.layout_subset_of_hasBase b base h p hp)
    · exact Or.inr (CXXRecordDecl.layoutIn_subset_of_hasBaseIn bs base h p hp)
end

theorem mem_findRelevantBaseClasses (cat : List RelevantClass) (rc b : RelevantClass) :
    b ∈ findRelevantBaseClasses cat rc ↔ b ∈ cat ∧ rc.record.hasBase b.record = true := by
  simp only [findRelevantBaseClasses, List.mem_filter, Bool.and_eq_true, decide_eq_true_eq,
    CXXRecordDecl.isDerivedFrom_iff]
  constructor
  · rintro ⟨h1, _, h3⟩; exact ⟨h1, h3⟩
  · rintro ⟨h1, h3⟩
    refine ⟨h1, ?_, h3⟩
    intro heq
    rw [← heq, CXXRecordDecl.hasBase_irrefl] at h3
    exact absurd h3 (by simp)

theorem layout_subset_of_mem_findRelevantBaseClasses (cat : List RelevantClass)
    (rc b : RelevantClass) (h : b ∈ findRelevantBaseClasses cat rc) :
    ∀ p ∈ b.record.layout, p ∈ rc.record.layout :=
  CXXRecordDecl.layout_subset_of_hasBase _ _ ((mem_findRelevantBaseClasses cat rc b).mp h).2

/-! ## Slots -/

theorem Reflectable.map_key_setField (r : Reflectable) (owner : CXXRecordDecl)
    (field : FieldDecl) (v : Val) :
    (r.setField owner field v).map (fun s => (s.owner, s.name)) =
      r.map (fun s => (s.owner, s.name)) := by
  induction r with
  | nil => rfl
  | cons s rest ih =>
    simp only [Reflectable.setField]
    split
    · simp
    · simp only [List.map_cons, ih]

theorem Reflectable.getField_setField_self (r : Reflectable) (owner : CXXRecordDecl)
    (field : FieldDecl) (v : Val)
    (h : (owner, field.name) ∈ r.map (fun s => (s.owner, s.name))) :
    (r.setField owner field v).getField owner field = v := by
  induction r with
  | nil => simp at h
  | cons s rest ih =>
    simp only [Reflectable.setField]
    by_cases hs : s.owner = owner ∧ s.name = field.name
    · simp [hs, Reflectable.getField]
    · simp only [hs, if_false, Reflectable.getField]
      apply ih
      simp only [List.map_cons, List.mem_cons, Prod.mk.injEq] at h
      rcases h with h | h
      · exact absurd ⟨h.1.symm, h.2.symm⟩ hs
      · exact h

theorem Reflectable.getField_setField_of_ne (r : Reflectable) (owner owner2 : CXXRecordDecl)
    (field field2 : FieldDecl) (v : Val) (h : ¬(owner = owner2 ∧ field.name = field2.name)) :
    (r.setField owner field v).getField owner2 field2 = r.getField owner2 field2 := by
  induction r with
  | nil => rfl
  | cons s rest ih =>
    simp only [Reflectable.setField]
    by_cases hs : s.owner = owner ∧ s.name = field.name
    · have hs2 : ¬(s.owner = owner2 ∧ s.name = field2.name) := by
        rintro ⟨h1, h2⟩
        exact h ⟨hs.1.symm.trans h1, hs.2.symm.trans h2⟩
      simp [hs, h, Reflectable.getField]
    · simp only [hs, if_false, Reflectable.getField, ih]

theorem Reflectable.map_key_of_hasLayout :
    ∀ (d : Reflectable) (L : List (CXXRecordDecl × FieldDecl)), d.hasLayout L = true →
      d.map (fun s => (s.owner, s.name)) = L.map (fun p => (p.1, p.2.name))
  | [], [], _ => rfl
  | [], _ :: _, h => by simp [Reflectable.hasLayout] at h
  | _ :: _, [], h => by simp [Reflectable.hasLayout] at h
  | s :: d, p :: L, h => by
    simp only [Reflectable.hasLayout, Bool.and_eq_true, decide_eq_true_eq] at h
    simp only [List.map_cons, List.cons.injEq, Prod.mk.injEq]
    exact ⟨⟨h.1.1.1, h.1.1.2⟩, Reflectable.map_key_of_hasLayout d L h.2⟩

theorem Reflectable.hasType_getField_of_hasLayout :
    ∀ (d : Reflectable) (L : List (CXXRecordDecl × FieldDecl)), d.hasLayout L = true →
      (L.map (fun p => p.2.name)).Nodup →
      ∀ p ∈ L, p.2.type.hasType (d.getField p.1 p.2) = true
  | [], [], _, _, p, hp => by simp at hp
  | [], _ :: _, h, _, _, _ => by simp [Reflectable.hasLayout] at h
  | _ :: _, [], h, _, _, _ => by simp [Reflectable.hasLayout] at h
  | s :: d, q :: L, h, hn, p, hp => by
    simp only [Reflectable.hasLayout, Bool.and_eq_true, decide_eq_true_eq] at h
    simp only [List.map_cons, List.nodup_cons, List.mem_map, not_exists, not_and] at hn
    simp only [List.mem_cons] at hp
    rcases hp with rfl | hp
    · simp [Reflectable.getField, h.1.1.1, h.1.1.2, h.1.2]
    · have hne : ¬(s.owner = p.1 ∧ s.name = p.2.name) := by
        rintro ⟨_, h2⟩
        exact hn.1 p hp (h2.symm.trans h.1.1.2)
      simp only [Reflectable.getField, hne, if_false]
      exact Reflectable.hasType_getField_of_hasLayout d L h.2 hn.2 p hp

theorem Reflectable.ext_of_getField :
    ∀ (L : List (CXXRecordDecl × FieldDecl)) (r d : Reflectable),
      r.map (fun s => (s.owner, s.name)) = L.map (fun p => (p.1, p.2.name)) →
      d.map (fun s => (s.owner, s.name)) = L.map (fun p => (p.1, p.2.name)) →
      (L.map (fun p => p.2.name)).Nodup →
      (∀ p ∈ L, r.getField p.1 p.2 = d.getField p.1 p.2) → r = d
  | [], [], [], _, _, _, _ => rfl
  | [], _ :: _, _, h, _, _, _ => by simp at h
  | [], [], _ :: _, _, h, _, _ => by simp at h
  | _ :: _, [], _, h, _, _, _ => by simp at h
  | _ :: _, _ :: _, [], _, h, _, _ => by simp at h
  | q :: L, s :: r, t :: d, hr, hd, hn, hg => by
    simp only [List.map_cons, List.cons.injEq, Prod.mk.injEq] at hr hd
    simp only [List.map_cons, List.nodup_cons, List.mem_map, not_exists, not_and] at hn
    have hhead := hg q (List.mem_cons_self _ _)
    simp only [Reflectable.getField, hr.1.1, hr.1.2, hd.1.1, hd.1.2, and_self, if_true] at hhead
    have hst : s = t := by
      cases s; cases t
      simp only [Slot.mk.injEq]
      simp only at hr hd hhead
      exact ⟨hr.1.1.trans hd.1.1.symm, hr.1.2.trans hd.1.2.symm, hhead⟩
    have htail : r = d := by
      apply Reflectable.ext_of_getField L r d hr.2 hd.2 hn.2
      intro p hp
      have h1 := hg p (List.mem_cons_of_mem _ hp)
      have hne : ¬(q.1 = p.1 ∧ q.2.name = p.2.name) := by
        rintro ⟨_, h2⟩
        exact hn.1 p hp h2.symm
      have hne1 : ¬(s.owner = p.1 ∧ s.name = p.2.name) := by
        rw [hr.1.1, hr.1.2]; exact hne
      have hne2 : ¬(t.owner = p.1 ∧ t.name = p.2.name) := by
        rw [hd.1.1, hd.1.2]; exact hne
      simpa only [Reflectable.getField, hne1, hne2, if_false] using h1
    rw [hst, htail]

theorem CXXRecordDecl.map_key_default (record : CXXRecordDecl) :
    record.default.map (fun s => (s.owner, s.name)) =
      record.layout.map (fun p => (p.1, p.2.name)) := by
  simp [CXXRecordDecl.default, List.map_map, Function.comp_def]

theorem eq_of_name_eq_of_nodup (L : List (CXXRecordDecl × FieldDecl))
    (hn : (L.map (fun p => p.2.name)).Nodup) (p q : CXXRecordDecl × FieldDecl)
    (hp : p ∈ L) (hq : q ∈ L) (h : p.2.name = q.2.name) : p = q :=
  List.inj_on_of_nodup_map hn hp hq h

/-! ## Member lookup -/

theorem mem_of_FindMember (value : Object) (name : String) (v : Value)
    (h : FindMember value name = some v) : (name, v) ∈ value := by
  induction value with
  | nil => simp [FindMember] at h
  | cons m rest ih =>
    obtain ⟨n, x⟩ := m
    simp only [FindMember] at h
    split at h
    · rename_i hn
      simp only [Option.some.injEq] at h
      subst hn h
      exact List.mem_cons_self _ _
    · exact List.mem_cons_of_mem _ (ih h)

theorem FindMember_isSome_of_mem (value : Object) (name : String) (v : Value)
    (h : (name, v) ∈ value) : ∃ w, FindMember value name = some w := by
  induction value with
  | nil => simp at h
  | cons m rest ih =>
    obtain ⟨n, x⟩ := m
    simp only [FindMember]
    split
    · exact ⟨x, rfl⟩
    · rename_i hn
      simp only [List.mem_cons, Prod.mk.injEq] at h
      rcases h with h | h
      · exact absurd h.1.symm hn
      · exact ih h

/-! ## The members a generated `push` adds -/

theorem pushFields_eq (self : CXXRecordDecl) (r : Reflectable) (fields : List FieldDecl)
    (value : Object) :
    pushFields self r fields value =
      value ++ fields.map (fun f => (f.name, f.type.encode (r.getField self f))) := by
  induction fields generalizing value with
  | nil => simp [pushFields]
  | cons f fs ih =>
    simp only [pushFields, List.foldl_cons, List.map_cons] at ih ⊢
    rw [ih, pushMember_eq]
    simp

theorem pushBases_eq (cb : RelevantClass → Reflectable → Object → Object) (r : Reflectable)
    (bases : List RelevantClass) (value : Object)
    (h : ∀ b ∈ bases, ∀ obj, cb b r obj = obj ++ cb b r []) :
    pushBases cb r bases value = value ++ (bases.map (fun b => cb b r [])).flatten := by
  induction bases generalizing value with
  | nil => simp [pushBases]
  | cons b bs ih =>
    simp only [pushBases, List.foldl_cons, List.map_cons, List.flatten_cons] at ih ⊢
    rw [ih _ (fun x hx => h x (List.mem_cons_of_mem _ hx)), h b (List.mem_cons_self _ _) value]
    simp

theorem pushRecord_append (cat : List RelevantClass) (d : Reflectable) (rc : RelevantClass) :
    ∀ (value : Object), pushRecord cat rc d value = value ++ pushRecord cat rc d [] := by
  refine relevantClass_induction cat
    (fun rc => ∀ (value : Object), pushRecord cat rc d value = value ++ pushRecord cat rc d [])
    ?_ rc
  intro rc ih value
  rw [pushRecord_eq, pushRecord_eq cat rc d [], pushFields_eq, pushFields_eq,
    pushBases_eq _ _ _ _ ih, pushBases_eq _ _ _ [] ih]
  simp

theorem pushRecord_members (cat : List RelevantClass) (d : Reflectable) (rc : RelevantClass) :
    pushRecord cat rc d [] =
      ((findRelevantBaseClasses cat rc).map (fun b => pushRecord cat b d [])).flatten ++
        rc.record.fields.map (fun f => (f.name, f.type.encode (d.getField rc.record f))) := by
  rw [pushRecord_eq, pushFields_eq,
    pushBases_eq _ _ _ [] (fun b _ obj => pushRecord_append cat d b obj)]
  simp

theorem pushRecord_member_of (cat : List RelevantClass) (d : Reflectable) (rc : RelevantClass) :
    ∀ m ∈ pushRecord cat rc d [], ∃ p ∈ rc.record.layout,
      m = (p.2.name, p.2.type.encode (d.getField p.1 p.2)) := by
  refine relevantClass_induction cat
    (fun rc => ∀ m ∈ pushRecord cat rc d [], ∃ p ∈ rc.record.layout,
      m = (p.2.name, p.2.type.encode (d.getField p.1 p.2))) ?_ rc
  intro rc ih m hm
  rw [pushRecord_members] at hm
  simp only [List.mem_append, List.mem_flatten, List.mem_map] at hm
  rcases hm with ⟨l, ⟨b, hb, rfl⟩, hml⟩ | ⟨f, hf, rfl⟩
  · obtain ⟨p, hp, hpm⟩ := ih b hb m hml
    exact ⟨p, layout_subset_of_mem_findRelevantBaseClasses cat rc b hb p hp, hpm⟩
  · exact ⟨(rc.record, f), CXXRecordDecl.own_mem_layout _ f hf, rfl⟩

theorem pushRecord_own_mem (cat : List RelevantClass) (d : Reflectable) (rc : RelevantClass)
    (f : FieldDecl) (hf : f ∈ rc.record.fields) :
    (f.name, f.type.encode (d.getField rc.record f)) ∈ pushRecord cat rc d [] := by
  rw [pushRecord_members]
  exact List.mem_append_right _ (List.mem_map.mpr ⟨f, hf, rfl⟩)

theorem pushRecord_base_mem (cat : List RelevantClass) (d : Reflectable) (rc b : RelevantClass)
    (hb : b ∈ findRelevantBaseClasses cat rc) (m : String × Value)
    (hm : m ∈ pushRecord cat b d []) : m ∈ pushRecord cat rc d [] := by
  rw [pushRecord_members cat d rc]
  apply List.mem_append_left
  simp only [List.mem_flatten, List.mem_map]
  exact ⟨_, ⟨b, hb, rfl⟩, hm⟩

/-- The object a generated `push` creates holds, under the name of every data member of a
relevant class of the layout, the encoding of that data member. -/
theorem FindMember_pushRecord (cat : List RelevantClass) (d : Reflectable) (rc : RelevantClass)
    (hnames : (rc.record.layout.map (fun p => p.2.name)).Nodup)
    (p : CXXRecordDecl × FieldDecl) (hp : p ∈ rc.record.layout)
    (hrel : p.1 = rc.record ∨ ∃ b ∈ cat, b.record = p.1) :
    FindMember (pushRecord cat rc d []) p.2.name =
      some (p.2.type.encode (d.getField p.1 p.2)) := by
  have hmem := CXXRecordDecl.mem_layout rc.record p hp
  have hin : (p.2.name, p.2.type.encode (d.getField p.1 p.2)) ∈ pushRecord cat rc d [] := by
    by_cases hself : p.1 = rc.record
    · have := pushRecord_own_mem cat d rc p.2 (hself ▸ hmem.1)
      rw [← hself] at this
      exact this
    · rcases hrel with h | ⟨b, hb, hbp⟩
      · exact absurd h hself
      · have hbase : rc.record.hasBase b.record = true := by
          rcases hmem.2 with h | h
          · exact absurd h hself
          · rw [hbp]; exact h
        have hb2 : b ∈ findRelevantBaseClasses cat rc :=
          (mem_findRelevantBaseClasses cat rc b).mpr ⟨hb, hbase⟩
        have := pushRecord_own_mem cat d b p.2 (hbp ▸ hmem.1)
        rw [hbp] at this
        exact pushRecord_base_mem cat d rc b hb2 _ this
  obtain ⟨w, hw⟩ := FindMember_isSome_of_mem _ _ _ hin
  obtain ⟨q, hq, hqm⟩ := pushRecord_member_of cat d rc _ (mem_of_FindMember _ _ _ hw)
  simp only [Prod.mk.injEq] at hqm
  have hpq : p = q := eq_of_name_eq_of_nodup _ hnames p q hp hq hqm.1
  rw [hw, hqm.2, hpq]

/-! ## What a generated `pull` stores when every member is found with the right kind -/

theorem setCurrentRecord_errors (errors : Option JsonDeserializationErrors)
    (name : Option String) :
    (setCurrentRecord errors name).map (fun e => e.errors) = errors.map (fun e => e.errors) := by
  cases errors <;> rfl

theorem pullField_encoded (d : Reflectable) (self : CXXRecordDecl) (value : Object)
    (f : FieldDecl) (s : Reflectable × Option JsonDeserializationErrors)
    (hty : f.type.hasType (d.getField self f) = true)
    (hnul : f.type.nulFree (d.getField self f) = true)
    (hfind : FindMember value f.name = some (f.type.encode (d.getField self f))) :
    (pullField self value f s).1 = s.1.setField self f (d.getField self f) ∧
    (pullField self value f s).2.map (fun e => e.errors) = s.2.map (fun e => e.errors) := by
  have hp := pullMember_encoded f.type (d.getField self f) (s.1.getField self f) f.name value
    s.2 hty hnul hfind
  simp only [pullField]
  refine ⟨by rw [hp.1], ?_⟩
  rcases hp.2 with h | h
  · rw [h]
  · rw [h, setCurrentIndex_errors]

theorem pullFields_encoded (d : Reflectable) (L : List (CXXRecordDecl × FieldDecl))
    (hL : (L.map (fun p => p.2.name)).Nodup)
    (hty : ∀ p ∈ L, p.2.type.hasType (d.getField p.1 p.2) = true)
    (hnul : ∀ p ∈ L, p.2.type.nulFree (d.getField p.1 p.2) = true)
    (value : Object)
    (hfind : ∀ p ∈ L, FindMember value p.2.name = some (p.2.type.encode (d.getField p.1 p.2)))
    (self : CXXRecordDecl) (fields : List FieldDecl) (hsub : ∀ f ∈ fields, (self, f) ∈ L) :
    ∀ (s : Reflectable × Option JsonDeserializationErrors),
      s.1.map (fun x => (x.owner, x.name)) = L.map (fun p => (p.1, p.2.name)) →
      (pullFields self value fields s).1.map (fun x => (x.owner, x.name)) =
        L.map (fun p => (p.1, p.2.name)) ∧
      (∀ p ∈ L, s.1.getField p.1 p.2 = d.getField p.1 p.2 →
        (pullFields self value fields s).1.getField p.1 p.2 = d.getField p.1 p.2) ∧
      (∀ f ∈ fields,
        (pullFields self value fields s).1.getField self f = d.getField self f) ∧
      (pullFields self value fields s).2.map (fun e => e.errors) =
        s.2.map (fun e => e.errors) := by
  induction fields with
  | nil => intro s hk; simp [pullFields, hk]
  | cons f fs ih =>
    intro s hk
    have hfL : (self, f) ∈ L := hsub f (List.mem_cons_self _ _)
    have hstep := pullField_encoded d self value f s (hty _ hfL) (hnul _ hfL) (hfind _ hfL)
    have hkey : (self, f.name) ∈ s.1.map (fun x => (x.owner, x.name)) := by
      rw [hk]; exact List.mem_map.mpr ⟨(self, f), hfL, rfl⟩
    have hk1 : (pullField self value f s).1.map (fun x => (x.owner, x.name)) =
        L.map (fun p => (p.1, p.2.name)) := by
      rw [hstep.1, Reflectable.map_key_setField, hk]
    have hpres : ∀ p ∈ L, s.1.getField p.1 p.2 = d.getField p.1 p.2 →
        (pullField self value f s).1.getField p.1 p.2 = d.getField p.1 p.2 := by
      intro p hp hag
      rw [hstep.1]
      by_cases hsame : self = p.1 ∧ f.name = p.2.name
      · have hpe : (self, f) = p := eq_of_name_eq_of_nodup L hL (self, f) p hfL hp hsame.2
        rw [← hpe]
        exact Reflectable.getField_setField_self _ _ _ _ hkey
      · rw [Reflectable.getField_setField_of_ne _ _ _ _ _ _ hsame]
        exact hag
    have hown : (pullField self value f s).1.getField self f = d.getField self f := by
      rw [hstep.1]
      exact Reflectable.getField_setField_self _ _ _ _ hkey
    have hrest := ih (fun x hx => hsub x (List.mem_cons_of_mem _ hx))
      (pullField self value f s) hk1
    simp only [pullFields, List.foldl_cons] at hrest ⊢
    refine ⟨hrest.1, ?_, ?_, ?_⟩
    · intro p hp hag
      exact hrest.2.1 p hp (hpres p hp hag)
    · intro x hx
      simp only [List.mem_cons] at hx
      rcases hx with rfl | hx
      · exact hrest.2.1 (self, x) hfL hown
      · exact hrest.2.2.1 x hx
    · rw [hrest.2.2.2, hstep.2]

theorem pullBases_encoded (d : Reflectable) (L : List (CXXRecordDecl × FieldDecl))
    (cb : RelevantClass → PullObject Reflectable) (value : Object)
    (bases : List RelevantClass)
    (hstep : ∀ b ∈ bases, ∀ (r : Reflectable) (e : Option JsonDeserializationErrors),
      r.map (fun x => (x.owner, x.name)) = L.map (fun p => (p.1, p.2.name)) →
      (cb b r value e).1.map (fun x => (x.owner, x.name)) = L.map (fun p => (p.1, p.2.name)) ∧
      (∀ p ∈ L, r.getField p.1 p.2 = d.getField p.1 p.2 →
        (cb b r value e).1.getField p.1 p.2 = d.getField p.1 p.2) ∧
      (∀ f ∈ b.record.fields, (cb b r value e).1.getField b.record f = d.getField b.record f) ∧
      (cb b r value e).2.map (fun e => e.errors) = e.map (fun e => e.errors))
    (hsub : ∀ b ∈ bases, ∀ f ∈ b.record.fields, (b.record, f) ∈ L) :
    ∀ (s : Reflectable × Option JsonDeserializationErrors),
      s.1.map (fun x => (x.owner, x.name)) = L.map (fun p => (p.1, p.2.name)) →
      (pullBases cb value bases s).1.map (fun x => (x.owner, x.name)) =
        L.map (fun p => (p.1, p.2.name)) ∧
      (∀ p ∈ L, s.1.getField p.1 p.2 = d.getField p.1 p.2 →
        (pullBases cb value bases s).1.getField p.1 p.2 = d.getField p.1 p.2) ∧
      (∀ b ∈ bases, ∀ f ∈ b.record.fields,
        (pullBases cb value bases s).1.getField b.record f = d.getField b.record f) ∧
      (pullBases cb value bases s).2.map (fun e => e.errors) =
        s.2.map (fun e => e.errors) := by
  induction bases with
  | nil => intro s hk; simp [pullBases, hk]
  | cons b bs ih =>
    intro s hk
    have h1 := hstep b (List.mem_cons_self _ _) s.1 s.2 hk
    have hrest := ih (fun x hx => hstep x (List.mem_cons_of_mem _ hx))
      (fun x hx => hsub x (List.mem_cons_of_mem _ hx)) (cb b s.1 value s.2) h1.1
    simp only [pullBases, List.foldl_cons] at hrest ⊢
    refine ⟨hrest.1, ?_, ?_, ?_⟩
    · intro p hp hag
      exact hrest.2.1 p hp (h1.2.1 p hp hag)
    · intro x hx f hf
      simp only [List.mem_cons] at hx
      rcases hx with rfl | hx
      · exact hrest.2.1 (x.record, f) (hsub x (List.mem_cons_self _ _) f hf) (h1.2.2.1 f hf)
      · exact hrest.2.2.1 x hx f hf
    · rw [hrest.2.2.2, h1.2.2.2]

theorem pullRecord_encoded (cat : List RelevantClass) (d : Reflectable)
    (L : List (CXXRecordDecl × FieldDecl)) (hL : (L.map (fun p => p.2.name)).Nodup)
    (hty : ∀ p ∈ L, p.2.type.hasType (d.getField p.1 p.2) = true)
    (hnul : ∀ p ∈ L, p.2.type.nulFree (d.getField p.1 p.2) = true)
    (value : Object)
    (hfind : ∀ p ∈ L, FindMember value p.2.name = some (p.2.type.encode (d.getField p.1 p.2)))
    (rc : RelevantClass) :
    (∀ p ∈ rc.record.layout, p ∈ L) →
    ∀ (r : Reflectable) (e : Option JsonDeserializationErrors),
      r.map (fun x => (x.owner, x.name)) = L.map (fun p => (p.1, p.2.name)) →
      (pullRecord cat rc r value e).1.map (fun x => (x.owner, x.name)) =
        L.map (fun p => (p.1, p.2.name)) ∧
      (∀ p ∈ L, r.getField p.1 p.2 = d.getField p.1 p.2 →
        (pullRecord cat rc r value e).1.getField p.1 p.2 = d.getField p.1 p.2) ∧
      (∀ p ∈ rc.record.layout, (p.1 = rc.record ∨ ∃ b ∈ cat, b.record = p.1) →
        (pullRecord cat rc r value e).1.getField p.1 p.2 = d.getField p.1 p.2) ∧
      (pullRecord cat rc r value e).2.map (fun e => e.errors) = e.map (fun e => e.errors) := by
  refine relevantClass_induction cat (fun rc => (∀ p ∈ rc.record.layout, p ∈ L) →
    ∀ (r : Reflectable) (e : Option JsonDeserializationErrors),
      r.map (fun x => (x.owner, x.name)) = L.map (fun p => (p.1, p.2.name)) →
      (pullRecord cat rc r value e).1.map (fun x => (x.owner, x.name)) =
        L.map (fun p => (p.1, p.2.name)) ∧
      (∀ p ∈ L, r.getField p.1 p.2 = d.getField p.1 p.2 →
        (pullRecord cat rc r value e).1.getField p.1 p.2 = d.getField p.1 p.2) ∧
      (∀ p ∈ rc.record.layout, (p.1 = rc.record ∨ ∃ b ∈ cat, b.record = p.1) →
        (pullRecord cat rc r value e).1.getField p.1 p.2 = d.getField p.1 p.2) ∧
      (pullRecord cat rc r value e).2.map (fun e => e.errors) = e.map (fun e => e.errors))
    ?_ rc
  intro rc ih hsubL r e hk
  have hbsub : ∀ b ∈ findRelevantBaseClasses cat rc, ∀ p ∈ b.record.layout, p ∈ L :=
    fun b hb p hp => hsubL p (layout_subset_of_mem_findRelevantBaseClasses cat rc b hb p hp)
  have hB := pullBases_encoded d L (pullRecord cat) value (findRelevantBaseClasses cat rc)
    (fun b hb r2 e2 hk2 => by
      have h := ih b hb (hbsub b hb) r2 e2 hk2
      exact ⟨h.1, h.2.1,
        fun f hf => h.2.2.1 (b.record, f) (CXXRecordDecl.own_mem_layout _ f hf) (Or.inl rfl),
        h.2.2.2⟩)
    (fun b hb f hf => hbsub b hb _ (CXXRecordDecl.own_mem_layout _ f hf)) (r, e) hk
  have hF := pullFields_encoded d L hL hty hnul value hfind rc.record rc.record.fields
    (fun f hf => hsubL _ (CXXRecordDecl.own_mem_layout _ f hf))
    ((pullBases (pullRecord cat) value (findRelevantBaseClasses cat rc) (r, e)).1,
      setCurrentRecord (pullBases (pullRecord cat) value (findRelevantBaseClasses cat rc)
        (r, e)).2 (some rc.qualifiedName)) hB.1
  rw [pullRecord_eq]
  refine ⟨hF.1, ?_, ?_, ?_⟩
  · intro p hp hag
    exact hF.2.1 p hp (hB.2.1 p hp hag)
  · intro p hp hrel
    have hmem := CXXRecordDecl.mem_layout rc.record p hp
    by_cases hself : p.1 = rc.record
    · have hf : p.2 ∈ rc.record.fields := by rw [← hself]; exact hmem.1
      rw [hself]
      exact hF.2.2.1 p.2 hf
    · rcases hrel with h | ⟨b, hb, hbp⟩
      · exact absurd h hself
      · have hbase : rc.record.hasBase b.record = true := by
          rcases hmem.2 with h | h
          · exact absurd h hself
          · rw [hbp]; exact h
        have hb2 : b ∈ findRelevantBaseClasses cat rc :=
          (mem_findRelevantBaseClasses cat rc b).mpr ⟨hb, hbase⟩
        have h3 := hB.2.2.1 b hb2 p.2 (by rw [hbp]; exact hmem.1)
        rw [hbp] at h3
        exact hF.2.1 p (hsubL p hp) h3
  · simp only [setCurrentRecord_errors]
    rw [hF.2.2.2, setCurrentRecord_errors, hB.2.2.2]

/-! ## Record round trip -/

/-- C1, amended: for a class whose data members (its own and those of its base classes, at any
depth) have pairwise distinct names and all belong to the class itself or to a class of the
catalogue, and for every object `d` of the class in which no text holds a NUL character, the
generated `pull` from the object the generated `push` creates for `d`, run on a
value-initialised destination, gives `d` back and leaves the error list as it was. -/
theorem record_round_trip_amended (cat : List RelevantClass) (rc : RelevantClass)
    (d : Reflectable) (errors : Option JsonDeserializationErrors)
    (hd : rc.record.hasInstance d = true)
    (hnames : (rc.record.layout.map (fun p => p.2.name)).Nodup)
    (hrel : ∀ p ∈ rc.record.layout, p.1 = rc.record ∨ ∃ b ∈ cat, b.record = p.1)
    (hnul : ∀ p ∈ rc.record.layout, p.2.type.nulFree (d.getField p.1 p.2) = true) :
    (pullRecord cat rc rc.record.default (pushRecord cat rc d []) errors).1 = d ∧
    (pullRecord cat rc rc.record.default (pushRecord cat rc d []) errors).2.map
        (fun e => e.errors) = errors.map (fun e => e.errors) := by
  have hty := Reflectable.hasType_getField_of_hasLayout d rc.record.layout hd hnames
  have hkd := Reflectable.map_key_of_hasLayout d rc.record.layout hd
  have hfind : ∀ p ∈ rc.record.layout,
      FindMember (pushRecord cat rc d []) p.2.name =
        some (p.2.type.encode (d.getField p.1 p.2)) :=
    fun p hp => FindMember_pushRecord cat d rc hnames p hp (hrel p hp)
  have h := pullRecord_encoded cat d rc.record.layout hnames hty hnul (pushRecord cat rc d [])
    hfind
    rc (fun _ hp => hp) rc.record.default errors (CXXRecordDecl.map_key_default rc.record)
  refine ⟨?_, h.2.2.2⟩
  exact Reflectable.ext_of_getField rc.record.layout _ d h.1 hkd hnames
    (fun p hp => h.2.2.1 p hp (hrel p hp))

theorem record_round_trip_amended_witness :
    (Example.Derived.hasInstance Example.derived = true ∧
      (Example.Derived.layout.map (fun p => p.2.name)).Nodup ∧
      (∀ p ∈ Example.Derived.layout,
        p.1 = Example.Derived ∨ ∃ b ∈ Example.catalogue, b.record = p.1) ∧
      ∀ p ∈ Example.Derived.layout,
        p.2.type.nulFree (Example.derived.getField p.1 p.2) = true) ∧
    pushRecord Example.catalogue { qualifiedName := "Derived", record := Example.Derived }
        Example.derived [] = [("a", .int 1), ("b", .string "x")] ∧
    (pullRecord Example.catalogue { qualifiedName := "Derived", record := Example.Derived }
        Example.Derived.default
        (pushRecord Example.catalogue { qualifiedName := "Derived", record := Example.Derived }
          Example.derived []) (some Example.noErrors)).1 = Example.derived ∧
    (pullRecord Example.catalogue { qualifiedName := "Derived", record := Example.Derived }
        Example.Derived.default
        (pushRecord Example.catalogue { qualifiedName := "Derived", record := Example.Derived }
          Example.derived []) (some Example.noErrors)).2.map (fun e => e.errors) = some [] :=
  ⟨⟨by decide, by decide, by decide, by decide⟩, by decide,
    record_round_trip_amended Example.catalogue
      { qualifiedName := "Derived", record := Example.Derived }
      Example.derived (some Example.noErrors) (by decide) (by decide) (by decide) (by decide)⟩

/-! ## The errors a `pull` appends -/

theorem JsonDeserializationErrors.appended_nil (e : JsonDeserializationErrors) :
    e.appended [] e.currentIndex = e := by
  cases e; simp [JsonDeserializationErrors.appended]

theorem JsonDeserializationErrors.appended_appended (e : JsonDeserializationErrors)
    (a b : List JsonDeserializationError) (i j : Option Nat) :
    (e.appended a i).appended b j = e.appended (a ++ b) j := by
  simp [JsonDeserializationErrors.appended]

theorem JsonDeserializationErrors.reportTypeMismatch_eq (e : JsonDeserializationErrors)
    (t : JsonType) :
    e.reportTypeMismatch t =
      e.appended [{ kind := .TypeMismatch, actualType := t, record := e.currentRecord,
                    member := e.currentMember, index := e.currentIndex }] e.currentIndex := by
  cases e; rfl

theorem pullArrayLoop_errors (pullItem : Pull Val) (fresh : Val) (items : List Value)
    (h : ∀ item ∈ items, ∀ (e : JsonDeserializationErrors), ∃ app idx,
      (pullItem fresh item (some e)).2 = some (e.appended app idx) ∧
      ∀ x ∈ app, x.kind = .TypeMismatch ∧ x.record = e.currentRecord ∧
        x.member = e.currentMember) :
    ∀ (index : Nat) (acc : List Val) (e : JsonDeserializationErrors), ∃ app idx,
      (pullArrayLoop pullItem fresh items index acc (some e)).2 = some (e.appended app idx) ∧
      ∀ x ∈ app, x.kind = .TypeMismatch ∧ x.record = e.currentRecord ∧
        x.member = e.currentMember := by
  induction items with
  | nil =>
    intro index acc e
    exact ⟨[], e.currentIndex, by simp [pullArrayLoop, e.appended_nil], by simp⟩
  | cons item rest ih =>
    intro index acc e
    obtain ⟨a1, i1, h1, hx1⟩ := h item (List.mem_cons_self _ _)
      { e with currentIndex := some index }
    obtain ⟨a2, i2, h2, hx2⟩ := ih (fun x hx => h x (List.mem_cons_of_mem _ hx)) (index + 1)
      (acc ++ [(pullItem fresh item (some { e with currentIndex := some index })).1])
      (({ e with currentIndex := some index } : JsonDeserializationErrors).appended a1 i1)
    refine ⟨a1 ++ a2, i2, ?_, ?_⟩
    · simp only [pullArrayLoop, setCurrentIndex, Option.map_some']
      rw [h1, h2]
      simp [JsonDeserializationErrors.appended]
    · intro x hx
      simp only [List.mem_append] at hx
      rcases hx with hx | hx
      · exact hx1 x hx
      · exact hx2 x hx

theorem pull_errors (ty : Ty) :
    ∀ (reflectable : Val) (value : Value) (e : JsonDeserializationErrors), ∃ app idx,
      (pull ty reflectable value (some e)).2 = some (e.appended app idx) ∧
      ∀ x ∈ app, x.kind = .TypeMismatch ∧ x.record = e.currentRecord ∧
        x.member = e.currentMember := by
  induction ty with
  | scalar t =>
    intro r v e
    by_cases h : v.Is t = true
    · exact ⟨[], e.currentIndex, by simp [pull, pullScalar, h, e.appended_nil], by simp⟩
    · refine ⟨[{ kind := .TypeMismatch, actualType := v.GetType, record := e.currentRecord,
                 member := e.currentMember, index := e.currentIndex }], e.currentIndex, ?_, ?_⟩
      · simp [pull, pullScalar, h, reportTypeMismatch,
          JsonDeserializationErrors.reportTypeMismatch_eq]
      · simp
  | string =>
    intro r v e
    by_cases h : v.IsString = true
    · exact ⟨[], e.currentIndex, by simp [pull, pullString, h, e.appended_nil], by simp⟩
    · refine ⟨[{ kind := .TypeMismatch, actualType := v.GetType, record := e.currentRecord,
                 member := e.currentMember, index := e.currentIndex }], e.currentIndex, ?_, ?_⟩
      · simp [pull, pullString, h, reportTypeMismatch,
          JsonDeserializationErrors.reportTypeMismatch_eq]
      · simp
  | seq traits elem ih =>
    intro r v e
    by_cases h : v.IsArray = true
    · obtain ⟨app, idx, hl, hx⟩ := pullArrayLoop_errors (pull elem) elem.default v.GetArray
        (fun item _ e2 => ih elem.default item e2) 0 [] e
      refine ⟨app, none, ?_, hx⟩
      cases hr : traits.isReservable <;>
        simp [pull, hr, pullReservable, pullIteratable, h, pullArray, hl, setCurrentIndex,
          JsonDeserializationErrors.appended]
    · refine ⟨[{ kind := .TypeMismatch, actualType := v.GetType, record := e.currentRecord,
                 member := e.currentMember, index := e.currentIndex }], e.currentIndex, ?_, ?_⟩
      · cases hr : traits.isReservable <;>
          simp [pull, hr, pullReservable, pullIteratable, h, reportTypeMismatch,
            JsonDeserializationErrors.reportTypeMismatch_eq]
      · simp

theorem pullMember_errors (ty : Ty) (reflectable : Val) (name : String) (value : Object)
    (e : JsonDeserializationErrors) : ∃ app idx,
      (pullMember (pull ty) reflectable name value (some e)).2 = some (e.appended app idx) ∧
      ∀ x ∈ app, x.kind = .TypeMismatch ∧ x.record = e.currentRecord ∧
        x.member = some name := by
  cases hf : FindMember value name with
  | none => exact ⟨[], e.currentIndex, by simp [pullMember, hf, e.appended_nil], by simp⟩
  | some member =>
    obtain ⟨app, idx, h, hx⟩ := pull_errors ty reflectable member
      { e with currentMember := some name }
    refine ⟨app, idx, ?_, hx⟩
    simp only [pullMember, hf, h, setCurrentMember, Option.map_some']
    simp [JsonDeserializationErrors.appended]

/-! ## Transitivity of derivation -/

mutual
theorem CXXRecordDecl.hasBase_trans :
    ∀ (a b c : CXXRecordDecl), a.hasBase b = true → b.hasBase c = true → a.hasBase c = true
  | .mk _ _ bases _, b, c, hab, hbc => by
    simp only [CXXRecordDecl.hasBase] at hab ⊢
    exact CXXRecordDecl.hasBaseIn_trans bases b c hab hbc
theorem CXXRecordDecl.hasBaseIn_trans :
    ∀ (bases : List CXXRecordDecl) (b c : CXXRecordDecl),
      CXXRecordDecl.hasBaseIn bases b = true → b.hasBase c = true →
      CXXRecordDecl.hasBaseIn bases c = true
  | [], _, _, hab, _ => by simp [CXXRecordDecl.hasBaseIn] at hab
  | x :: xs, b, c, hab, hbc => by
    simp only [CXXRecordDecl.hasBaseIn, Bool.or_eq_true, decide_eq_true_eq] at hab ⊢
    rcases hab with (h | h) | h
    · subst h; exact Or.inl (Or.inr hbc)
    · exact Or.inl (Or.inr (CXXRecordDecl.hasBase_trans x b c h hbc))
    · exact Or.inr (CXXRecordDecl.hasBaseIn_trans xs b c h hbc)
end

theorem CXXRecordDecl.not_hasBase_of_hasBase (a b : CXXRecordDecl)
    (h : a.hasBase b = true) : b.hasBase a = false := by
  cases hba : b.hasBase a
  · rfl
  · have := CXXRecordDecl.hasBase_trans a b a h hba
    rw [CXXRecordDecl.hasBase_irrefl] at this
    exact absurd this (by simp)

theorem CXXRecordDecl.ne_of_hasBase (a b : CXXRecordDecl) (h : a.hasBase b = true) : a ≠ b := by
  intro hab
  rw [hab, CXXRecordDecl.hasBase_irrefl] at h
  exact absurd h (by simp)

/-! ## The slots a generated `pull` leaves alone -/

theorem pullField_fst (self : CXXRecordDecl) (value : Object) (f : FieldDecl)
    (s : Reflectable × Option JsonDeserializationErrors) :
    (pullField self value f s).1 =
      s.1.setField self f
        (pullMember (pull f.type) (s.1.getField self f) f.name value s.2).1 := rfl

theorem pullFields_map_key (self : CXXRecordDecl) (value : Object) (fields : List FieldDecl) :
    ∀ (s : Reflectable × Option JsonDeserializationErrors),
      (pullFields self value fields s).1.map (fun x => (x.owner, x.name)) =
        s.1.map (fun x => (x.owner, x.name)) := by
  induction fields with
  | nil => intro s; rfl
  | cons f fs ih =>
    intro s
    simp only [pullFields, List.foldl_cons] at ih ⊢
    rw [ih, pullField_fst, Reflectable.map_key_setField]

theorem pullFields_getField_other (self : CXXRecordDecl) (value : Object)
    (fields : List FieldDecl) (owner : CXXRecordDecl) (field : FieldDecl)
    (h : ∀ g ∈ fields, ¬(self = owner ∧ g.name = field.name)) :
    ∀ (s : Reflectable × Option JsonDeserializationErrors),
      (pullFields self value fields s).1.getField owner field = s.1.getField owner field := by
  induction fields with
  | nil => intro s; rfl
  | cons f fs ih =>
    intro s
    have hrest := ih (fun g hg => h g (List.mem_cons_of_mem _ hg)) (pullField self value f s)
    simp only [pullFields, List.foldl_cons] at hrest ⊢
    rw [hrest, pullField_fst,
      Reflectable.getField_setField_of_ne _ _ _ _ _ _ (h f (List.mem_cons_self _ _))]

theorem pullFields_getField_own (self : CXXRecordDecl) (value : Object)
    (fields : List FieldDecl) (hn : (fields.map (fun f => f.name)).Nodup) (g : FieldDecl)
    (hg : g ∈ fields) :
    ∀ (s : Reflectable × Option JsonDeserializationErrors),
      (self, g.name) ∈ s.1.map (fun x => (x.owner, x.name)) →
      ∃ errs, (pullFields self value fields s).1.getField self g =
        (pullMember (pull g.type) (s.1.getField self g) g.name value errs).1 := by
  induction fields with
  | nil => simp at hg
  | cons f fs ih =>
    intro s hk
    simp only [List.map_cons, List.nodup_cons, List.mem_map, not_exists, not_and] at hn
    simp only [List.mem_cons] at hg
    simp only [pullFields, List.foldl_cons]
    rcases hg with rfl | hg
    · refine ⟨s.2, ?_⟩
      have hother := pullFields_getField_other self value fs self g
        (fun x hx hc => hn.1 x hx hc.2) (pullField self value g s)
      simp only [pullFields] at hother
      rw [hother, pullField_fst]
      exact Reflectable.getField_setField_self _ _ _ _ hk
    · have hne : ¬(self = self ∧ f.name = g.name) := fun hc => hn.1 g hg hc.2.symm
      have hk1 : (self, g.name) ∈ (pullField self value f s).1.map
          (fun x => (x.owner, x.name)) := by
        rw [pullField_fst, Reflectable.map_key_setField]; exact hk
      obtain ⟨errs, he⟩ := ih hn.2 hg (pullField self value f s) hk1
      refine ⟨errs, ?_⟩
      simp only [pullFields] at he
      rw [he, pullField_fst, Reflectable.getField_setField_of_ne _ _ _ _ _ _ hne]

theorem pullBases_map_key (cb : RelevantClass → PullObject Reflectable) (value : Object)
    (bases : List RelevantClass)
    (h : ∀ b ∈ bases, ∀ r e, (cb b r value e).1.map (fun x => (x.owner, x.name)) =
      r.map (fun x => (x.owner, x.name))) :
    ∀ (s : Reflectable × Option JsonDeserializationErrors),
      (pullBases cb value bases s).1.map (fun x => (x.owner, x.name)) =
        s.1.map (fun x => (x.owner, x.name)) := by
  induction bases with
  | nil => intro s; rfl
  | cons b bs ih =>
    intro s
    have hrest := ih (fun x hx => h x (List.mem_cons_of_mem _ hx)) (cb b s.1 value s.2)
    simp only [pullBases, List.foldl_cons] at hrest ⊢
    rw [hrest, h b (List.mem_cons_self _ _)]

theorem pullRecord_map_key (cat : List RelevantClass) (value : Object) (rc : RelevantClass) :
    ∀ (r : Reflectable) (e : Option JsonDeserializationErrors),
      (pullRecord cat rc r value e).1.map (fun x => (x.owner, x.name)) =
        r.map (fun x => (x.owner, x.name)) := by
  refine relevantClass_induction cat (fun rc =>
    ∀ (r : Reflectable) (e : Option JsonDeserializationErrors),
      (pullRecord cat rc r value e).1.map (fun x => (x.owner, x.name)) =
        r.map (fun x => (x.owner, x.name))) ?_ rc
  intro rc ih r e
  rw [pullRecord_eq]
  simp only [pullFields_map_key]
  exact pullBases_map_key _ _ _ ih (r, e)

theorem pullBases_getField_other (cb : RelevantClass → PullObject Reflectable) (value : Object)
    (bases : List RelevantClass) (owner : CXXRecordDecl) (field : FieldDecl)
    (h : ∀ b ∈ bases, ∀ r e, (cb b r value e).1.getField owner field = r.getField owner field) :
    ∀ (s : Reflectable × Option JsonDeserializationErrors),
      (pullBases cb value bases s).1.getField owner field = s.1.getField owner field := by
  induction bases with
  | nil => intro s; rfl
  | cons b bs ih =>
    intro s
    have hrest := ih (fun x hx => h x (List.mem_cons_of_mem _ hx)) (cb b s.1 value s.2)
    simp only [pullBases, List.foldl_cons] at hrest ⊢
    rw [hrest, h b (List.mem_cons_self _ _)]

/-- A generated `pull` only assigns data members of its class and of the base classes. -/
theorem pullRecord_getField_other (cat : List RelevantClass) (value : Object)
    (owner : CXXRecordDecl) (field : FieldDecl) (rc : RelevantClass) :
    owner ≠ rc.record → rc.record.hasBase owner = false →
    ∀ (r : Reflectable) (e : Option JsonDeserializationErrors),
      (pullRecord cat rc r value e).1.getField owner field = r.getField owner field := by
  refine relevantClass_induction cat (fun rc =>
    owner ≠ rc.record → rc.record.hasBase owner = false →
    ∀ (r : Reflectable) (e : Option JsonDeserializationErrors),
      (pullRecord cat rc r value e).1.getField owner field = r.getField owner field) ?_ rc
  intro rc ih hne hnb r e
  rw [pullRecord_eq]
  simp only
  rw [pullFields_getField_other rc.record value rc.record.fields owner field
    (fun g _ hc => hne hc.1.symm)]
  apply pullBases_getField_other
  intro b hb r2 e2
  have hbase := ((mem_findRelevantBaseClasses cat rc b).mp hb).2
  apply ih b hb
  · intro ho
    rw [ho, hbase] at hnb
    exact absurd hnb (by simp)
  · cases hbo : b.record.hasBase owner
    · rfl
    · rw [CXXRecordDecl.hasBase_trans _ _ _ hbase hbo] at hnb
      exact absurd hnb (by simp)

/-! ## The errors a generated `pull` appends -/

theorem pullField_errors (self : CXXRecordDecl) (value : Object) (f : FieldDecl)
    (r : Reflectable) (e : JsonDeserializationErrors) : ∃ app idx,
      (pullField self value f (r, some e)).2 = some (e.appended app idx) ∧
      ∀ x ∈ app, x.kind = .TypeMismatch ∧ x.record = e.currentRecord ∧
        x.member = some f.name :=
  pullMember_errors f.type (r.getField self f) f.name value e

theorem pullFields_errors (self : CXXRecordDecl) (value : Object) (fields : List FieldDecl) :
    ∀ (r : Reflectable) (e : JsonDeserializationErrors), ∃ app idx,
      (pullFields self value fields (r, some e)).2 = some (e.appended app idx) ∧
      ∀ x ∈ app, x.kind = .TypeMismatch ∧ x.record = e.currentRecord ∧
        ∃ g ∈ fields, x.member = some g.name := by
  induction fields with
  | nil =>
    intro r e
    exact ⟨[], e.currentIndex, by simp [pullFields, e.appended_nil], by simp⟩
  | cons f fs ih =>
    intro r e
    obtain ⟨a1, i1, h1, hx1⟩ := pullField_errors self value f r e
    obtain ⟨a2, i2, h2, hx2⟩ := ih (pullField self value f (r, some e)).1 (e.appended a1 i1)
    refine ⟨a1 ++ a2, i2, ?_, ?_⟩
    · simp only [pullFields, List.foldl_cons] at h2 ⊢
      have hs : pullField self value f (r, some e) =
          ((pullField self value f (r, some e)).1, some (e.appended a1 i1)) := by
        rw [← h1]
      rw [hs, h2, JsonDeserializationErrors.appended_appended]
    · intro x hx
      simp only [List.mem_append] at hx
      rcases hx with hx | hx
      · exact ⟨(hx1 x hx).1, (hx1 x hx).2.1, f, List.mem_cons_self _ _, (hx1 x hx).2.2⟩
      · obtain ⟨hk, hr, g, hg, hm⟩ := hx2 x hx
        exact ⟨hk, hr, g, List.mem_cons_of_mem _ hg, hm⟩

/-- The error a scalar member of another kind leaves: exactly one among those of the member
pulls of the class. -/
theorem pullFields_errors_of_mismatch (self : CXXRecordDecl) (value : Object)
    (fields : List FieldDecl) (hn : (fields.map (fun f => f.name)).Nodup) (f : FieldDecl)
    (hf : f ∈ fields) (t : ScalarType) (hft : f.type = .scalar t) (v : Value)
    (hfind : FindMember value f.name = some v) (hv : v.Is t = false) :
    ∀ (r : Reflectable) (e : JsonDeserializationErrors), ∃ app idx i,
      (pullFields self value fields (r, some e)).2 = some (e.appended app idx) ∧
      (∀ x ∈ app, x.kind = .TypeMismatch ∧ x.record = e.currentRecord) ∧
      app.filter (fun x => decide (x.member = some f.name)) =
        [{ kind := .TypeMismatch, actualType := v.GetType, record := e.currentRecord,
           member := some f.name, index := i }] := by
  induction fields with
  | nil => simp at hf
  | cons g gs ih =>
    intro r e
    simp only [List.map_cons, List.nodup_cons, List.mem_map, not_exists, not_and] at hn
    simp only [List.mem_cons] at hf
    rcases hf with rfl | hf
    · -- the member pull of `f` itself
      have h1 : (pullField self value f (r, some e)).2 =
          some (e.appended
            [{ kind := .TypeMismatch, actualType := v.GetType, record := e.currentRecord,
               member := some f.name, index := e.currentIndex }]
            e.currentIndex) := by
        simp [pullField, pullMember, hfind, hft, pull, pullScalar, hv, reportTypeMismatch,
          JsonDeserializationErrors.reportTypeMismatch, setCurrentMember,
          JsonDeserializationErrors.appended]
      obtain ⟨a2, i2, h2, hx2⟩ := pullFields_errors self value gs
        (pullField self value f (r, some e)).1
        (e.appended
          [{ kind := .TypeMismatch, actualType := v.GetType, record := e.currentRecord,
             member := some f.name, index := e.currentIndex }]
          e.currentIndex)
      refine ⟨[{ kind := .TypeMismatch, actualType := v.GetType, record := e.currentRecord,
                 member := some f.name, index := e.currentIndex }] ++ a2, i2, e.currentIndex,
        ?_, ?_, ?_⟩
      · simp only [pullFields, List.foldl_cons] at h2 ⊢
        have hs : pullField self value f (r, some e) =
            ((pullField self value f (r, some e)).1, some (e.appended
              [{ kind := .TypeMismatch, actualType := v.GetType,
                 record := e.currentRecord, member := some f.name, index := e.currentIndex }]
              e.currentIndex)) := by
          rw [← h1]
        rw [hs, h2, JsonDeserializationErrors.appended_appended]
      · intro x hx
        simp only [List.mem_append, List.mem_singleton] at hx
        rcases hx with rfl | hx
        · exact ⟨rfl, rfl⟩
        · exact ⟨(hx2 x hx).1, (hx2 x hx).2.1⟩
      · have hnone : a2.filter (fun x => decide (x.member = some f.name)) = [] := by
          rw [List.filter_eq_nil_iff]
          intro x hx
          obtain ⟨_, _, g, hg, hm⟩ := hx2 x hx
          simp only [decide_eq_true_eq, hm, Option.some.injEq]
          exact fun hc => hn.1 g hg hc
        simp [List.filter_append, hnone]
    · -- a member pull before that of `f`
      obtain ⟨a1, i1, h1, hx1⟩ := pullField_errors self value g r e
      obtain ⟨a2, i2, i, h2, hx2, hfilter⟩ := ih hn.2 hf
        (pullField self value g (r, some e)).1 (e.appended a1 i1)
      refine ⟨a1 ++ a2, i2, i, ?_, ?_, ?_⟩
      · simp only [pullFields, List.foldl_cons] at h2 ⊢
        have hs : pullField self value g (r, some e) =
            ((pullField self value g (r, some e)).1, some (e.appended a1 i1)) := by
          rw [← h1]
        rw [hs, h2, JsonDeserializationErrors.appended_appended]
      · intro x hx
        simp only [List.mem_append] at hx
        rcases hx with hx | hx
        · exact ⟨(hx1 x hx).1, (hx1 x hx).2.1⟩
        · exact hx2 x hx
      · have hnone : a1.filter (fun x => decide (x.member = some f.name)) = [] := by
          rw [List.filter_eq_nil_iff]
          intro x hx
          simp only [decide_eq_true_eq, (hx1 x hx).2.2, Option.some.injEq]
          exact fun hc => hn.1 f hf hc.symm
        rw [List.filter_append, hnone, List.nil_append, hfilter]
        rfl

theorem pullBases_errors (cb : RelevantClass → PullObject Reflectable) (value : Object)
    (Q : RelevantClass → JsonDeserializationError → Prop) (bases : List RelevantClass)
    (h : ∀ b ∈ bases, ∀ (r : Reflectable) (e : JsonDeserializationErrors), ∃ app idx,
      (cb b r value (some e)).2 = some (e.appended app idx) ∧ ∀ x ∈ app, Q b x) :
    ∀ (r : Reflectable) (e : JsonDeserializationErrors), ∃ app idx,
      (pullBases cb value bases (r, some e)).2 = some (e.appended app idx) ∧
      ∀ x ∈ app, ∃ b ∈ bases, Q b x := by
  induction bases with
  | nil =>
    intro r e
    exact ⟨[], e.currentIndex, by simp [pullBases, e.appended_nil], by simp⟩
  | cons b bs ih =>
    intro r e
    obtain ⟨a1, i1, h1, hx1⟩ := h b (List.mem_cons_self _ _) r e
    obtain ⟨a2, i2, h2, hx2⟩ := ih (fun x hx => h x (List.mem_cons_of_mem _ hx))
      (cb b r value (some e)).1 (e.appended a1 i1)
    refine ⟨a1 ++ a2, i2, ?_, ?_⟩
    · simp only [pullBases, List.foldl_cons] at h2 ⊢
      have hs : cb b r value (some e) = ((cb b r value (some e)).1, some (e.appended a1 i1)) := by
        rw [← h1]
      rw [hs, h2, JsonDeserializationErrors.appended_appended]
    · intro x hx
      simp only [List.mem_append] at hx
      rcases hx with hx | hx
      · exact ⟨b, List.mem_cons_self _ _, hx1 x hx⟩
      · obtain ⟨b2, hb2, hq⟩ := hx2 x hx
        exact ⟨b2, List.mem_cons_of_mem _ hb2, hq⟩

/-- With an error context, a generated `pull` returns the context with `TypeMismatch` errors
appended, each carrying the qualified name of the class or of one of its relevant base
classes as record; the current record and member are as before. -/
theorem pullRecord_errors (cat : List RelevantClass) (value : Object) (rc : RelevantClass) :
    ∀ (r : Reflectable) (e : JsonDeserializationErrors), ∃ app idx,
      (pullRecord cat rc r value (some e)).2 = some (e.appended app idx) ∧
      ∀ x ∈ app, x.kind = .TypeMismatch ∧
        (x.record = some rc.qualifiedName ∨
          ∃ b ∈ cat, rc.record.hasBase b.record = true ∧ x.record = some b.qualifiedName) := by
  refine relevantClass_induction cat (fun rc =>
    ∀ (r : Reflectable) (e : JsonDeserializationErrors), ∃ app idx,
      (pullRecord cat rc r value (some e)).2 = some (e.appended app idx) ∧
      ∀ x ∈ app, x.kind = .TypeMismatch ∧
        (x.record = some rc.qualifiedName ∨
          ∃ b ∈ cat, rc.record.hasBase b.record = true ∧ x.record = some b.qualifiedName))
    ?_ rc
  intro rc ih r e
  obtain ⟨aB, iB, hB, hxB⟩ := pullBases_errors (pullRecord cat) value
    (fun b x => x.kind = .TypeMismatch ∧
        (x.record = some b.qualifiedName ∨
          ∃ b2 ∈ cat, b.record.hasBase b2.record = true ∧ x.record = some b2.qualifiedName))
    (findRelevantBaseClasses cat rc) ih r e
  obtain ⟨aF, iF, hF, hxF⟩ := pullFields_errors rc.record value rc.record.fields
    (pullBases (pullRecord cat) value (findRelevantBaseClasses cat rc) (r, some e)).1
    { e.appended aB iB with currentRecord := some rc.qualifiedName }
  refine ⟨aB ++ aF, iF, ?_, ?_⟩
  · rw [pullRecord_eq]
    simp only [hB, setCurrentRecord, Option.map_some', hF, savedRecord, Option.some_bind]
    simp [JsonDeserializationErrors.appended]
  · intro x hx
    simp only [List.mem_append] at hx
    rcases hx with hx | hx
    · obtain ⟨b, hb, hk, hrec⟩ := hxB x hx
      have hbm := (mem_findRelevantBaseClasses cat rc b).mp hb
      refine ⟨hk, Or.inr ?_⟩
      rcases hrec with hrec | ⟨b2, hb2, hbase2, hrec⟩
      · exact ⟨b, hbm.1, hbm.2, hrec⟩
      · exact ⟨b2, hb2, CXXRecordDecl.hasBase_trans _ _ _ hbm.2 hbase2, hrec⟩
    · exact ⟨(hxF x hx).1, Or.inl (hxF x hx).2.1⟩

/-! ## Error path -/

theorem pullMember_fst_of_mismatch (t : ScalarType) (prior : Val) (name : String)
    (value : Object) (v : Value) (errs : Option JsonDeserializationErrors)
    (hfind : FindMember value name = some v) (hv : v.Is t = false) :
    (pullMember (pull (.scalar t)) prior name value errs).1 = prior := by
  cases errs <;> simp [pullMember, hfind, pull, pullScalar, hv]

theorem pullMember_fst_of_accepts (ty : Ty) (prior : Val) (name : String) (value : Object)
    (w : Value) (errs : Option JsonDeserializationErrors)
    (hfind : FindMember value name = some w) (hw : ty.accepts w = true) :
    (pullMember (pull ty) prior name value errs).1 = ty.decode w := by
  cases errs with
  | none => simpa [pullMember, hfind] using (pull_accepts ty prior w none hw).1
  | some e => simpa [pullMember, hfind] using (pull_accepts ty prior w _ hw).1

theorem pullBases_pullRecord_getField_own (cat : List RelevantClass) (value : Object)
    (rc : RelevantClass) (field : FieldDecl)
    (s : Reflectable × Option JsonDeserializationErrors) :
    (pullBases (pullRecord cat) value (findRelevantBaseClasses cat rc) s).1.getField
      rc.record field = s.1.getField rc.record field := by
  apply pullBases_getField_other
  intro b hb r e
  have hbase := ((mem_findRelevantBaseClasses cat rc b).mp hb).2
  exact pullRecord_getField_other cat value rc.record field b
    (CXXRecordDecl.ne_of_hasBase _ _ hbase) (CXXRecordDecl.not_hasBase_of_hasBase _ _ hbase) r e

/-- The errors and the members after a mismatch: when a class has a data member `f` of a
boolean or integer type and the object holds a string under the name of `f`, the generated
`pull`, run with an error context, appends exactly one error with the qualified name of the
class as record and the name of `f` as member, a `TypeMismatch` that found a string; `f` keeps
the value it had, and every other data member of the class whose member is present with the
right kind is set to what `Ty.decode` gives for that member: its number or boolean, and of a
text the characters before the first NUL character.  The names of the data members of the
class are pairwise distinct and no relevant base class has the qualified name of the class. -/
theorem error_path (cat : List RelevantClass) (rc : RelevantClass) (f : FieldDecl)
    (t : ScalarType) (s : String) (r : Reflectable) (value : Object)
    (e : JsonDeserializationErrors)
    (hf : f ∈ rc.record.fields) (hft : f.type = .scalar t)
    (hfind : FindMember value f.name = some (.string s))
    (hn : (rc.record.fields.map (fun g => g.name)).Nodup)
    (hqn : ∀ b ∈ cat, rc.record.hasBase b.record = true → b.qualifiedName ≠ rc.qualifiedName)
    (hr : rc.record.hasInstance r = true) :
    ∃ appended idx i,
      (pullRecord cat rc r value (some e)).2 = some (e.appended appended idx) ∧
      appended.filter
          (fun x => decide (x.record = some rc.qualifiedName ∧ x.member = some f.name)) =
        [{ kind := .TypeMismatch, actualType := .kStringType, record := some rc.qualifiedName,
           member := some f.name, index := i }] ∧
      (pullRecord cat rc r value (some e)).1.getField rc.record f = r.getField rc.record f ∧
      ∀ g ∈ rc.record.fields, g ≠ f → ∀ w, FindMember value g.name = some w →
        g.type.accepts w = true →
        (pullRecord cat rc r value (some e)).1.getField rc.record g = g.type.decode w := by
  have hv : (Value.string s).Is t = false := by cases t <;> rfl
  -- the errors of the base class calls carry other record names
  obtain ⟨aB, iB, hB, hxB⟩ := pullBases_errors (pullRecord cat) value
    (fun _ x => x.record ≠ some rc.qualifiedName) (findRelevantBaseClasses cat rc)
    (fun b hb r2 e2 => by
      have hbm := (mem_findRelevantBaseClasses cat rc b).mp hb
      obtain ⟨app, idx, h, hx⟩ := pullRecord_errors cat value b r2 e2
      refine ⟨app, idx, h, ?_⟩
      intro x hxm
      rcases (hx x hxm).2 with hrec | ⟨b2, hb2, hbase2, hrec⟩
      · rw [hrec]
        exact fun hc => hqn b hbm.1 hbm.2 (Option.some.inj hc)
      · rw [hrec]
        exact fun hc => hqn b2 hb2 (CXXRecordDecl.hasBase_trans _ _ _ hbm.2 hbase2)
          (Option.some.inj hc))
    r e
  -- the errors of the member pulls
  obtain ⟨aF, iF, i, hF, hxF, hfilter⟩ := pullFields_errors_of_mismatch rc.record value
    rc.record.fields hn f hf t hft (.string s) hfind hv
    (pullBases (pullRecord cat) value (findRelevantBaseClasses cat rc) (r, some e)).1
    { e.appended aB iB with currentRecord := some rc.qualifiedName }
  -- the slots of the class are present when its members are pulled
  have hkeys : ∀ g ∈ rc.record.fields, (rc.record, g.name) ∈
      (pullBases (pullRecord cat) value (findRelevantBaseClasses cat rc) (r, some e)).1.map
        (fun x => (x.owner, x.name)) := by
    intro g hg
    rw [pullBases_map_key _ _ _ (fun b _ r2 e2 => pullRecord_map_key cat value b r2 e2),
      Reflectable.map_key_of_hasLayout r rc.record.layout hr]
    exact List.mem_map.mpr ⟨(rc.record, g), CXXRecordDecl.own_mem_layout _ g hg, rfl⟩
  refine ⟨aB ++ aF, iF, i, ?_, ?_, ?_, ?_⟩
  · rw [pullRecord_eq]
    simp only [hB, setCurrentRecord, Option.map_some', hF, savedRecord, Option.some_bind]
    simp [JsonDeserializationErrors.appended]
  · have hnone : aB.filter
        (fun x => decide (x.record = some rc.qualifiedName ∧ x.member = some f.name)) = [] := by
      rw [List.filter_eq_nil_iff]
      intro x hx
      obtain ⟨_, _, hne⟩ := hxB x hx
      simp [hne]
    have hsame : aF.filter
        (fun x => decide (x.record = some rc.qualifiedName ∧ x.member = some f.name)) =
        aF.filter (fun x => decide (x.member = some f.name)) := by
      apply List.filter_congr
      intro x hx
      have := (hxF x hx).2
      simp only at this
      simp [this]
    rw [List.filter_append, hnone, List.nil_append, hsame, hfilter]
    rfl
  · rw [pullRecord_eq]
    obtain ⟨errs, he⟩ := pullFields_getField_own rc.record value rc.record.fields hn f hf
      ((pullBases (pullRecord cat) value (findRelevantBaseClasses cat rc) (r, some e)).1,
        setCurrentRecord (pullBases (pullRecord cat) value (findRelevantBaseClasses cat rc)
          (r, some e)).2 (some rc.qualifiedName)) (hkeys f hf)
    simp only at he ⊢
    rw [he, hft, pullMember_fst_of_mismatch t _ f.name value _ errs hfind hv,
      pullBases_pullRecord_getField_own]
  · intro g hg _ w hgw hacc
    rw [pullRecord_eq]
    obtain ⟨errs, he⟩ := pullFields_getField_own rc.record value rc.record.fields hn g hg
      ((pullBases (pullRecord cat) value (findRelevantBaseClasses cat rc) (r, some e)).1,
        setCurrentRecord (pullBases (pullRecord cat) value (findRelevantBaseClasses cat rc)
          (r, some e)).2 (some rc.qualifiedName)) (hkeys g hg)
    simp only at he ⊢
    rw [he, pullMember_fst_of_accepts g.type _ g.name value w errs hgw hacc]

theorem error_path_witness :
    ({ name := "x", type := .scalar .int } ∈ Example.Triple.fields ∧
      FindMember [("x", .string "not-a-number"), ("y", .string "hello")] "x" =
        some (.string "not-a-number") ∧
      (Example.Triple.fields.map (fun g => g.name)).Nodup ∧
      (∀ b ∈ [({ qualifiedName := "Triple", record := Example.Triple } : RelevantClass)],
        Example.Triple.hasBase b.record = true → b.qualifiedName ≠ "Triple") ∧
      Example.Triple.hasInstance Example.triple = true) ∧
    (∃ appended idx i,
      (pullRecord [{ qualifiedName := "Triple", record := Example.Triple }]
          { qualifiedName := "Triple", record := Example.Triple } Example.triple
          [("x", .string "not-a-number"), ("y", .string "hello")] (some Example.noErrors)).2 =
        some (Example.noErrors.appended appended idx) ∧
      appended.filter (fun x => decide (x.record = some "Triple" ∧ x.member = some "x")) =
        [{ kind := .TypeMismatch, actualType := .kStringType, record := some "Triple",
           member := some "x", index := i }] ∧
      (pullRecord [{ qualifiedName := "Triple", record := Example.Triple }]
          { qualifiedName := "Triple", record := Example.Triple } Example.triple
          [("x", .string "not-a-number"), ("y", .string "hello")]
          (some Example.noErrors)).1.getField Example.Triple
          { name := "x", type := .scalar .int } =
        Example.triple.getField Example.Triple { name := "x", type := .scalar .int } ∧
      ∀ g ∈ Example.Triple.fields, g ≠ { name := "x", type := .scalar .int } →
        ∀ w, FindMember [("x", .string "not-a-number"), ("y", .string "hello")] g.name =
          some w → g.type.accepts w = true →
        (pullRecord [{ qualifiedName := "Triple", record := Example.Triple }]
          { qualifiedName := "Triple", record := Example.Triple } Example.triple
          [("x", .string "not-a-number"), ("y", .string "hello")]
          (some Example.noErrors)).1.getField Example.Triple g = g.type.decode w) ∧
    pullRecord [{ qualifiedName := "Triple", record := Example.Triple }]
        { qualifiedName := "Triple", record := Example.Triple } Example.triple
        [("x", .string "not-a-number"), ("y", .string "hello")] (some Example.noErrors) =
      ([{ owner := Example.Triple, name := "x", value := .int 5 },
        { owner := Example.Triple, name := "y", value := .string "hello" },
        { owner := Example.Triple, name := "z", value := .seq [.int 9, .int 9, .int 9, .int 9] }],
       some { errors := [{ kind := .TypeMismatch, actualType := .kStringType,
                           record := some "Triple", member := some "x", index := none }],
              currentRecord := none, currentMember := none, currentIndex := none }) :=
  ⟨⟨by decide, by decide, by decide, by decide, by decide⟩,
    error_path [{ qualifiedName := "Triple", record := Example.Triple }]
      { qualifiedName := "Triple", record := Example.Triple }
      { name := "x", type := .scalar .int } .int "not-a-number" Example.triple
      [("x", .string "not-a-number"), ("y", .string "hello")] Example.noErrors
      (by decide) rfl (by decide) (by decide) (by decide) (by decide),
    by decide⟩

/-! ## Base chaining -/

/-- C3: for the chain `Base`, `Derived : Base`, `Leaf : Derived`, all three in the catalogue,
the relevant base classes of `Leaf` are `Base` and `Derived`, and the generated `push` of
`Leaf` into the empty object adds the data member `a` of `Base` twice: once through the call
for `Base` and once more through the call for `Derived`, which calls `Base` itself. -/
theorem base_chaining_pushes_indirect_base_twice :
    findRelevantBaseClasses Example.catalogue { qualifiedName := "Leaf", record := Example.Leaf } =
      [{ qualifiedName := "Base", record := Example.Base },
       { qualifiedName := "Derived", record := Example.Derived }] ∧
    generatePush Example.catalogue { qualifiedName := "Leaf", record := Example.Leaf } =
      [.pushBase { qualifiedName := "Base", record := Example.Base },
       .pushBase { qualifiedName := "Derived", record := Example.Derived },
       .pushField { name := "c", type := .scalar .bool }] ∧
    generatePush Example.catalogue { qualifiedName := "Derived", record := Example.Derived } =
      [.pushBase { qualifiedName := "Base", record := Example.Base },
       .pushField { name := "b", type := .string }] ∧
    pushRecord Example.catalogue { qualifiedName := "Leaf", record := Example.Leaf }
        Example.leaf [] =
      [("a", .int 1), ("a", .int 1), ("b", .string "x"), ("c", .bool true)] ∧
    ((pushRecord Example.catalogue { qualifiedName := "Leaf", record := Example.Leaf }
        Example.leaf []).filter (fun m => decide (m.1 = "a"))).length = 2 := by
  decide

/-! ## The destination does not depend on the error context -/

theorem pullArrayLoop_fst_indep (pullItem : Pull Val) (fresh : Val) (items : List Value)
    (h : ∀ item ∈ items, ∀ e1 e2, (pullItem fresh item e1).1 = (pullItem fresh item e2).1) :
    ∀ (index : Nat) (acc : List Val) (e1 e2 : Option JsonDeserializationErrors),
      (pullArrayLoop pullItem fresh items index acc e1).1 =
        (pullArrayLoop pullItem fresh items index acc e2).1 := by
  induction items with
  | nil => intro index acc e1 e2; rfl
  | cons item rest ih =>
    intro index acc e1 e2
    simp only [pullArrayLoop]
    rw [h item (List.mem_cons_self _ _) (setCurrentIndex e1 (some index))
      (setCurrentIndex e2 (some index))]
    exact ih (fun x hx => h x (List.mem_cons_of_mem _ hx)) _ _ _ _

theorem pull_fst_indep (ty : Ty) :
    ∀ (reflectable : Val) (value : Value) (e1 e2 : Option JsonDeserializationErrors),
      (pull ty reflectable value e1).1 = (pull ty reflectable value e2).1 := by
  induction ty with
  | scalar t =>
    intro r v e1 e2
    simp only [pull, pullScalar]
    split <;> rfl
  | string =>
    intro r v e1 e2
    simp only [pull, pullString]
    split <;> rfl
  | seq traits elem ih =>
    intro r v e1 e2
    have hl := pullArrayLoop_fst_indep (pull elem) elem.default v.GetArray
      (fun item _ a b => ih elem.default item a b) 0 [] e1 e2
    cases hr : traits.isReservable <;> cases ha : v.IsArray <;>
      simp [pull, hr, pullReservable, pullIteratable, ha, pullArray, hl]

theorem pullMember_fst_indep {α : Type} (pullValue : Pull α)
    (h : ∀ r v e1 e2, (pullValue r v e1).1 = (pullValue r v e2).1) (reflectable : α)
    (name : String) (value : Object) (e1 e2 : Option JsonDeserializationErrors) :
    (pullMember pullValue reflectable name value e1).1 =
      (pullMember pullValue reflectable name value e2).1 := by
  cases hf : FindMember value name with
  | none => simp [pullMember, hf]
  | some member =>
    cases e1 <;> cases e2 <;> simp only [pullMember, hf] <;> exact h _ _ _ _

theorem pullFields_fst_indep (self : CXXRecordDecl) (value : Object) (fields : List FieldDecl) :
    ∀ (s1 s2 : Reflectable × Option JsonDeserializationErrors), s1.1 = s2.1 →
      (pullFields self value fields s1).1 = (pullFields self value fields s2).1 := by
  induction fields with
  | nil => intro s1 s2 h; exact h
  | cons f fs ih =>
    intro s1 s2 h
    simp only [pullFields, List.foldl_cons] at ih ⊢
    apply ih
    simp only [pullField, h]
    rw [pullMember_fst_indep (pull f.type) (pull_fst_indep f.type) _ f.name value s1.2 s2.2]

theorem pullBases_fst_indep (cb : RelevantClass → PullObject Reflectable) (value : Object)
    (bases : List RelevantClass)
    (h : ∀ b ∈ bases, ∀ r e1 e2, (cb b r value e1).1 = (cb b r value e2).1) :
    ∀ (s1 s2 : Reflectable × Option JsonDeserializationErrors), s1.1 = s2.1 →
      (pullBases cb value bases s1).1 = (pullBases cb value bases s2).1 := by
  induction bases with
  | nil => intro s1 s2 hs; exact hs
  | cons b bs ih =>
    intro s1 s2 hs
    simp only [pullBases, List.foldl_cons] at ih ⊢
    apply ih (fun x hx => h x (List.mem_cons_of_mem _ hx))
    rw [hs]
    exact h b (List.mem_cons_self _ _) _ _ _

theorem pullRecord_fst_indep (cat : List RelevantClass) (value : Object) (rc : RelevantClass) :
    ∀ (r : Reflectable) (e1 e2 : Option JsonDeserializationErrors),
      (pullRecord cat rc r value e1).1 = (pullRecord cat rc r value e2).1 := by
  refine relevantClass_induction cat (fun rc =>
    ∀ (r : Reflectable) (e1 e2 : Option JsonDeserializationErrors),
      (pullRecord cat rc r value e1).1 = (pullRecord cat rc r value e2).1) ?_ rc
  intro rc ih r e1 e2
  rw [pullRecord_eq, pullRecord_eq]
  apply pullFields_fst_indep
  exact pullBases_fst_indep _ _ _ ih (r, e1) (r, e2) rfl

theorem pullArrayLoop_snd_none (pullItem : Pull Val) (fresh : Val) (items : List Value)
    (h : ∀ item ∈ items, (pullItem fresh item none).2 = none) :
    ∀ (index : Nat) (acc : List Val), (pullArrayLoop pullItem fresh items index acc none).2 = none := by
  induction items with
  | nil => intro index acc; rfl
  | cons item rest ih =>
    intro index acc
    simp only [pullArrayLoop, setCurrentIndex, Option.map_none']
    rw [h item (List.mem_cons_self _ _)]
    exact ih (fun x hx => h x (List.mem_cons_of_mem _ hx)) _ _

theorem pull_snd_none (ty : Ty) :
    ∀ (reflectable : Val) (value : Value), (pull ty reflectable value none).2 = none := by
  induction ty with
  | scalar t =>
    intro r v
    simp only [pull, pullScalar]
    split <;> rfl
  | string =>
    intro r v
    simp only [pull, pullString]
    split <;> rfl
  | seq traits elem ih =>
    intro r v
    have hl := pullArrayLoop_snd_none (pull elem) elem.default v.GetArray
      (fun item _ => ih elem.default item) 0 []
    cases hr : traits.isReservable <;> cases ha : v.IsArray <;>
      simp [pull, hr, pullReservable, pullIteratable, ha, pullArray, hl, reportTypeMismatch,
        setCurrentIndex]

theorem pullMember_snd_none (ty : Ty) (reflectable : Val) (name : String) (value : Object) :
    (pullMember (pull ty) reflectable name value none).2 = none := by
  cases hf : FindMember value name with
  | none => simp [pullMember, hf]
  | some member => simp [pullMember, hf, pull_snd_none]

theorem pullFields_snd_none (self : CXXRecordDecl) (value : Object) (fields : List FieldDecl) :
    ∀ (r : Reflectable), (pullFields self value fields (r, none)).2 = none := by
  induction fields with
  | nil => intro r; rfl
  | cons f fs ih =>
    intro r
    simp only [pullFields, List.foldl_cons] at ih ⊢
    have hs : pullField self value f (r, none) = ((pullField self value f (r, none)).1, none) := by
      simp [pullField, pullMember_snd_none]
    rw [hs]
    exact ih _

theorem pullBases_snd_none (cb : RelevantClass → PullObject Reflectable) (value : Object)
    (bases : List RelevantClass) (h : ∀ b ∈ bases, ∀ r, (cb b r value none).2 = none) :
    ∀ (r : Reflectable), (pullBases cb value bases (r, none)).2 = none := by
  induction bases with
  | nil => intro r; rfl
  | cons b bs ih =>
    intro r
    simp only [pullBases, List.foldl_cons] at ih ⊢
    have hs : cb b r value none = ((cb b r value none).1, none) :=
      Prod.ext rfl (h b (List.mem_cons_self _ _) r)
    rw [hs]
    exact ih (fun x hx => h x (List.mem_cons_of_mem _ hx)) _

theorem pullRecord_snd_none (cat : List RelevantClass) (value : Object) (rc : RelevantClass) :
    ∀ (r : Reflectable), (pullRecord cat rc r value none).2 = none := by
  refine relevantClass_induction cat (fun rc =>
    ∀ (r : Reflectable), (pullRecord cat rc r value none).2 = none) ?_ rc
  intro rc ih r
  rw [pullRecord_eq]
  have hB := pullBases_snd_none (pullRecord cat) value (findRelevantBaseClasses cat rc) ih r
  have hs : pullBases (pullRecord cat) value (findRelevantBaseClasses cat rc) (r, none) =
      ((pullBases (pullRecord cat) value (findRelevantBaseClasses cat rc) (r, none)).1, none) :=
    Prod.ext rfl hB
  rw [hs]
  simp [setCurrentRecord, pullFields_snd_none]

/-- C11: for a scalar, text or sequence `pull`, for the name-keyed member `pull`, for the
generated `pull` of a class and for the `pull` of a class from a value, the destination after
a call without error context is the destination after the call with any error context; without
error context none is returned either. -/
theorem error_context_does_not_influence_result (ty : Ty) (dest : Val) (value : Value)
    (name : String) (object : Object) (cat : List RelevantClass) (rc : RelevantClass)
    (record : Reflectable) (e : JsonDeserializationErrors) :
    ((pull ty dest value none).1 = (pull ty dest value (some e)).1 ∧
      (pull ty dest value none).2 = none) ∧
    ((pullMember (pull ty) dest name object none).1 =
        (pullMember (pull ty) dest name object (some e)).1 ∧
      (pullMember (pull ty) dest name object none).2 = none) ∧
    ((pullRecord cat rc record object none).1 = (pullRecord cat rc record object (some e)).1 ∧
      (pullRecord cat rc record object none).2 = none) ∧
    ((pullCustom (pullRecord cat rc) record value none).1 =
        (pullCustom (pullRecord cat rc) record value (some e)).1 ∧
      (pullCustom (pullRecord cat rc) record value none).2 = none) := by
  refine ⟨⟨pull_fst_indep ty dest value none (some e), pull_snd_none ty dest value⟩,
    ⟨pullMember_fst_indep (pull ty) (pull_fst_indep ty) dest name object none (some e),
      pullMember_snd_none ty dest name object⟩,
    ⟨pullRecord_fst_indep cat object rc record none (some e),
      pullRecord_snd_none cat object rc record⟩, ?_⟩
  simp only [pullCustom]
  split
  · exact ⟨rfl, rfl⟩
  · exact ⟨pullRecord_fst_indep cat _ rc record none (some e),
      pullRecord_snd_none cat _ rc record⟩

/-! ## Accumulation of errors -/

theorem pullField_errors_of_leaf (self : CXXRecordDecl) (value : Object) (f : FieldDecl)
    (hleaf : f.type.isLeaf = true) (r : Reflectable) (e : JsonDeserializationErrors) :
    (pullField self value f (r, some e)).2 =
      some (e.appended (f.mismatch e.currentRecord e.currentIndex value).toList
        e.currentIndex) := by
  cases hf : FindMember value f.name with
  | none =>
    simp [pullField, pullMember, hf, FieldDecl.mismatch, e.appended_nil]
  | some member =>
    cases ht : f.type with
    | scalar t =>
      cases hm : member.Is t <;>
        simp [pullField, pullMember, hf, FieldDecl.mismatch, ht, pull, pullScalar, hm,
          Ty.accepts, reportTypeMismatch, JsonDeserializationErrors.reportTypeMismatch,
          setCurrentMember, JsonDeserializationErrors.appended]
    | string =>
      cases hm : member.IsString <;>
        simp [pullField, pullMember, hf, FieldDecl.mismatch, ht, pull, pullString, hm,
          Ty.accepts, reportTypeMismatch, JsonDeserializationErrors.reportTypeMismatch,
          setCurrentMember, JsonDeserializationErrors.appended]
    | seq traits elem => simp [ht, Ty.isLeaf] at hleaf

theorem pullFields_errors_of_leaf (self : CXXRecordDecl) (value : Object)
    (fields : List FieldDecl) (hleaf : ∀ f ∈ fields, f.type.isLeaf = true) :
    ∀ (r : Reflectable) (e : JsonDeserializationErrors),
      (pullFields self value fields (r, some e)).2 =
        some (e.appended
          (fields.filterMap (fun f => f.mismatch e.currentRecord e.currentIndex value))
          e.currentIndex) := by
  induction fields with
  | nil => intro r e; simp [pullFields, e.appended_nil]
  | cons f fs ih =>
    intro r e
    have h1 := pullField_errors_of_leaf self value f (hleaf f (List.mem_cons_self _ _)) r e
    have hs : pullField self value f (r, some e) =
        ((pullField self value f (r, some e)).1,
          some (e.appended (f.mismatch e.currentRecord e.currentIndex value).toList
            e.currentIndex)) := Prod.ext rfl h1
    simp only [pullFields, List.foldl_cons] at ih ⊢
    rw [hs, ih (fun x hx => hleaf x (List.mem_cons_of_mem _ hx))]
    cases hm : f.mismatch e.currentRecord e.currentIndex value <;>
      simp [List.filterMap_cons, hm, JsonDeserializationErrors.appended]

/-- C12: for a class without relevant base classes whose data members are all of a boolean,
integer or text type, the generated `pull` returns the error context with the errors recorded
before as they were, followed by exactly one `TypeMismatch` error for each data member whose
member is present with another kind, in the order of the data members; every data member is
pulled, whatever the members before it reported. -/
theorem non_interrupting_accumulation (cat : List RelevantClass) (rc : RelevantClass)
    (r : Reflectable) (value : Object) (e : JsonDeserializationErrors)
    (hbases : findRelevantBaseClasses cat rc = [])
    (hleaf : ∀ f ∈ rc.record.fields, f.type.isLeaf = true) :
    (pullRecord cat rc r value (some e)).2 =
      some (e.appended
        (rc.record.fields.filterMap
          (fun f => f.mismatch (some rc.qualifiedName) e.currentIndex value))
        e.currentIndex) := by
  rw [pullRecord_eq, hbases]
  simp only [pullBases, List.foldl_nil, setCurrentRecord, Option.map_some', savedRecord,
    Option.some_bind]
  rw [pullFields_errors_of_leaf rc.record value rc.record.fields hleaf]
  simp [JsonDeserializationErrors.appended]

theorem non_interrupting_accumulation_witness :
    (findRelevantBaseClasses [{ qualifiedName := "Pair", record := Example.Pair }]
        { qualifiedName := "Pair", record := Example.Pair } = [] ∧
      ∀ f ∈ Example.Pair.fields, f.type.isLeaf = true) ∧
    (pullRecord [{ qualifiedName := "Pair", record := Example.Pair }]
        { qualifiedName := "Pair", record := Example.Pair } Example.Pair.default
        [("first", .string "one"), ("second", .int 2), ("third", .bool true)]
        (some Example.noErrors)).2 =
      some { errors :=
               [{ kind := .TypeMismatch, actualType := .kStringType, record := some "Pair",
                  member := some "first", index := none },
                { kind := .TypeMismatch, actualType := .kNumberType, record := some "Pair",
                  member := some "second", index := none }],
             currentRecord := none, currentMember := none, currentIndex := none } :=
  ⟨⟨by decide, by decide⟩,
    non_interrupting_accumulation [{ qualifiedName := "Pair", record := Example.Pair }]
      { qualifiedName := "Pair", record := Example.Pair } Example.Pair.default
      [("first", .string "one"), ("second", .int 2), ("third", .bool true)] Example.noErrors
      (by decide) (by decide)⟩

/-! ## The path after a `pull` -/

theorem JsonDeserializationErrors.continues_refl (e : JsonDeserializationErrors) :
    e.Continues (some e) :=
  ⟨[], e.currentIndex, by rw [e.appended_nil], Or.inl rfl⟩

theorem JsonDeserializationErrors.continues_appended (e : JsonDeserializationErrors)
    (app : List JsonDeserializationError) (idx : Option Nat)
    (hidx : idx = e.currentIndex ∨ idx = none) (after : Option JsonDeserializationErrors)
    (h : (e.appended app idx).Continues after) : e.Continues after := by
  obtain ⟨a2, i2, h2, hi2⟩ := h
  refine ⟨app ++ a2, i2, by rw [h2, JsonDeserializationErrors.appended_appended], ?_⟩
  rcases hi2 with hi2 | hi2
  · rcases hidx with hidx | hidx
    · left; rw [hi2]; exact hidx
    · right; rw [hi2]; exact hidx
  · exact Or.inr hi2

/-- With an error context, a `pull` from a value returns the context with errors appended and
the same current record and member; the current index is as before after a scalar or text
`pull` and after a sequence `pull` from a value that is no array, and `noIndex` after a
sequence `pull` from an array. -/
theorem pull_path (ty : Ty) (reflectable : Val) (value : Value)
    (e : JsonDeserializationErrors) : ∃ app,
      (pull ty reflectable value (some e)).2 =
        some (e.appended app
          (if ty.isLeaf = true ∨ value.IsArray = false then e.currentIndex else none)) := by
  cases ty with
  | scalar t =>
    by_cases hm : value.Is t = true
    · exact ⟨[], by simp [pull, pullScalar, hm, Ty.isLeaf, e.appended_nil]⟩
    · exact ⟨[{ kind := .TypeMismatch, actualType := value.GetType, record := e.currentRecord,
                 member := e.currentMember, index := e.currentIndex }], by
        simp [pull, pullScalar, hm, Ty.isLeaf, reportTypeMismatch,
          JsonDeserializationErrors.reportTypeMismatch_eq]⟩
  | string =>
    by_cases hm : value.IsString = true
    · exact ⟨[], by simp [pull, pullString, hm, Ty.isLeaf, e.appended_nil]⟩
    · exact ⟨[{ kind := .TypeMismatch, actualType := value.GetType, record := e.currentRecord,
                 member := e.currentMember, index := e.currentIndex }], by
        simp [pull, pullString, hm, Ty.isLeaf, reportTypeMismatch,
          JsonDeserializationErrors.reportTypeMismatch_eq]⟩
  | seq traits elem =>
    by_cases ha : value.IsArray = true
    · obtain ⟨app, idx, hl, _⟩ := pullArrayLoop_errors (pull elem) elem.default value.GetArray
        (fun item _ e2 => pull_errors elem elem.default item e2) 0 [] e
      refine ⟨app, ?_⟩
      cases hr : traits.isReservable <;>
        simp [pull, hr, pullReservable, pullIteratable, ha, pullArray, hl, setCurrentIndex,
          JsonDeserializationErrors.appended, Ty.isLeaf]
    · refine ⟨[{ kind := .TypeMismatch, actualType := value.GetType, record := e.currentRecord,
                 member := e.currentMember, index := e.currentIndex }], ?_⟩
      cases hr : traits.isReservable <;>
        simp [pull, hr, pullReservable, pullIteratable, ha, reportTypeMismatch,
          JsonDeserializationErrors.reportTypeMismatch_eq, Ty.isLeaf]

theorem pull_continues (ty : Ty) (reflectable : Val) (value : Value)
    (e : JsonDeserializationErrors) : e.Continues (pull ty reflectable value (some e)).2 := by
  obtain ⟨app, h⟩ := pull_path ty reflectable value e
  refine ⟨app, _, h, ?_⟩
  split
  · exact Or.inl rfl
  · exact Or.inr rfl

theorem pullMember_path (ty : Ty) (reflectable : Val) (name : String) (value : Object)
    (member : Value) (e : JsonDeserializationErrors)
    (hfind : FindMember value name = some member) : ∃ app,
      (pullMember (pull ty) reflectable name value (some e)).2 =
        some (e.appended app
          (if ty.isLeaf = true ∨ member.IsArray = false then e.currentIndex else none)) := by
  obtain ⟨app, h⟩ := pull_path ty reflectable member { e with currentMember := some name }
  refine ⟨app, ?_⟩
  simp only [pullMember, hfind, h, setCurrentMember, Option.map_some']
  simp [JsonDeserializationErrors.appended]

theorem pullMember_continues (ty : Ty) (reflectable : Val) (name : String) (value : Object)
    (e : JsonDeserializationErrors) :
    e.Continues (pullMember (pull ty) reflectable name value (some e)).2 := by
  cases hf : FindMember value name with
  | none =>
    rw [pullMember_of_not_found _ _ _ _ _ hf]
    exact e.continues_refl
  | some member =>
    obtain ⟨app, h⟩ := pullMember_path ty reflectable name value member e hf
    refine ⟨app, _, h, ?_⟩
    split
    · exact Or.inl rfl
    · exact Or.inr rfl

theorem pullFields_continues (self : CXXRecordDecl) (value : Object)
    (fields : List FieldDecl) :
    ∀ (r : Reflectable) (e : JsonDeserializationErrors),
      e.Continues (pullFields self value fields (r, some e)).2 := by
  induction fields with
  | nil => intro r e; exact e.continues_refl
  | cons f fs ih =>
    intro r e
    obtain ⟨a1, i1, h1, hi1⟩ := pullMember_continues f.type (r.getField self f) f.name value e
    have hs : pullField self value f (r, some e) =
        ((pullField self value f (r, some e)).1, some (e.appended a1 i1)) := Prod.ext rfl h1
    simp only [pullFields, List.foldl_cons] at ih ⊢
    rw [hs]
    exact e.continues_appended a1 i1 hi1 _ (ih _ _)

theorem pullBases_continues (cb : RelevantClass → PullObject Reflectable) (value : Object)
    (bases : List RelevantClass)
    (h : ∀ b ∈ bases, ∀ (r : Reflectable) (e : JsonDeserializationErrors),
      e.Continues (cb b r value (some e)).2) :
    ∀ (r : Reflectable) (e : JsonDeserializationErrors),
      e.Continues (pullBases cb value bases (r, some e)).2 := by
  induction bases with
  | nil => intro r e; exact e.continues_refl
  | cons b bs ih =>
    intro r e
    obtain ⟨a1, i1, h1, hi1⟩ := h b (List.mem_cons_self _ _) r e
    have hs : cb b r value (some e) = ((cb b r value (some e)).1, some (e.appended a1 i1)) :=
      Prod.ext rfl h1
    simp only [pullBases, List.foldl_cons] at ih ⊢
    rw [hs]
    exact e.continues_appended a1 i1 hi1 _
      (ih (fun x hx => h x (List.mem_cons_of_mem _ hx)) _ _)

theorem pullRecord_continues (cat : List RelevantClass) (value : Object) (rc : RelevantClass) :
    ∀ (r : Reflectable) (e : JsonDeserializationErrors),
      e.Continues (pullRecord cat rc r value (some e)).2 := by
  refine relevantClass_induction cat (fun rc =>
    ∀ (r : Reflectable) (e : JsonDeserializationErrors),
      e.Continues (pullRecord cat rc r value (some e)).2) ?_ rc
  intro rc ih r e
  obtain ⟨aB, iB, hB, hiB⟩ := pullBases_continues (pullRecord cat) value
    (findRelevantBaseClasses cat rc) ih r e
  obtain ⟨aF, iF, hF, hiF⟩ := pullFields_continues rc.record value rc.record.fields
    (pullBases (pullRecord cat) value (findRelevantBaseClasses cat rc) (r, some e)).1
    { e.appended aB iB with currentRecord := some rc.qualifiedName }
  refine ⟨aB ++ aF, iF, ?_, ?_⟩
  · rw [pullRecord_eq]
    simp only [hB, setCurrentRecord, Option.map_some', hF, savedRecord, Option.some_bind]
    simp [JsonDeserializationErrors.appended]
  · rcases hiF with hiF | hiF
    · simp only [JsonDeserializationErrors.appended] at hiF
      rcases hiB with hiB | hiB
      · left; rw [hiF]; exact hiB
      · right; rw [hiF]; exact hiB
    · exact Or.inr hiF

/-- C13, as stated, fails: the sequence `pull` that the loop over `[[1]]` runs for the item at
index 0 starts with current index 0 and returns with `noIndex`, and so does the name-keyed
`pull` of a sequence member that starts with current index 0. -/
theorem path_restoration_counterexample :
    ¬ ((pull (.seq Example.vector (.scalar .int)) (.seq []) (.array [.int 1])
          (some { errors := [], currentRecord := none, currentMember := none,
                  currentIndex := some 0 })).2.map (fun e => e.currentIndex) =
        some (some 0)) ∧
    ¬ ((pullMember (pull (.seq Example.vector (.scalar .int))) (.seq []) "z"
          [("z", .array [.int 1])]
          (some { errors := [], currentRecord := none, currentMember := none,
                  currentIndex := some 0 })).2.map (fun e => e.currentIndex) =
        some (some 0)) := by
  decide

/-- C13, amended: after a `pull` of any category with an error context, the current record
name and the current member name are those before the call.  The current index is the one
before the call after a scalar or text `pull` and after a sequence `pull` from a value that is
no array, and it is `noIndex` after a sequence `pull` from an array; after a name-keyed member
`pull` it is what the `pull` of the member leaves, and after a generated `pull` or a `pull` of
a class from a value it is the one before the call or `noIndex`. -/
theorem path_restoration_amended (ty : Ty) (dest : Val) (value : Value) (name : String)
    (object : Object) (cat : List RelevantClass) (rc : RelevantClass) (record : Reflectable)
    (e : JsonDeserializationErrors) :
    (∃ after, (pull ty dest value (some e)).2 = some after ∧
      after.currentRecord = e.currentRecord ∧ after.currentMember = e.currentMember ∧
      after.currentIndex =
        if ty.isLeaf = true ∨ value.IsArray = false then e.currentIndex else none) ∧
    (∃ after, (pullMember (pull ty) dest name object (some e)).2 = some after ∧
      after.currentRecord = e.currentRecord ∧ after.currentMember = e.currentMember ∧
      after.currentIndex =
        match FindMember object name with
        | none => e.currentIndex
        | some member =>
          if ty.isLeaf = true ∨ member.IsArray = false then e.currentIndex else none) ∧
    (∃ after, (pullRecord cat rc record object (some e)).2 = some after ∧
      after.currentRecord = e.currentRecord ∧ after.currentMember = e.currentMember ∧
      (after.currentIndex = e.currentIndex ∨ after.currentIndex = none)) ∧
    (∃ after, (pullCustom (pullRecord cat rc) record value (some e)).2 = some after ∧
      after.currentRecord = e.currentRecord ∧ after.currentMember = e.currentMember ∧
      (after.currentIndex = e.currentIndex ∨ after.currentIndex = none)) := by
  refine ⟨?_, ?_, ?_, ?_⟩
  · obtain ⟨app, h⟩ := pull_path ty dest value e
    exact ⟨_, h, rfl, rfl, rfl⟩
  · cases hf : FindMember object name with
    | none =>
      rw [pullMember_of_not_found _ _ _ _ _ hf]
      exact ⟨e, rfl, rfl, rfl, rfl⟩
    | some member =>
      obtain ⟨app, h⟩ := pullMember_path ty dest name object member e hf
      exact ⟨_, h, rfl, rfl, rfl⟩
  · obtain ⟨app, idx, h, hidx⟩ := pullRecord_continues cat object rc record e
    exact ⟨e.appended app idx, h, rfl, rfl, hidx⟩
  · by_cases ho : value.IsObject = true
    · obtain ⟨app, idx, h, hidx⟩ := pullRecord_continues cat value.GetObject rc record e
      refine ⟨e.appended app idx, ?_, rfl, rfl, hidx⟩
      simp only [pullCustom, ho, Bool.not_true, Bool.false_eq_true, if_false]
      exact h
    · refine ⟨e.reportTypeMismatch value.GetType, ?_, rfl, rfl, Or.inl rfl⟩
      simp [pullCustom, ho, reportTypeMismatch]

/-! ## Scopes of the member name and of the record name -/

/-- C14: when the object has a member named `n`, the name-keyed `pull` runs the nested `pull`
on that member with the error context in which only the current member name is changed, to
`n`, and returns what the nested `pull` returns with the current member name set back to the
one before the call, whatever the nested `pull` did to the error context; a scalar or text
member of another kind is therefore reported with member `n`. -/
theorem member_name_scoping {α : Type} (pullValue : Pull α) (reflectable : α) (dest : Val)
    (n : String) (value : Object) (member : Value) (e : JsonDeserializationErrors)
    (hfind : FindMember value n = some member) :
    pullMember pullValue reflectable n value (some e) =
      ((pullValue reflectable member (some { e with currentMember := some n })).1,
       (pullValue reflectable member (some { e with currentMember := some n })).2.map
         (fun after => { after with currentMember := e.currentMember })) ∧
    (∀ after, (pullMember pullValue reflectable n value (some e)).2 = some after →
      after.currentMember = e.currentMember) ∧
    (∀ t, member.Is t = false →
      (pullMember (pull (.scalar t)) dest n value (some e)).2 =
        some (e.appended
          [{ kind := .TypeMismatch, actualType := member.GetType, record := e.currentRecord,
             member := some n, index := e.currentIndex }] e.currentIndex)) ∧
    (member.IsString = false →
      (pullMember (pull .string) dest n value (some e)).2 =
        some (e.appended
          [{ kind := .TypeMismatch, actualType := member.GetType, record := e.currentRecord,
             member := some n, index := e.currentIndex }] e.currentIndex)) := by
  refine ⟨?_, ?_, ?_, ?_⟩
  · simp [pullMember, hfind, setCurrentMember]
  · intro after h
    simp only [pullMember, hfind, setCurrentMember, Option.map_eq_some'] at h
    obtain ⟨a, _, ha⟩ := h
    rw [← ha]
  · intro t hm
    simp [pullMember, hfind, pull, pullScalar, hm, reportTypeMismatch,
      JsonDeserializationErrors.reportTypeMismatch, setCurrentMember,
      JsonDeserializationErrors.appended]
  · intro hm
    simp [pullMember, hfind, pull, pullString, hm, reportTypeMismatch,
      JsonDeserializationErrors.reportTypeMismatch, setCurrentMember,
      JsonDeserializationErrors.appended]

theorem member_name_scoping_witness :
    FindMember [("a", .string "not-a-number")] "a" = some (.string "not-a-number") ∧
    (pullMember (pull (.scalar .int)) (.int 7) "a" [("a", .string "not-a-number")]
        (some { errors := [], currentRecord := some "Base", currentMember := some "outer",
                currentIndex := none })).2 =
      some { errors := [{ kind := .TypeMismatch, actualType := .kStringType,
                          record := some "Base", member := some "a", index := none }],
             currentRecord := some "Base", currentMember := some "outer",
             currentIndex := none } :=
  ⟨by decide,
    ((member_name_scoping (pull (.scalar .int)) (.int 7) (.int 7) "a"
      [("a", .string "not-a-number")] (.string "not-a-number")
      { errors := [], currentRecord := some "Base", currentMember := some "outer",
        currentIndex := none } (by decide)).2.2.1 .int (by decide)).trans (by decide)⟩

theorem pullFields_append (self : CXXRecordDecl) (value : Object) (pre post : List FieldDecl)
    (s : Reflectable × Option JsonDeserializationErrors) :
    pullFields self value (pre ++ post) s =
      pullFields self value post (pullFields self value pre s) := by
  simp [pullFields, List.foldl_append]

/-- C15: the generated `pull` of a class runs the calls for the base classes, sets the current
record name to the qualified name of the class, pulls the data members of the class and sets
the current record name back; every data member of the class is pulled in an error context
whose current record name is the qualified name of the class, and the error context returned
has the current record name of the one before the call. -/
theorem record_name_scoping (cat : List RelevantClass) (rc : RelevantClass) (r : Reflectable)
    (value : Object) (e : JsonDeserializationErrors) :
    pullRecord cat rc r value (some e) =
      ((pullFields rc.record value rc.record.fields
          ((pullBases (pullRecord cat) value (findRelevantBaseClasses cat rc) (r, some e)).1,
            setCurrentRecord
              (pullBases (pullRecord cat) value (findRelevantBaseClasses cat rc) (r, some e)).2
              (some rc.qualifiedName))).1,
        setCurrentRecord
          (pullFields rc.record value rc.record.fields
            ((pullBases (pullRecord cat) value (findRelevantBaseClasses cat rc) (r, some e)).1,
              setCurrentRecord
                (pullBases (pullRecord cat) value (findRelevantBaseClasses cat rc)
                  (r, some e)).2
                (some rc.qualifiedName))).2
          e.currentRecord) ∧
    (∀ pre f post, rc.record.fields = pre ++ f :: post →
      pullFields rc.record value rc.record.fields
          ((pullBases (pullRecord cat) value (findRelevantBaseClasses cat rc) (r, some e)).1,
            setCurrentRecord
              (pullBases (pullRecord cat) value (findRelevantBaseClasses cat rc) (r, some e)).2
              (some rc.qualifiedName)) =
        pullFields rc.record value post
          (pullField rc.record value f
            (pullFields rc.record value pre
              ((pullBases (pullRecord cat) value (findRelevantBaseClasses cat rc)
                  (r, some e)).1,
                setCurrentRecord
                  (pullBases (pullRecord cat) value (findRelevantBaseClasses cat rc)
                    (r, some e)).2
                  (some rc.qualifiedName)))) ∧
      ∃ during,
        (pullFields rc.record value pre
          ((pullBases (pullRecord cat) value (findRelevantBaseClasses cat rc) (r, some e)).1,
            setCurrentRecord
              (pullBases (pullRecord cat) value (findRelevantBaseClasses cat rc) (r, some e)).2
              (some rc.qualifiedName))).2 = some during ∧
        during.currentRecord = some rc.qualifiedName) ∧
    (∃ after, (pullRecord cat rc r value (some e)).2 = some after ∧
      after.currentRecord = e.currentRecord) := by
  obtain ⟨aB, iB, hB, _⟩ := pullBases_continues (pullRecord cat) value
    (findRelevantBaseClasses cat rc) (fun b _ r2 e2 => pullRecord_continues cat value b r2 e2)
    r e
  refine ⟨?_, ?_, ?_⟩
  · rw [pullRecord_eq]
    simp [hB, savedRecord, JsonDeserializationErrors.appended]
  · intro pre f post hfields
    refine ⟨?_, ?_⟩
    · rw [hfields, pullFields_append]
      simp [pullFields]
    · rw [hB]
      obtain ⟨aF, iF, hF, _⟩ := pullFields_continues rc.record value pre
        (pullBases (pullRecord cat) value (findRelevantBaseClasses cat rc) (r, some e)).1
        { e.appended aB iB with currentRecord := some rc.qualifiedName }
      exact ⟨_, hF, rfl⟩
  · obtain ⟨app, idx, h, _⟩ := pullRecord_continues cat value rc r e
    exact ⟨e.appended app idx, h, rfl⟩

/-! ## The current index during a sequence `pull` -/

theorem pullArrayLoop_append (pullItem : Pull Val) (fresh : Val) (pre post : List Value) :
    ∀ (index : Nat) (acc : List Val) (errors : Option JsonDeserializationErrors),
      pullArrayLoop pullItem fresh (pre ++ post) index acc errors =
        pullArrayLoop pullItem fresh post (index + pre.length)
          (pullArrayLoop pullItem fresh pre index acc errors).1
          (pullArrayLoop pullItem fresh pre index acc errors).2 := by
  induction pre with
  | nil => intro index acc errors; simp [pullArrayLoop]
  | cons item rest ih =>
    intro index acc errors
    rw [List.cons_append]
    simp only [pullArrayLoop, List.length_cons]
    rw [ih]
    have : index + 1 + rest.length = index + (rest.length + 1) := by omega
    rw [this]

theorem pullArrayLoop_errors_of_leaf (elem : Ty) (hleaf : elem.isLeaf = true)
    (items : List Value) :
    ∀ (index : Nat) (acc : List Val) (e : JsonDeserializationErrors), ∃ idx,
      (pullArrayLoop (pull elem) elem.default items index acc (some e)).2 =
        some (e.appended
          ((items.enumFrom index).filterMap (fun p =>
            if elem.accepts p.2 then none
            else some { kind := .TypeMismatch, actualType := p.2.GetType,
                        record := e.currentRecord, member := e.currentMember,
                        index := some p.1 }))
          idx) := by
  induction items with
  | nil =>
    intro index acc e
    exact ⟨e.currentIndex, by simp [pullArrayLoop, e.appended_nil]⟩
  | cons item rest ih =>
    intro index acc e
    have hstep : (pull elem elem.default item (some { e with currentIndex := some index })).2 =
        some (e.appended
          (if elem.accepts item then []
           else [{ kind := .TypeMismatch, actualType := item.GetType,
                   record := e.currentRecord, member := e.currentMember,
                   index := some index }])
          (some index)) := by
      cases elem with
      | scalar t =>
        cases hm : item.Is t <;>
          simp [pull, pullScalar, hm, Ty.accepts, reportTypeMismatch,
            JsonDeserializationErrors.reportTypeMismatch, JsonDeserializationErrors.appended]
      | string =>
        cases hm : item.IsString <;>
          simp [pull, pullString, hm, Ty.accepts, reportTypeMismatch,
            JsonDeserializationErrors.reportTypeMismatch, JsonDeserializationErrors.appended]
      | seq traits inner => simp [Ty.isLeaf] at hleaf
    obtain ⟨idx, hrest⟩ := ih (index + 1)
      (acc ++ [(pull elem elem.default item (some { e with currentIndex := some index })).1])
      (e.appended
          (if elem.accepts item then []
           else [{ kind := .TypeMismatch, actualType := item.GetType,
                   record := e.currentRecord, member := e.currentMember,
                   index := some index }])
          (some index))
    refine ⟨idx, ?_⟩
    simp only [pullArrayLoop, setCurrentIndex, Option.map_some', List.enumFrom_cons,
      List.filterMap_cons]
    rw [hstep, hrest, JsonDeserializationErrors.appended_appended]
    cases elem.accepts item <;> simp [JsonDeserializationErrors.appended]

/-- C16: the loop of a sequence `pull` runs the nested `pull` of the item at position `i` in
the error context the items before left, with the current index set to `i`; when the element
type is a boolean, integer or text type, the errors appended are exactly one `TypeMismatch`
with index `i` for every item at a position `i` that has another kind, in the order of the
array; and the error context returned by a sequence `pull` from an array has the current index
`noIndex`, also when the array is empty. -/
theorem array_index_tracking (pullItem : Pull Val) (fresh : Val) (pre post : List Value)
    (item : Value) (errors : Option JsonDeserializationErrors) (traits : SeqTraits)
    (elem : Ty) (dest : Val) (items : List Value) (e : JsonDeserializationErrors) :
    pullArrayLoop pullItem fresh (pre ++ item :: post) 0 [] errors =
      pullArrayLoop pullItem fresh post (pre.length + 1)
        ((pullArrayLoop pullItem fresh pre 0 [] errors).1 ++
          [(pullItem fresh item
            (setCurrentIndex (pullArrayLoop pullItem fresh pre 0 [] errors).2
              (some pre.length))).1])
        (pullItem fresh item
          (setCurrentIndex (pullArrayLoop pullItem fresh pre 0 [] errors).2
            (some pre.length))).2 ∧
    (elem.isLeaf = true →
      (pull (.seq traits elem) dest (.array items) (some e)).2 =
        some (e.appended
          (items.enum.filterMap (fun p =>
            if elem.accepts p.2 then none
            else some { kind := .TypeMismatch, actualType := p.2.GetType,
                        record := e.currentRecord, member := e.currentMember,
                        index := some p.1 }))
          none)) ∧
    (∃ after, (pull (.seq traits elem) dest (.array items) (some e)).2 = some after ∧
      after.currentIndex = none) ∧
    (pull (.seq traits elem) dest (.array []) (some e)).2 =
      some { e with currentIndex := none } := by
  refine ⟨?_, ?_, ?_, ?_⟩
  · rw [pullArrayLoop_append]
    simp [pullArrayLoop]
  · intro hleaf
    obtain ⟨idx, h⟩ := pullArrayLoop_errors_of_leaf elem hleaf items 0 [] e
    cases hr : traits.isReservable <;>
      simp [pull, hr, pullReservable, pullIteratable, Value.IsArray, Value.GetArray, pullArray,
        h, setCurrentIndex, JsonDeserializationErrors.appended, List.enum]
  · obtain ⟨app, h⟩ := pull_path (.seq traits elem) dest (.array items) e
    refine ⟨_, h, ?_⟩
    simp [Ty.isLeaf, Value.IsArray, JsonDeserializationErrors.appended]
  · cases hr : traits.isReservable <;>
      simp [pull, hr, pullReservable, pullIteratable, Value.IsArray, Value.GetArray, pullArray,
        pullArrayLoop, setCurrentIndex]

theorem array_index_tracking_witness :
    (Ty.scalar .int).isLeaf = true ∧
    pull (.seq Example.vector (.scalar .int)) (.seq []) (.array [.int 1, .string "x", .int 3])
        (some Example.noErrors) =
      (.seq [.int 1, .int 0, .int 3],
        some { errors := [{ kind := .TypeMismatch, actualType := .kStringType, record := none,
                            member := none, index := some 1 }],
               currentRecord := none, currentMember := none, currentIndex := none }) :=
  ⟨by decide,
    Prod.ext (by decide)
      (((array_index_tracking (pull (.scalar .int)) (.int 0) [] [] (.int 1) none
        Example.vector (.scalar .int) (.seq []) [.int 1, .string "x", .int 3]
        Example.noErrors).2.1 (by decide)).trans (by decide))⟩

/-! ## The relevant base classes -/

theorem CXXRecordDecl.hasBaseIn_iff (bases : List CXXRecordDecl) (base : CXXRecordDecl) :
    CXXRecordDecl.hasBaseIn bases base = true ↔
      ∃ d ∈ bases, d = base ∨ d.hasBase base = true := by
  induction bases with
  | nil => simp [CXXRecordDecl.hasBaseIn]
  | cons b bs ih =>
    simp only [CXXRecordDecl.hasBaseIn, Bool.or_eq_true, decide_eq_true_eq, ih,
      List.mem_cons, exists_eq_or_imp]

theorem CXXRecordDecl.isDerivedFrom_iff_bases (record base : CXXRecordDecl) :
    record.isDerivedFrom base = true ↔
      ∃ d ∈ record.bases, d = base ∨ d.isDerivedFrom base = true := by
  rw [CXXRecordDecl.isDerivedFrom_iff]
  cases record with
  | mk n d bases fields =>
    simp only [CXXRecordDecl.hasBase, CXXRecordDecl.bases, CXXRecordDecl.hasBaseIn_iff,
      CXXRecordDecl.isDerivedFrom_iff]

/-- C17: `findRelevantBaseClasses` returns the entries of the catalogue, in the order of the
catalogue, whose declaration is another one than that of the given entry and from whose class
the class of the given entry is derived; the given entry is never among them; to be derived
from a class is to have it as a direct base class or to have a direct base class derived from
it, so with an entry every entry of the catalogue that this one is derived from is returned
too. -/
theorem findRelevantBaseClasses_spec (cat : List RelevantClass) (e : RelevantClass) :
    findRelevantBaseClasses cat e =
      cat.filter (fun o =>
        decide (o.record ≠ e.record ∧ e.record.isDerivedFrom o.record = true)) ∧
    (findRelevantBaseClasses cat e).Sublist cat ∧
    (∀ o, o ∈ findRelevantBaseClasses cat e ↔
      o ∈ cat ∧ o.record ≠ e.record ∧ e.record.isDerivedFrom o.record = true) ∧
    e ∉ findRelevantBaseClasses cat e ∧
    (∀ record base : CXXRecordDecl, record.isDerivedFrom base = true ↔
      ∃ d ∈ record.bases, d = base ∨ d.isDerivedFrom base = true) ∧
    (∀ o ∈ findRelevantBaseClasses cat e, ∀ o2 ∈ cat,
      o.record.isDerivedFrom o2.record = true → o2 ∈ findRelevantBaseClasses cat e) := by
  have hmem : ∀ o, o ∈ findRelevantBaseClasses cat e ↔
      o ∈ cat ∧ o.record ≠ e.record ∧ e.record.isDerivedFrom o.record = true := by
    intro o
    simp only [findRelevantBaseClasses, List.mem_filter, Bool.and_eq_true, decide_eq_true_eq]
    constructor
    · rintro ⟨h1, h2, h3⟩; exact ⟨h1, fun h => h2 h.symm, h3⟩
    · rintro ⟨h1, h2, h3⟩; exact ⟨h1, fun h => h2 h.symm, h3⟩
  refine ⟨?_, List.filter_sublist _, hmem, ?_, CXXRecordDecl.isDerivedFrom_iff_bases, ?_⟩
  · simp only [findRelevantBaseClasses]
    apply List.filter_congr
    intro o _
    rw [Bool.eq_iff_iff]
    simp only [Bool.and_eq_true, decide_eq_true_eq]
    exact ⟨fun ⟨a, b⟩ => ⟨fun h => a h.symm, b⟩, fun ⟨a, b⟩ => ⟨fun h => a h.symm, b⟩⟩
  · intro h
    exact ((hmem e).mp h).2.1 rfl
  · intro o ho o2 ho2 hder
    have h1 := (mem_findRelevantBaseClasses cat e o).mp ho
    rw [CXXRecordDecl.isDerivedFrom_iff] at hder
    exact (mem_findRelevantBaseClasses cat e o2).mpr
      ⟨ho2, CXXRecordDecl.hasBase_trans _ _ _ h1.2 hder⟩

/-! ## Discovery of the relevant classes -/

theorem CodeGenerator.inheritsFromInstantiationOfLoop_iff (bases : List CXXRecordDecl)
    (templateClass : String) :
    CodeGenerator.inheritsFromInstantiationOfLoop bases templateClass = true ↔
      ∃ base ∈ bases, base.getQualifiedNameAsString = templateClass := by
  induction bases with
  | nil => simp [CodeGenerator.inheritsFromInstantiationOfLoop]
  | cons b rest ih =>
    simp only [CodeGenerator.inheritsFromInstantiationOfLoop, List.mem_cons, exists_eq_or_imp]
    by_cases h : b.getQualifiedNameAsString = templateClass
    · simp [h]
    · simp [h, ih]

theorem CodeGenerator.inheritsFromInstantiationOf_iff (record : CXXRecordDecl)
    (templateClass : String) :
    CodeGenerator.inheritsFromInstantiationOf record templateClass = true ↔
      ∃ base ∈ record.bases, base.getQualifiedNameAsString = templateClass :=
  CodeGenerator.inheritsFromInstantiationOfLoop_iff record.bases templateClass

theorem JsonSerializationCodeGenerator.qualifiedNameIfListed_mem (values : List String)
    (qualifiedName : String) (h : qualifiedName ∈ values) :
    JsonSerializationCodeGenerator.qualifiedNameIfListed values qualifiedName =
      qualifiedName := by
  induction values with
  | nil => simp at h
  | cons v rest ih =>
    simp only [JsonSerializationCodeGenerator.qualifiedNameIfListed]
    by_cases hv : v = qualifiedName
    · simp [hv]
    · rw [if_neg hv]
      rcases List.mem_cons.mp h with h | h
      · exact absurd h.symm hv
      · exact ih h

theorem JsonSerializationCodeGenerator.qualifiedNameIfListed_not_mem (values : List String)
    (qualifiedName : String) (h : qualifiedName ∉ values) :
    JsonSerializationCodeGenerator.qualifiedNameIfListed values qualifiedName = "" := by
  induction values with
  | nil => rfl
  | cons v rest ih =>
    simp only [JsonSerializationCodeGenerator.qualifiedNameIfListed]
    have hv : ¬ v = qualifiedName := fun hv => h (by simp [hv])
    rw [if_neg hv]
    exact ih (fun hm => h (List.mem_cons_of_mem _ hm))

theorem string_isEmpty_iff (s : String) : s.isEmpty = true ↔ s = "" := by
  cases s with
  | mk data =>
    cases data with
    | nil => simp [String.isEmpty, String.endPos, String.utf8ByteSize, String.utf8ByteSize.go]
    | cons c cs =>
      have hc := Char.utf8Size_pos c
      simp only [String.isEmpty, String.endPos, String.utf8ByteSize, String.utf8ByteSize.go,
        beq_iff_eq, String.Pos.ext_iff]
      constructor
      · intro h
        have : (0 : String.Pos).byteIdx = 0 := rfl
        omega
      · intro h
        have := congrArg String.data h
        simp at this

/-- A record that the relevance rule accepts is appended with its qualified name, if that
name is not empty. -/
theorem JsonSerializationCodeGenerator.addDeclaration_relevant
    (generator : JsonSerializationCodeGenerator) (record : CXXRecordDecl)
    (hname : record.getQualifiedNameAsString ≠ "")
    (h : Spec.relevant generator.m_options record) :
    generator.addDeclaration (.CXXRecord record) =
      { generator with
        m_relevantClasses := generator.m_relevantClasses ++
          [{ qualifiedName := record.getQualifiedNameAsString, record := record }] } := by
  obtain ⟨hdef, hrel⟩ := h
  have hq : generator.qualifiedNameIfRelevant record = record.getQualifiedNameAsString := by
    unfold JsonSerializationCodeGenerator.qualifiedNameIfRelevant
    by_cases hm : CodeGenerator.inheritsFromInstantiationOf record
        JsonSerializable.qualifiedName = true
    · rw [if_pos hm]
    · rw [if_neg hm]
      rcases hrel with hrel | ⟨hp, hl⟩
      · exact absurd ((CodeGenerator.inheritsFromInstantiationOf_iff _ _).mpr hrel) hm
      · simp only [hp, Bool.not_true, Bool.false_eq_true, if_false]
        exact JsonSerializationCodeGenerator.qualifiedNameIfListed_mem _ _ hl
  have he : (record.getQualifiedNameAsString).isEmpty = false := by
    cases hb : (record.getQualifiedNameAsString).isEmpty
    · rfl
    · exact absurd ((string_isEmpty_iff _).mp hb) hname
  simp only [JsonSerializationCodeGenerator.addDeclaration, hdef, hq, he, Bool.not_true,
    Bool.not_false, Bool.false_eq_true, if_false, if_true]

/-- A record that the relevance rule does not accept leaves the generator as it was. -/
theorem JsonSerializationCodeGenerator.addDeclaration_not_relevant
    (generator : JsonSerializationCodeGenerator) (record : CXXRecordDecl)
    (h : ¬ Spec.relevant generator.m_options record) :
    generator.addDeclaration (.CXXRecord record) = generator := by
  unfold JsonSerializationCodeGenerator.addDeclaration
  by_cases hdef : record.hasDefinition = true
  · have hrel : ¬ ((∃ base ∈ record.bases,
          base.getQualifiedNameAsString = JsonSerializable.qualifiedName) ∨
        (generator.m_options.additionalClassesArg.isPresent = true ∧
          record.getQualifiedNameAsString ∈
            generator.m_options.additionalClassesArg.values)) :=
      fun hr => h ⟨hdef, hr⟩
    have hq : generator.qualifiedNameIfRelevant record = "" := by
      unfold JsonSerializationCodeGenerator.qualifiedNameIfRelevant
      have hm : ¬ CodeGenerator.inheritsFromInstantiationOf record
          JsonSerializable.qualifiedName = true :=
        fun hm => hrel (Or.inl ((CodeGenerator.inheritsFromInstantiationOf_iff _ _).mp hm))
      rw [if_neg hm]
      cases hp : generator.m_options.additionalClassesArg.isPresent
      · simp
      · simp only [Bool.not_true, Bool.false_eq_true, if_false]
        exact JsonSerializationCodeGenerator.qualifiedNameIfListed_not_mem _ _
          (fun hl => hrel (Or.inr ⟨hp, hl⟩))
    simp only [hdef, hq, Bool.not_true, Bool.false_eq_true, if_false]
    rfl
  · simp [hdef]

/-- Claim C18: the relevance rule. A declaration is a structured type whose qualified name is
not empty (the name a declaration has in the compiler's syntax tree never is). Then
`addDeclaration` appends an entry to the catalogue if and only if the declaration is a
structured type that has a definition and either one of its direct base classes carries the
qualified name of the marker type, or the argument with the additional classes is present and
holds the qualified name of the type. In that case the entry appended is the qualified name of
the type with its record, at the end of the catalogue; in every other case, in particular for
a type that has no direct base of the marker's name and is not among the additional classes,
whatever its bases derive from, the generator is left as it was. The options never change. -/
theorem relevance_rule (generator : JsonSerializationCodeGenerator) (decl : Decl)
    (hname : ∀ record, decl = .CXXRecord record → record.getQualifiedNameAsString ≠ "") :
    ((∃ entry, (generator.addDeclaration decl).m_relevantClasses =
          generator.m_relevantClasses ++ [entry]) ↔
        ∃ record, decl = .CXXRecord record ∧ record.hasDefinition = true ∧
          ((∃ base ∈ record.bases,
              base.getQualifiedNameAsString = JsonSerializable.qualifiedName) ∨
            (generator.m_options.additionalClassesArg.isPresent = true ∧
              record.getQualifiedNameAsString ∈
                generator.m_options.additionalClassesArg.values))) ∧
      (∀ record, decl = .CXXRecord record → Spec.relevant generator.m_options record →
        (generator.addDeclaration decl).m_relevantClasses =
          generator.m_relevantClasses ++
            [{ qualifiedName := record.getQualifiedNameAsString, record := record }]) ∧
      ((¬ ∃ record, decl = .CXXRecord record ∧ Spec.relevant generator.m_options record) →
        generator.addDeclaration decl = generator) ∧
      (∀ record, decl = .CXXRecord record →
        (∀ base ∈ record.bases,
          base.getQualifiedNameAsString ≠ JsonSerializable.qualifiedName) →
        ¬ (generator.m_options.additionalClassesArg.isPresent = true ∧
          record.getQualifiedNameAsString ∈
            generator.m_options.additionalClassesArg.values) →
        generator.addDeclaration decl = generator) ∧
      (generator.addDeclaration decl).m_options = generator.m_options := by
  have hno : ∀ entry : RelevantClass,
      generator.m_relevantClasses ≠ generator.m_relevantClasses ++ [entry] := by
    intro entry h
    have := congrArg List.length h
    simp at this
  have hnot : (¬ ∃ record, decl = .CXXRecord record ∧
      Spec.relevant generator.m_options record) →
      generator.addDeclaration decl = generator := by
    intro h
    cases decl with
    | CXXRecord record =>
      exact JsonSerializationCodeGenerator.addDeclaration_not_relevant generator record
        (fun hr => h ⟨record, rfl, hr⟩)
    | Enum => rfl
    | Other => rfl
  refine ⟨⟨?_, ?_⟩, ?_, hnot, ?_, ?_⟩
  · rintro ⟨entry, he⟩
    by_contra hc
    have hsame := hnot (fun ⟨record, hd, hr⟩ => hc ⟨record, hd, hr⟩)
    rw [hsame] at he
    exact hno entry he
  · rintro ⟨record, hd, hr⟩
    subst hd
    refine ⟨{ qualifiedName := record.getQualifiedNameAsString, record := record }, ?_⟩
    rw [JsonSerializationCodeGenerator.addDeclaration_relevant generator record
      (hname record rfl) hr]
  · intro record hd hr
    subst hd
    rw [JsonSerializationCodeGenerator.addDeclaration_relevant generator record
      (hname record rfl) hr]
  · intro record hd hb hl
    apply hnot
    rintro ⟨record', hd', hr⟩
    rw [hd] at hd'
    cases hd'
    rcases hr.2 with ⟨base, hm, hbn⟩ | hr
    · exact hb base hm hbn
    · exact hl hr
  · cases decl with
    | CXXRecord record =>
      by_cases hr : Spec.relevant generator.m_options record
      · rw [JsonSerializationCodeGenerator.addDeclaration_relevant generator record
          (hname record rfl) hr]
      · rw [JsonSerializationCodeGenerator.addDeclaration_not_relevant generator record hr]
    | Enum => rfl
    | Other => rfl

/-- Witness for C18: with `Derived` among the additional classes the visit of `Derived`
appends its entry to a catalogue that holds `Base`; without additional classes the visit
leaves the generator as it was, although `Base` derives from the marker type. -/
theorem relevance_rule_witness :
    ((∀ record, Decl.CXXRecord Example.Derived = .CXXRecord record →
        record.getQualifiedNameAsString ≠ "") ∧
      (JsonSerializationCodeGenerator.addDeclaration
          { m_options := Example.options,
            m_relevantClasses := [{ qualifiedName := "Base", record := Example.Base }] }
          (.CXXRecord Example.Derived)).m_relevantClasses =
        [{ qualifiedName := "Base", record := Example.Base },
         { qualifiedName := "Derived", record := Example.Derived }]) ∧
      JsonSerializationCodeGenerator.addDeclaration
          { m_options := Example.noOptions,
            m_relevantClasses := [{ qualifiedName := "Base", record := Example.Base }] }
          (.CXXRecord Example.Derived) =
        { m_options := Example.noOptions,
          m_relevantClasses := [{ qualifiedName := "Base", record := Example.Base }] } :=
  ⟨⟨fun record h => by cases h; decide,
    (relevance_rule
      { m_options := Example.options,
        m_relevantClasses := [{ qualifiedName := "Base", record := Example.Base }] }
      (.CXXRecord Example.Derived) (fun record h => by cases h; decide)).2.1
      Example.Derived rfl (by decide)⟩,
   (relevance_rule
      { m_options := Example.noOptions,
        m_relevantClasses := [{ qualifiedName := "Base", record := Example.Base }] }
      (.CXXRecord Example.Derived) (fun record h => by cases h; decide)).2.2.2.1
      Example.Derived rfl (by decide) (by decide)⟩

/-- A visit adds to the catalogue what the visit with the same options and an empty catalogue
yields. -/
theorem JsonSerializationCodeGenerator.addDeclaration_eq
    (generator : JsonSerializationCodeGenerator) (decl : Decl) :
    generator.addDeclaration decl =
      { m_options := generator.m_options,
        m_relevantClasses := generator.m_relevantClasses ++
          (JsonSerializationCodeGenerator.addDeclaration
            { m_options := generator.m_options, m_relevantClasses := [] }
            decl).m_relevantClasses } := by
  cases decl with
  | CXXRecord record =>
    have hq : JsonSerializationCodeGenerator.qualifiedNameIfRelevant
        { m_options := generator.m_options, m_relevantClasses := [] } record =
        generator.qualifiedNameIfRelevant record := rfl
    simp only [JsonSerializationCodeGenerator.addDeclaration, hq]
    cases record.hasDefinition
    · simp
    · cases (generator.qualifiedNameIfRelevant record).isEmpty
      · simp
      · simp
  | Enum => simp [JsonSerializationCodeGenerator.addDeclaration]
  | Other => simp [JsonSerializationCodeGenerator.addDeclaration]

/-- A visit leaves the catalogue as it was or appends one entry to it. -/
theorem JsonSerializationCodeGenerator.addDeclaration_step
    (generator : JsonSerializationCodeGenerator) (decl : Decl) :
    (generator.addDeclaration decl).m_relevantClasses = generator.m_relevantClasses ∨
      ∃ entry, (generator.addDeclaration decl).m_relevantClasses =
        generator.m_relevantClasses ++ [entry] := by
  cases decl with
  | CXXRecord record =>
    simp only [JsonSerializationCodeGenerator.addDeclaration]
    cases record.hasDefinition
    · simp
    · cases (generator.qualifiedNameIfRelevant record).isEmpty
      · exact Or.inr ⟨_, rfl⟩
      · simp
  | Enum => exact Or.inl rfl
  | Other => exact Or.inl rfl

theorem JsonSerializationCodeGenerator.addDeclaration_options
    (generator : JsonSerializationCodeGenerator) (decl : Decl) :
    (generator.addDeclaration decl).m_options = generator.m_options := by
  rw [JsonSerializationCodeGenerator.addDeclaration_eq]

/-- The catalogue after a pass is the catalogue before it, followed by what the visits
append one by one. -/
theorem JsonSerializationCodeGenerator.foldl_addDeclaration (decls : List Decl) :
    ∀ generator : JsonSerializationCodeGenerator,
      decls.foldl JsonSerializationCodeGenerator.addDeclaration generator =
        { m_options := generator.m_options,
          m_relevantClasses := generator.m_relevantClasses ++
            (decls.map (fun decl => (JsonSerializationCodeGenerator.addDeclaration
              { m_options := generator.m_options, m_relevantClasses := [] }
              decl).m_relevantClasses)).flatten } := by
  induction decls with
  | nil => intro generator; simp
  | cons decl rest ih =>
    intro generator
    rw [List.foldl_cons, ih, JsonSerializationCodeGenerator.addDeclaration_options]
    conv_lhs => rw [JsonSerializationCodeGenerator.addDeclaration_eq]
    simp [List.append_assoc]

/-- The visit of a declaration with the options and an empty catalogue yields the entry the
relevance rule gives, if the name of a record is not empty. -/
theorem JsonSerializationCodeGenerator.addDeclaration_catalogEntry (options : Options)
    (decl : Decl)
    (hname : ∀ record, decl = .CXXRecord record → record.getQualifiedNameAsString ≠ "") :
    (JsonSerializationCodeGenerator.addDeclaration
      { m_options := options, m_relevantClasses := [] } decl).m_relevantClasses =
      (Spec.catalogEntry options decl).toList := by
  cases decl with
  | CXXRecord record =>
    by_cases hr : Spec.relevant options record
    · rw [JsonSerializationCodeGenerator.addDeclaration_relevant _ record (hname record rfl) hr]
      simp [Spec.catalogEntry, hr]
    · rw [JsonSerializationCodeGenerator.addDeclaration_not_relevant _ record hr]
      simp [Spec.catalogEntry, hr]
  | Enum => rfl
  | Other => rfl

theorem JSONSerializationCodeGenerator.moc_addDeclaration_eq
    (generator : JSONSerializationCodeGenerator) (decl : Decl) :
    generator.addDeclaration decl =
      { m_relevantClasses := generator.m_relevantClasses ++
          (Spec.mocCatalogEntry decl).toList } := by
  cases decl with
  | CXXRecord record =>
    simp only [JSONSerializationCodeGenerator.addDeclaration, Spec.mocCatalogEntry,
      ← CodeGenerator.inheritsFromInstantiationOf_iff]
    cases record.hasDefinition
    · simp
    · cases CodeGenerator.inheritsFromInstantiationOf record JSONSerializable.qualifiedName
      · simp
      · simp
  | Enum => simp [JSONSerializationCodeGenerator.addDeclaration, Spec.mocCatalogEntry]
  | Other => simp [JSONSerializationCodeGenerator.addDeclaration, Spec.mocCatalogEntry]

theorem JSONSerializationCodeGenerator.moc_foldl_addDeclaration (decls : List Decl) :
    ∀ generator : JSONSerializationCodeGenerator,
      decls.foldl JSONSerializationCodeGenerator.addDeclaration generator =
        { m_relevantClasses := generator.m_relevantClasses ++
            decls.filterMap Spec.mocCatalogEntry } := by
  induction decls with
  | nil => intro generator; simp
  | cons decl rest ih =>
    intro generator
    rw [List.foldl_cons, ih, JSONSerializationCodeGenerator.moc_addDeclaration_eq]
    cases h : Spec.mocCatalogEntry decl <;> simp [List.filterMap_cons, h]

theorem flatten_map_toList {α β : Type} (f : α → Option β) (l : List α) :
    (l.map (fun a => (f a).toList)).flatten = l.filterMap f := by
  induction l with
  | nil => rfl
  | cons a rest ih =>
    cases h : f a <;> simp [List.filterMap_cons, h, ih]

/-- Claim C19: the discovery order. The declarations are visited one after the other; the
qualified name of no record among them is empty. Starting from an empty catalogue the
catalogue after the pass is the list of the entries of the relevant declarations, in the
order of the visits; starting from any catalogue the pass keeps what was there and appends
these entries behind it. Every single visit leaves the catalogue unchanged or appends one
entry at its end, and keeps the options, so the result is a function of the options and the
declarations alone. The same holds for the earlier generator in `moc` with its own marker
type. -/
theorem discovery_order (options : Options) (decls : List Decl)
    (hname : ∀ record, Decl.CXXRecord record ∈ decls →
      record.getQualifiedNameAsString ≠ "") :
    (decls.foldl JsonSerializationCodeGenerator.addDeclaration
        { m_options := options, m_relevantClasses := [] }).m_relevantClasses =
      decls.filterMap (Spec.catalogEntry options) ∧
    (∀ before : List RelevantClass,
      decls.foldl JsonSerializationCodeGenerator.addDeclaration
          { m_options := options, m_relevantClasses := before } =
        { m_options := options,
          m_relevantClasses := before ++ decls.filterMap (Spec.catalogEntry options) }) ∧
    (∀ (generator : JsonSerializationCodeGenerator) (decl : Decl),
      ((generator.addDeclaration decl).m_relevantClasses = generator.m_relevantClasses ∨
        ∃ entry, (generator.addDeclaration decl).m_relevantClasses =
          generator.m_relevantClasses ++ [entry]) ∧
      (generator.addDeclaration decl).m_options = generator.m_options) ∧
    (decls.foldl JSONSerializationCodeGenerator.addDeclaration
        { m_relevantClasses := [] }).m_relevantClasses =
      decls.filterMap Spec.mocCatalogEntry ∧
    (∀ before : List RelevantClass,
      decls.foldl JSONSerializationCodeGenerator.addDeclaration
          { m_relevantClasses := before } =
        { m_relevantClasses := before ++ decls.filterMap Spec.mocCatalogEntry }) ∧
    (∀ (generator : JSONSerializationCodeGenerator) (decl : Decl),
      (generator.addDeclaration decl).m_relevantClasses = generator.m_relevantClasses ∨
        ∃ entry, (generator.addDeclaration decl).m_relevantClasses =
          generator.m_relevantClasses ++ [entry]) := by
  have hmap : (decls.map (fun decl => (JsonSerializationCodeGenerator.addDeclaration
      { m_options := options, m_relevantClasses := [] } decl).m_relevantClasses)) =
      decls.map (fun decl => (Spec.catalogEntry options decl).toList) := by
    apply List.map_congr_left
    intro decl hd
    exact JsonSerializationCodeGenerator.addDeclaration_catalogEntry options decl
      (fun record h => hname record (h ▸ hd))
  have hall : ∀ before : List RelevantClass,
      decls.foldl JsonSerializationCodeGenerator.addDeclaration
          { m_options := options, m_relevantClasses := before } =
        { m_options := options,
          m_relevantClasses := before ++ decls.filterMap (Spec.catalogEntry options) } := by
    intro before
    rw [JsonSerializationCodeGenerator.foldl_addDeclaration]
    simp only [hmap, flatten_map_toList]
  refine ⟨?_, hall, ?_, ?_, ?_, ?_⟩
  · rw [hall]; simp
  · intro generator decl
    exact ⟨JsonSerializationCodeGenerator.addDeclaration_step generator decl,
      JsonSerializationCodeGenerator.addDeclaration_options generator decl⟩
  · rw [JSONSerializationCodeGenerator.moc_foldl_addDeclaration]; simp
  · intro before
    rw [JSONSerializationCodeGenerator.moc_foldl_addDeclaration]
  · intro generator decl
    rw [JSONSerializationCodeGenerator.moc_addDeclaration_eq]
    cases h : Spec.mocCatalogEntry decl with
    | none => exact Or.inl (by simp)
    | some entry => exact Or.inr ⟨entry, by simp⟩

/-- Witness for C19: the pass over the declarations of the example, among them a forward
declaration, an enumeration and a class that is not relevant, yields the catalogue with
`Base`, `Derived` and `Leaf` in the order of their declarations. -/
theorem discovery_order_witness :
    (∀ record, Decl.CXXRecord record ∈ Example.declarations →
      record.getQualifiedNameAsString ≠ "") ∧
    (Example.declarations.foldl JsonSerializationCodeGenerator.addDeclaration
        { m_options := Example.options, m_relevantClasses := [] }).m_relevantClasses =
      Example.catalogue :=
  have hname : ∀ record, Decl.CXXRecord record ∈ Example.declarations →
      record.getQualifiedNameAsString ≠ "" := by
    intro record h
    simp only [Example.declarations, List.mem_cons, Decl.CXXRecord.injEq, List.mem_nil_iff,
      or_false, reduceCtorEq, false_or] at h
    rcases h with rfl | rfl | rfl | rfl | rfl <;> decide
  ⟨hname, (discovery_order Example.options Example.declarations hname).1.trans (by decide)⟩

/-! ## The text written by `generate` -/

theorem foldl_append_string (l : List String) :
    ∀ init : String, l.foldl (fun r s => r ++ s) init =
      init ++ l.foldl (fun r s => r ++ s) "" := by
  induction l with
  | nil => intro init; simp
  | cons a rest ih =>
    intro init
    rw [List.foldl_cons, List.foldl_cons, ih (init ++ a), ih ("" ++ a)]
    simp [String.append_assoc]

theorem string_join_cons (a : String) (l : List String) :
    String.join (a :: l) = a ++ String.join l := by
  show (a :: l).foldl (fun r s => r ++ s) "" = a ++ l.foldl (fun r s => r ++ s) ""
  rw [List.foldl_cons, foldl_append_string]
  simp

theorem string_join_append (l₁ l₂ : List String) :
    String.join (l₁ ++ l₂) = String.join l₁ ++ String.join l₂ := by
  induction l₁ with
  | nil => simp [String.join]
  | cons a rest ih => simp [string_join_cons, ih, String.append_assoc]

/-- A loop that appends to the stream a text for every item appends the texts in the order
of the items. -/
theorem foldl_stream {α : Type} (step : String → α → String) (f : α → String)
    (h : ∀ os x, step os x = os ++ f x) (l : List α) :
    ∀ os : String, l.foldl step os = os ++ String.join (l.map f) := by
  induction l with
  | nil => intro os; simp [String.join]
  | cons a rest ih =>
    intro os
    rw [List.foldl_cons, ih, h, List.map_cons, string_join_cons, String.append_assoc]

theorem JsonSerializationCodeGenerator.printPushMethod_eq (relevantBases : List RelevantClass)
    (relevantClass : RelevantClass) (os : String) :
    JsonSerializationCodeGenerator.printPushMethod relevantBases relevantClass os =
      os ++ ("template <> inline void push<::" ++ relevantClass.qualifiedName ++
        ">(const ::" ++ relevantClass.qualifiedName ++
        " &reflectable, ::RAPIDJSON_NAMESPACE::Value::Object &value, ::RAPIDJSON_NAMESPACE::Document::AllocatorType &allocator)\n\x7b\n" ++
        "    // push base classes\n" ++
        String.join (relevantBases.map (fun baseClass =>
          (Statement.pushBase baseClass).text)) ++
        "    // push members\n" ++
        String.join (relevantClass.record.fields.map (fun field =>
          (Statement.pushField field).text)) ++
        "\x7d\n") := by
  unfold JsonSerializationCodeGenerator.printPushMethod
  simp only []
  rw [foldl_stream _ (fun baseClass => (Statement.pushBase baseClass).text)
      (fun os x => by simp only [Statement.text, String.append_assoc]),
    foldl_stream _ (fun field => (Statement.pushField field).text)
      (fun os x => by simp only [Statement.text, String.append_assoc])]
  simp only [String.append_assoc]

theorem JsonSerializationCodeGenerator.printPullMethod_eq (relevantBases : List RelevantClass)
    (relevantClass : RelevantClass) (os : String) :
    JsonSerializationCodeGenerator.printPullMethod relevantBases relevantClass os =
      os ++ ("template <> inline void pull<::" ++ relevantClass.qualifiedName ++
        ">(::" ++ relevantClass.qualifiedName ++
        " &reflectable, const ::RAPIDJSON_NAMESPACE::GenericValue<::RAPIDJSON_NAMESPACE::UTF8<char>>::ConstObject &value, " ++
        "JsonDeserializationErrors " ++
        "*errors)\n\x7b\n" ++
        "    // pull base classes\n" ++
        String.join (relevantBases.map (fun baseClass =>
          (Statement.pullBase baseClass).text)) ++
        "    // set error context for current record\n" ++
        (Statement.setRecord relevantClass.qualifiedName).text ++
        "    // pull members\n" ++
        String.join (relevantClass.record.fields.map (fun field =>
          (Statement.pullField field).text)) ++
        "    // restore error context for previous record\n" ++
        Statement.restoreRecord.text ++
        "\x7d\n\n") := by
  unfold JsonSerializationCodeGenerator.printPullMethod
  simp only []
  rw [foldl_stream _ (fun baseClass => (Statement.pullBase baseClass).text)
      (fun os x => by simp only [Statement.text, String.append_assoc]),
    foldl_stream _ (fun field => (Statement.pullField field).text)
      (fun os x => by simp only [Statement.text, String.append_assoc])]
  simp only [Statement.text, String.append_assoc]

theorem JsonSerializationCodeGenerator.generateClass_eq
    (generator : JsonSerializationCodeGenerator) (os : String)
    (relevantClass : RelevantClass) :
    generator.generateClass os relevantClass =
      os ++ generator.generateClass "" relevantClass := by
  unfold JsonSerializationCodeGenerator.generateClass
  simp only []
  rw [JsonSerializationCodeGenerator.printPullMethod_eq,
    JsonSerializationCodeGenerator.printPushMethod_eq,
    JsonSerializationCodeGenerator.printPullMethod_eq _ _
      (JsonSerializationCodeGenerator.printPushMethod _ _ _),
    JsonSerializationCodeGenerator.printPushMethod_eq _ _ ("" ++ _ ++ _ ++ _)]
  simp only [String.append_assoc, String.empty_append]

theorem JSONSerializationCodeGenerator.moc_printPushMethod_eq (relevantClass : RelevantClass)
    (os : String) :
    JSONSerializationCodeGenerator.printPushMethod relevantClass os =
      os ++ ("template <> inline void push<::" ++ relevantClass.qualifiedName ++
        ">(const ::" ++ relevantClass.qualifiedName ++
        " &reflectable, ::RAPIDJSON_NAMESPACE::Value::Object &value, ::RAPIDJSON_NAMESPACE::Document::AllocatorType &allocator)\n\x7b\n" ++
        String.join (relevantClass.record.fields.map (fun field =>
          (Statement.pushField field).text)) ++
        "\x7d\n") := by
  unfold JSONSerializationCodeGenerator.printPushMethod
  simp only []
  rw [foldl_stream _ (fun field => (Statement.pushField field).text)
      (fun os x => by simp only [Statement.text, String.append_assoc])]
  simp only [String.append_assoc]

theorem JSONSerializationCodeGenerator.moc_printPullMethod_eq (relevantClass : RelevantClass)
    (os : String) :
    JSONSerializationCodeGenerator.printPullMethod relevantClass os =
      os ++ ("template <> inline void pull<::" ++ relevantClass.qualifiedName ++
        ">(::" ++ relevantClass.qualifiedName ++
        " &reflectable, const ::RAPIDJSON_NAMESPACE::GenericValue<::RAPIDJSON_NAMESPACE::UTF8<char>>::ConstObject &value)\n\x7b\n" ++
        String.join (relevantClass.record.fields.map (fun field =>
          "    pull(reflectable." ++ field.name ++ ", \"" ++ field.name ++
            "\", value);\n")) ++
        "\x7d\n\n") := by
  unfold JSONSerializationCodeGenerator.printPullMethod
  simp only []
  rw [foldl_stream _ (fun (field : FieldDecl) =>
        "    pull(reflectable." ++ field.name ++ ", \"" ++ field.name ++ "\", value);\n")
      (fun os x => by simp only [String.append_assoc])]
  simp only [String.append_assoc]

theorem JSONSerializationCodeGenerator.moc_generateClass_eq (os : String)
    (relevantClass : RelevantClass) :
    JSONSerializationCodeGenerator.generateClass os relevantClass =
      os ++ JSONSerializationCodeGenerator.generateClass "" relevantClass := by
  unfold JSONSerializationCodeGenerator.generateClass
  simp only []
  rw [JSONSerializationCodeGenerator.moc_printPullMethod_eq,
    JSONSerializationCodeGenerator.moc_printPushMethod_eq,
    JSONSerializationCodeGenerator.moc_printPullMethod_eq _
      (JSONSerializationCodeGenerator.printPushMethod _ _),
    JSONSerializationCodeGenerator.moc_printPushMethod_eq _ ""]
  simp only [String.append_assoc, String.empty_append]

/-- Claim C20: the structure of the output. `generate` leaves the stream as it was exactly
if the catalogue is empty. For a catalogue with at least one entry the stream afterwards is
the stream before, followed by the opening of the two namespaces, one block for every entry
of the catalogue in the order of the catalogue, and the closing of the namespaces. The block
of an entry is a comment line with its qualified name, then the `push` specialisation for
that name (its head, the calls for the relevant base classes, the calls for the fields, the
closing brace) and then the `pull` specialisation for that name. The earlier generator in
`moc` writes in the same way a block of one `push` and one `pull` specialisation for every
entry, without comment lines and without calls for base classes. -/
theorem emission_structure (generator : JsonSerializationCodeGenerator) (options : Options)
    (moc : JSONSerializationCodeGenerator) (first : RelevantClass)
    (rest : List RelevantClass) (relevantBases : List RelevantClass)
    (relevantClass : RelevantClass) (os : String) :
    (generator.generate os = os ↔ generator.m_relevantClasses = []) ∧
    JsonSerializationCodeGenerator.generate
        { m_options := options, m_relevantClasses := first :: rest } os =
      os ++ "namespace ReflectiveRapidJSON \x7b\n" ++ "namespace JsonReflector \x7b\n\n" ++
        String.join ((first :: rest).map (fun entry =>
          JsonSerializationCodeGenerator.generateClass
            { m_options := options, m_relevantClasses := first :: rest } "" entry)) ++
        "\x7d // namespace JsonReflector\n" ++ "\x7d // namespace ReflectiveRapidJSON\n" ∧
    generator.generateClass "" relevantClass =
      "// define code for (de)serializing " ++ relevantClass.qualifiedName ++ " objects\n" ++
        JsonSerializationCodeGenerator.printPushMethod
          (findRelevantBaseClasses generator.m_relevantClasses relevantClass)
          relevantClass "" ++
        JsonSerializationCodeGenerator.printPullMethod
          (findRelevantBaseClasses generator.m_relevantClasses relevantClass)
          relevantClass "" ∧
    JsonSerializationCodeGenerator.printPushMethod relevantBases relevantClass "" =
      "template <> inline void push<::" ++ relevantClass.qualifiedName ++
        ">(const ::" ++ relevantClass.qualifiedName ++
        " &reflectable, ::RAPIDJSON_NAMESPACE::Value::Object &value, ::RAPIDJSON_NAMESPACE::Document::AllocatorType &allocator)\n\x7b\n" ++
        "    // push base classes\n" ++
        String.join (relevantBases.map (fun baseClass =>
          (Statement.pushBase baseClass).text)) ++
        "    // push members\n" ++
        String.join (relevantClass.record.fields.map (fun field =>
          (Statement.pushField field).text)) ++
        "\x7d\n" ∧
    JsonSerializationCodeGenerator.printPullMethod relevantBases relevantClass "" =
      "template <> inline void pull<::" ++ relevantClass.qualifiedName ++
        ">(::" ++ relevantClass.qualifiedName ++
        " &reflectable, const ::RAPIDJSON_NAMESPACE::GenericValue<::RAPIDJSON_NAMESPACE::UTF8<char>>::ConstObject &value, " ++
        "JsonDeserializationErrors " ++
        "*errors)\n\x7b\n" ++
        "    // pull base classes\n" ++
        String.join (relevantBases.map (fun baseClass =>
          (Statement.pullBase baseClass).text)) ++
        "    // set error context for current record\n" ++
        (Statement.setRecord relevantClass.qualifiedName).text ++
        "    // pull members\n" ++
        String.join (relevantClass.record.fields.map (fun field =>
          (Statement.pullField field).text)) ++
        "    // restore error context for previous record\n" ++
        Statement.restoreRecord.text ++
        "\x7d\n\n" ∧
    (moc.generate os = os ↔ moc.m_relevantClasses = []) ∧
    JSONSerializationCodeGenerator.generate { m_relevantClasses := first :: rest } os =
      os ++ "namespace ReflectiveRapidJSON \x7b\n" ++ "namespace Reflector \x7b\n\n" ++
        String.join ((first :: rest).map (fun entry =>
          JSONSerializationCodeGenerator.generateClass "" entry)) ++
        "\x7d // namespace Reflector\n" ++ "\x7d // namespace ReflectiveRapidJSON\n" ∧
    JSONSerializationCodeGenerator.generateClass "" relevantClass =
      JSONSerializationCodeGenerator.printPushMethod relevantClass "" ++
        JSONSerializationCodeGenerator.printPullMethod relevantClass "" ∧
    JSONSerializationCodeGenerator.printPushMethod relevantClass "" =
      "template <> inline void push<::" ++ relevantClass.qualifiedName ++
        ">(const ::" ++ relevantClass.qualifiedName ++
        " &reflectable, ::RAPIDJSON_NAMESPACE::Value::Object &value, ::RAPIDJSON_NAMESPACE::Document::AllocatorType &allocator)\n\x7b\n" ++
        String.join (relevantClass.record.fields.map (fun field =>
          (Statement.pushField field).text)) ++
        "\x7d\n" ∧
    JSONSerializationCodeGenerator.printPullMethod relevantClass "" =
      "template <> inline void pull<::" ++ relevantClass.qualifiedName ++
        ">(::" ++ relevantClass.qualifiedName ++
        " &reflectable, const ::RAPIDJSON_NAMESPACE::GenericValue<::RAPIDJSON_NAMESPACE::UTF8<char>>::ConstObject &value)\n\x7b\n" ++
        String.join (relevantClass.record.fields.map (fun field =>
          "    pull(reflectable." ++ field.name ++ ", \"" ++ field.name ++
            "\", value);\n")) ++
        "\x7d\n\n" := by
  have hgen : ∀ (options : Options) (first : RelevantClass) (rest : List RelevantClass),
      JsonSerializationCodeGenerator.generate
          { m_options := options, m_relevantClasses := first :: rest } os =
        os ++ "namespace ReflectiveRapidJSON \x7b\n" ++ "namespace JsonReflector \x7b\n\n" ++
          String.join ((first :: rest).map (fun entry =>
            JsonSerializationCodeGenerator.generateClass
              { m_options := options, m_relevantClasses := first :: rest } "" entry)) ++
          "\x7d // namespace JsonReflector\n" ++
          "\x7d // namespace ReflectiveRapidJSON\n" := by
    intro options first rest
    unfold JsonSerializationCodeGenerator.generate
    simp only [List.isEmpty_cons, Bool.false_eq_true, if_false]
    rw [foldl_stream _ _ (fun os x =>
      JsonSerializationCodeGenerator.generateClass_eq _ os x)]
  have hmoc : ∀ (first : RelevantClass) (rest : List RelevantClass),
      JSONSerializationCodeGenerator.generate { m_relevantClasses := first :: rest } os =
        os ++ "namespace ReflectiveRapidJSON \x7b\n" ++ "namespace Reflector \x7b\n\n" ++
          String.join ((first :: rest).map (fun entry =>
            JSONSerializationCodeGenerator.generateClass "" entry)) ++
          "\x7d // namespace Reflector\n" ++ "\x7d // namespace ReflectiveRapidJSON\n" := by
    intro first rest
    unfold JSONSerializationCodeGenerator.generate
    simp only [List.isEmpty_cons, Bool.false_eq_true, if_false]
    rw [foldl_stream _ _ (fun os x => JSONSerializationCodeGenerator.moc_generateClass_eq os x)]
  refine ⟨⟨?_, ?_⟩, hgen options first rest, ?_, ?_, ?_, ⟨?_, ?_⟩, hmoc first rest, ?_, ?_, ?_⟩
  · intro h
    obtain ⟨opts, classes⟩ := generator
    cases classes with
    | nil => rfl
    | cons c cs =>
      rw [hgen opts c cs] at h
      have hl := congrArg String.length h
      simp only [String.length_append] at hl
      have hc : 0 < ("\x7d // namespace ReflectiveRapidJSON\n").length := by decide
      omega
  · intro h
    simp [JsonSerializationCodeGenerator.generate, h]
  · unfold JsonSerializationCodeGenerator.generateClass
    simp only []
    simp only [JsonSerializationCodeGenerator.printPullMethod_eq,
      JsonSerializationCodeGenerator.printPushMethod_eq, String.append_assoc,
      String.empty_append]
  · rw [JsonSerializationCodeGenerator.printPushMethod_eq, String.empty_append]
  · rw [JsonSerializationCodeGenerator.printPullMethod_eq, String.empty_append]
  · intro h
    obtain ⟨classes⟩ := moc
    cases classes with
    | nil => rfl
    | cons c cs =>
      rw [hmoc c cs] at h
      have hl := congrArg String.length h
      simp only [String.length_append] at hl
      have hc : 0 < ("\x7d // namespace ReflectiveRapidJSON\n").length := by decide
      omega
  · intro h
    simp [JSONSerializationCodeGenerator.generate, h]
  · unfold JSONSerializationCodeGenerator.generateClass
    simp only []
    simp only [JSONSerializationCodeGenerator.moc_printPullMethod_eq,
      JSONSerializationCodeGenerator.moc_printPushMethod_eq, String.append_assoc,
      String.empty_append]
  · rw [JSONSerializationCodeGenerator.moc_printPushMethod_eq, String.empty_append]
  · rw [JSONSerializationCodeGenerator.moc_printPullMethod_eq, String.empty_append]

/-! ## The bodies of the emitted procedures -/

theorem generatePush_take (cat : List RelevantClass) (rc : RelevantClass) :
    (generatePush cat rc).take (findRelevantBaseClasses cat rc).length =
      (findRelevantBaseClasses cat rc).map Statement.pushBase := by
  unfold generatePush
  rw [List.take_append_eq_append_take]
  simp

theorem generatePush_drop (cat : List RelevantClass) (rc : RelevantClass) :
    (generatePush cat rc).drop (findRelevantBaseClasses cat rc).length =
      rc.record.fields.map Statement.pushField := by
  unfold generatePush
  rw [List.drop_append_eq_append_drop]
  simp

/-- In a list of base class calls followed by member statements no base class call comes
after a member statement. -/
theorem no_base_after_member {σ : Type} (isBase : σ → Prop) (calls members pre post : List σ)
    (s : σ) (hcalls : ∀ x ∈ calls, isBase x) (hmembers : ∀ x ∈ members, ¬ isBase x)
    (hs : ¬ isBase s) (h : calls ++ members = pre ++ s :: post) :
    ∀ x ∈ post, ¬ isBase x := by
  rcases List.append_eq_append_iff.mp h with ⟨a, ha, hb⟩ | ⟨c, hc, hd⟩
  · intro x hx
    apply hmembers
    rw [hb]
    exact List.mem_append_right _ (List.mem_cons_of_mem _ hx)
  · cases c with
    | nil =>
      intro x hx
      apply hmembers
      rw [List.nil_append] at hd
      rw [← hd]
      exact List.mem_cons_of_mem _ hx
    | cons y c =>
      rw [List.cons_append] at hd
      have hy : y = s := (List.cons.inj hd).1.symm
      exact absurd (hcalls y (by rw [hc]; simp)) (by rw [hy]; exact hs)

/-- Claim C21: the body of the emitted `push` specialisation. The text written for an entry
of the catalogue is the head for its qualified name, the comment for the base classes, one
line `push(static_cast<const ::Base &>(reflectable), value, allocator);` for every relevant
base class in the order of `findRelevantBaseClasses`, the comment for the members, one line
`push(reflectable.field, "field", value, allocator);` for every data member in the order of
the declaration, and the closing brace. These lines are the texts of the statements of
`generatePush`, as many as there are relevant base classes and data members, and no base class
call comes after a member statement. A base class call runs the specialisation of the base
class on the same object with the same container; a member statement pushes the data member
under its own name; so the specialisation, when run, makes the base class calls in order and
then pushes the data members in order. -/
theorem emitted_push_body (generator : JsonSerializationCodeGenerator)
    (relevantClass : RelevantClass) (baseClass : RelevantClass) (field : FieldDecl)
    (callBase : RelevantClass → Reflectable → Object → Object) (self : CXXRecordDecl)
    (reflectable : Reflectable) (value : Object) :
    JsonSerializationCodeGenerator.printPushMethod
        (findRelevantBaseClasses generator.m_relevantClasses relevantClass)
        relevantClass "" =
      "template <> inline void push<::" ++ relevantClass.qualifiedName ++
        ">(const ::" ++ relevantClass.qualifiedName ++
        " &reflectable, ::RAPIDJSON_NAMESPACE::Value::Object &value, ::RAPIDJSON_NAMESPACE::Document::AllocatorType &allocator)\n\x7b\n" ++
        "    // push base classes\n" ++
        String.join ((findRelevantBaseClasses generator.m_relevantClasses relevantClass).map
          (fun base => "    push(static_cast<const ::" ++ base.qualifiedName ++
            " &>(reflectable), value, allocator);\n")) ++
        "    // push members\n" ++
        String.join (relevantClass.record.fields.map (fun member =>
          "    push(reflectable." ++ member.name ++ ", \"" ++ member.name ++
            "\", value, allocator);\n")) ++
        "\x7d\n" ∧
    JsonSerializationCodeGenerator.printPushMethod
        (findRelevantBaseClasses generator.m_relevantClasses relevantClass)
        relevantClass "" =
      "template <> inline void push<::" ++ relevantClass.qualifiedName ++
        ">(const ::" ++ relevantClass.qualifiedName ++
        " &reflectable, ::RAPIDJSON_NAMESPACE::Value::Object &value, ::RAPIDJSON_NAMESPACE::Document::AllocatorType &allocator)\n\x7b\n" ++
        "    // push base classes\n" ++
        String.join (((generatePush generator.m_relevantClasses relevantClass).take
          (findRelevantBaseClasses generator.m_relevantClasses relevantClass).length).map
            Statement.text) ++
        "    // push members\n" ++
        String.join (((generatePush generator.m_relevantClasses relevantClass).drop
          (findRelevantBaseClasses generator.m_relevantClasses relevantClass).length).map
            Statement.text) ++
        "\x7d\n" ∧
    generatePush generator.m_relevantClasses relevantClass =
      (findRelevantBaseClasses generator.m_relevantClasses relevantClass).map
          Statement.pushBase ++
        relevantClass.record.fields.map Statement.pushField ∧
    (generatePush generator.m_relevantClasses relevantClass).length =
      (findRelevantBaseClasses generator.m_relevantClasses relevantClass).length +
        relevantClass.record.fields.length ∧
    (∀ (pre post : List Statement) (member : FieldDecl),
      generatePush generator.m_relevantClasses relevantClass =
        pre ++ Statement.pushField member :: post →
      ∀ base, Statement.pushBase base ∉ post) ∧
    (Statement.pushBase baseClass).text =
      "    push(static_cast<const ::" ++ baseClass.qualifiedName ++
        " &>(reflectable), value, allocator);\n" ∧
    (Statement.pushField field).text =
      "    push(reflectable." ++ field.name ++ ", \"" ++ field.name ++
        "\", value, allocator);\n" ∧
    execPush callBase self reflectable (.pushBase baseClass) value =
      callBase baseClass reflectable value ∧
    execPush callBase self reflectable (.pushField field) value =
      pushMember field.type (reflectable.getField self field) field.name value ∧
    pushRecord generator.m_relevantClasses relevantClass reflectable value =
      pushFields relevantClass.record reflectable relevantClass.record.fields
        (pushBases (pushRecord generator.m_relevantClasses) reflectable
          (findRelevantBaseClasses generator.m_relevantClasses relevantClass) value) := by
  refine ⟨?_, ?_, rfl, ?_, ?_, rfl, rfl, rfl, rfl, pushRecord_eq _ _ _ _⟩
  · rw [JsonSerializationCodeGenerator.printPushMethod_eq, String.empty_append]
    simp only [Statement.text]
  · rw [JsonSerializationCodeGenerator.printPushMethod_eq, String.empty_append,
      generatePush_take, generatePush_drop, List.map_map, List.map_map]
    rfl
  · simp [generatePush]
  · intro pre post member h base hmem
    exact no_base_after_member (fun s => ∃ b, s = Statement.pushBase b) _ _ pre post
      (Statement.pushField member)
      (fun x hx => by
        obtain ⟨b, _, hb⟩ := List.mem_map.mp hx
        exact ⟨b, hb.symm⟩)
      (fun x hx => by
        obtain ⟨f, _, hf⟩ := List.mem_map.mp hx
        rintro ⟨b, hb⟩
        rw [← hf] at hb
        cases hb)
      (by rintro ⟨b, hb⟩; cases hb) h (Statement.pushBase base) hmem ⟨base, rfl⟩

/-- The statement that sets the record name occurs once in a generated `pull` body: before it
stand the base class calls, after it the member statements and the statement that restores
the record name. -/
theorem generatePull_split (cat : List RelevantClass) (rc : RelevantClass)
    (pre post : List Statement) (q : String)
    (h : generatePull cat rc = pre ++ Statement.setRecord q :: post) :
    pre = (findRelevantBaseClasses cat rc).map Statement.pullBase ∧ q = rc.qualifiedName ∧
      post = rc.record.fields.map Statement.pullField ++ [Statement.restoreRecord] := by
  have hA : ∀ x ∈ (findRelevantBaseClasses cat rc).map Statement.pullBase,
      x ≠ Statement.setRecord q := by
    intro x hx hq
    obtain ⟨b, _, hb⟩ := List.mem_map.mp hx
    rw [hq] at hb
    cases hb
  have hF : ∀ x ∈ rc.record.fields.map Statement.pullField ++ [Statement.restoreRecord],
      x ≠ Statement.setRecord q := by
    intro x hx hq
    rcases List.mem_append.mp hx with hx | hx
    · obtain ⟨f, _, hf⟩ := List.mem_map.mp hx
      rw [hq] at hf
      cases hf
    · rw [List.mem_singleton] at hx
      rw [hq] at hx
      cases hx
  have hg : generatePull cat rc =
      (findRelevantBaseClasses cat rc).map Statement.pullBase ++
        Statement.setRecord rc.qualifiedName ::
          (rc.record.fields.map Statement.pullField ++ [Statement.restoreRecord]) := by
    simp [generatePull]
  rw [hg] at h
  rcases List.append_eq_append_iff.mp h with ⟨a, ha, hb⟩ | ⟨c, hc, hd⟩
  · cases a with
    | nil =>
      rw [List.nil_append] at hb
      rw [List.append_nil] at ha
      have h1 := List.cons.inj hb
      have h2 : rc.qualifiedName = q := by
        have := h1.1
        cases this
        rfl
      exact ⟨ha, h2.symm, h1.2.symm⟩
    | cons x a =>
      rw [List.cons_append] at hb
      have h1 := List.cons.inj hb
      exact absurd rfl (hF (Statement.setRecord q) (by rw [h1.2]; simp))
  · cases c with
    | nil =>
      rw [List.nil_append] at hd
      rw [List.append_nil] at hc
      have h1 := List.cons.inj hd
      have h2 : rc.qualifiedName = q := by
        have := h1.1
        cases this
        rfl
      exact ⟨hc.symm, h2.symm, h1.2⟩
    | cons y c =>
      rw [List.cons_append] at hd
      have h1 := List.cons.inj hd
      exact absurd rfl (hA (Statement.setRecord q) (by rw [hc, ← h1.1]; simp))

/-- Counterexample for C22: in the `pull` specialisation written for `Derived`, whose relevant
base class is `Base`, the call for `Base` is the first statement and the statement that sets
the record name to `Derived` is the second; the call does not lie between the statement that
sets the record name and the one that restores it. -/
theorem emitted_pull_ordering_counterexample :
    findRelevantBaseClasses Example.catalogue
        { qualifiedName := "Derived", record := Example.Derived } =
      [{ qualifiedName := "Base", record := Example.Base }] ∧
    generatePull Example.catalogue { qualifiedName := "Derived", record := Example.Derived } =
      [.pullBase { qualifiedName := "Base", record := Example.Base },
       .setRecord "Derived",
       .pullField { name := "b", type := .string },
       .restoreRecord] ∧
    JsonSerializationCodeGenerator.printPullMethod
        (findRelevantBaseClasses Example.catalogue
          { qualifiedName := "Derived", record := Example.Derived })
        { qualifiedName := "Derived", record := Example.Derived } "" =
      "template <> inline void pull<::" ++ "Derived" ++ ">(::" ++ "Derived" ++
        " &reflectable, const ::RAPIDJSON_NAMESPACE::GenericValue<::RAPIDJSON_NAMESPACE::UTF8<char>>::ConstObject &value, " ++
        "JsonDeserializationErrors " ++
        "*errors)\n\x7b\n" ++
        "    // pull base classes\n" ++
        ("    pull(static_cast<::" ++ "Base" ++ " &>(reflectable), value, errors);\n") ++
        "    // set error context for current record\n" ++
        ("    const char *previousRecord;\n" ++
         "    if (errors) \x7b\n" ++
         "        previousRecord = errors->currentRecord;\n" ++
         "        errors->currentRecord = \"" ++ "Derived" ++ "\";\n" ++
         "    \x7d\n") ++
        "    // pull members\n" ++
        ("    pull(reflectable." ++ "b" ++ ", \"" ++ "b" ++ "\", value, errors);\n") ++
        "    // restore error context for previous record\n" ++
        ("    if (errors) \x7b\n" ++
         "        errors->currentRecord = previousRecord;\n" ++
         "    \x7d\n") ++
        "\x7d\n\n" ∧
    ¬ ∃ pre mid post,
      generatePull Example.catalogue
          { qualifiedName := "Derived", record := Example.Derived } =
        pre ++ Statement.setRecord "Derived" :: (mid ++ Statement.restoreRecord :: post) ∧
      Statement.pullBase { qualifiedName := "Base", record := Example.Base } ∈ mid := by
  have hb : findRelevantBaseClasses Example.catalogue
      { qualifiedName := "Derived", record := Example.Derived } =
      [{ qualifiedName := "Base", record := Example.Base }] := by decide
  refine ⟨hb, by decide, ?_, ?_⟩
  · rw [hb, JsonSerializationCodeGenerator.printPullMethod_eq]
    simp only [Example.Derived, CXXRecordDecl.fields, List.map_cons, List.map_nil,
      string_join_cons, Statement.text, String.append_assoc, String.empty_append,
      String.append_empty]
    rfl
  · rintro ⟨pre, mid, post, h, hmem⟩
    have hs := (generatePull_split _ _ pre _ _ h).2.2
    have hm : Statement.pullBase { qualifiedName := "Base", record := Example.Base } ∈
        List.map Statement.pullField
          (RelevantClass.record
            { qualifiedName := "Derived", record := Example.Derived }).fields ++
          [Statement.restoreRecord] := by
      rw [← hs]
      exact List.mem_append_left _ hmem
    revert hm
    decide

/-- Claim C22, amended: the body of the emitted `pull` specialisation. The text written for an
entry of the catalogue is the head for its qualified name, the comment for the base classes,
one line `pull(static_cast<::Base &>(reflectable), value, errors);` for every relevant base
class in the order of `findRelevantBaseClasses`, then the lines that save the current record
name and set it to the qualified name of the entry, then one line
`pull(reflectable.field, "field", value, errors);` for every data member in the order of the
declaration, then the lines that restore the saved record name, and the closing brace. So the
base class calls come first, before the record name is set; the member statements lie between
the statement that sets the record name and the one that restores it; and wherever the body
is split at a statement that sets a record name, the part before is the list of the base class
calls and the part after holds the member statements and the restoring statement only. When
run, the specialisation makes the base class calls, sets the record name, pulls the data
members and restores the record name, in this order. -/
theorem emitted_pull_ordering_amended (generator : JsonSerializationCodeGenerator)
    (relevantClass : RelevantClass) (reflectable : Reflectable) (value : Object)
    (errors : Option JsonDeserializationErrors) :
    JsonSerializationCodeGenerator.printPullMethod
        (findRelevantBaseClasses generator.m_relevantClasses relevantClass)
        relevantClass "" =
      "template <> inline void pull<::" ++ relevantClass.qualifiedName ++
        ">(::" ++ relevantClass.qualifiedName ++
        " &reflectable, const ::RAPIDJSON_NAMESPACE::GenericValue<::RAPIDJSON_NAMESPACE::UTF8<char>>::ConstObject &value, " ++
        "JsonDeserializationErrors " ++
        "*errors)\n\x7b\n" ++
        "    // pull base classes\n" ++
        String.join ((findRelevantBaseClasses generator.m_relevantClasses relevantClass).map
          (fun base => "    pull(static_cast<::" ++ base.qualifiedName ++
            " &>(reflectable), value, errors);\n")) ++
        "    // set error context for current record\n" ++
        ("    const char *previousRecord;\n" ++
         "    if (errors) \x7b\n" ++
         "        previousRecord = errors->currentRecord;\n" ++
         "        errors->currentRecord = \"" ++ relevantClass.qualifiedName ++ "\";\n" ++
         "    \x7d\n") ++
        "    // pull members\n" ++
        String.join (relevantClass.record.fields.map (fun member =>
          "    pull(reflectable." ++ member.name ++ ", \"" ++ member.name ++
            "\", value, errors);\n")) ++
        "    // restore error context for previous record\n" ++
        ("    if (errors) \x7b\n" ++
         "        errors->currentRecord = previousRecord;\n" ++
         "    \x7d\n") ++
        "\x7d\n\n" ∧
    generatePull generator.m_relevantClasses relevantClass =
      (findRelevantBaseClasses generator.m_relevantClasses relevantClass).map
          Statement.pullBase ++
        [Statement.setRecord relevantClass.qualifiedName] ++
        relevantClass.record.fields.map Statement.pullField ++
        [Statement.restoreRecord] ∧
    (∀ (pre post : List Statement) (name : String),
      generatePull generator.m_relevantClasses relevantClass =
        pre ++ Statement.setRecord name :: post →
      pre = (findRelevantBaseClasses generator.m_relevantClasses relevantClass).map
          Statement.pullBase ∧
        name = relevantClass.qualifiedName ∧
        post = relevantClass.record.fields.map Statement.pullField ++
          [Statement.restoreRecord] ∧
        ∀ base, Statement.pullBase base ∉ post) ∧
    pullRecord generator.m_relevantClasses relevantClass reflectable value errors =
      (let s1 := pullBases (pullRecord generator.m_relevantClasses) value
          (findRelevantBaseClasses generator.m_relevantClasses relevantClass)
          (reflectable, errors)
        let s2 := pullFields relevantClass.record value relevantClass.record.fields
          (s1.1, setCurrentRecord s1.2 (some relevantClass.qualifiedName))
        (s2.1, setCurrentRecord s2.2 (savedRecord s1.2))) := by
  refine ⟨?_, rfl, ?_, ?_⟩
  · rw [JsonSerializationCodeGenerator.printPullMethod_eq, String.empty_append]
    simp only [Statement.text, String.append_assoc]
  · intro pre post name h
    obtain ⟨h1, h2, h3⟩ := generatePull_split _ _ pre post name h
    refine ⟨h1, h2, h3, ?_⟩
    intro base hmem
    rw [h3] at hmem
    rcases List.mem_append.mp hmem with hm | hm
    · obtain ⟨f, _, hf⟩ := List.mem_map.mp hm
      cases hf
    · rw [List.mem_singleton] at hm
      cases hm
  · exact pullRecord_eq _ _ _ _ _

/-! ## The member names of a generated `push` -/

/-- Claim C23, the failing input: the `push` specialisation generated for `Leaf`, whose base
class `Derived` has the base class `Base`, run on `Leaf{a = 1, b = "x", c = true}` with an
empty container, creates the members `a`, `a`, `b`, `c`: the name `a` occurs twice, because
`Base` is called once for `Leaf` and once more by the specialisation of `Derived`. With two
levels only (`Derived`) the member names are distinct. -/
theorem object_keys_repeat_on_three_levels :
    (pushRecord Example.catalogue { qualifiedName := "Leaf", record := Example.Leaf }
        Example.leaf []).map Prod.fst = ["a", "a", "b", "c"] ∧
    ¬ ((pushRecord Example.catalogue { qualifiedName := "Leaf", record := Example.Leaf }
        Example.leaf []).map Prod.fst).Nodup ∧
    generatePush Example.catalogue { qualifiedName := "Leaf", record := Example.Leaf } =
      [.pushBase { qualifiedName := "Base", record := Example.Base },
       .pushBase { qualifiedName := "Derived", record := Example.Derived },
       .pushField { name := "c", type := .scalar .bool }] ∧
    generatePush Example.catalogue { qualifiedName := "Derived", record := Example.Derived } =
      [.pushBase { qualifiedName := "Base", record := Example.Base },
       .pushField { name := "b", type := .string }] ∧
    ((pushRecord Example.catalogue { qualifiedName := "Derived", record := Example.Derived }
        Example.derived []).map Prod.fst).Nodup := by
  decide

/-! ## The kind of the recorded errors -/

theorem reportTypeMismatch_kind (e : JsonDeserializationErrors) (t : JsonType) :
    ∃ app idx, reportTypeMismatch (some e) t = some (e.appended app idx) ∧
      ∀ x ∈ app, x.kind = .TypeMismatch := by
  refine ⟨_, _, congrArg some (e.reportTypeMismatch_eq t), ?_⟩
  intro x hx
  rw [List.mem_singleton] at hx
  rw [hx]

theorem pullCustom_kind (cat : List RelevantClass) (rc : RelevantClass) (r : Reflectable)
    (value : Value) (e : JsonDeserializationErrors) :
    ∃ app idx, (pullCustom (pullRecord cat rc) r value (some e)).2 =
        some (e.appended app idx) ∧
      ∀ x ∈ app, x.kind = .TypeMismatch := by
  unfold pullCustom
  cases h : value.IsObject
  · simp only [Bool.not_false, if_true]
    exact reportTypeMismatch_kind e _
  · simp only [Bool.not_true, Bool.false_eq_true, if_false]
    obtain ⟨app, idx, h1, h2⟩ := pullRecord_errors cat value.GetObject rc r e
    exact ⟨app, idx, h1, fun x hx => (h2 x hx).1⟩

/-- Claim C24: no `MemberMissing` error is recorded. Whatever the destination, the source and
the error context: the context after a `pull` of a scalar, a text or a sequence, after the
`pull` of a member by name, after the generated `pull` specialisation of a catalogue entry and
after the `pull` of an object of such a class is the context before with errors appended that
all have the kind `TypeMismatch`, none the kind `MemberMissing`; a member that is not found
appends nothing. A call of `fromJson` for a scalar, a text or a class of the catalogue either
throws the parse result or returns such a context. -/
theorem member_missing_never_raised (ty : Ty) (dest : Val) (value : Value) (name : String)
    (object : Object) (cat : List RelevantClass) (rc : RelevantClass) (r : Reflectable)
    (Parse : Parser) (t : ScalarType) (json : String) (jsonSize : Nat)
    (e : JsonDeserializationErrors) :
    (∃ app idx, (pull ty dest value (some e)).2 = some (e.appended app idx) ∧
      ∀ x ∈ app, x.kind = .TypeMismatch ∧ x.kind ≠ .MemberMissing) ∧
    (∃ app idx, (pullMember (pull ty) dest name object (some e)).2 =
        some (e.appended app idx) ∧
      ∀ x ∈ app, x.kind = .TypeMismatch ∧ x.kind ≠ .MemberMissing) ∧
    (FindMember object name = none →
      pullMember (pull ty) dest name object (some e) = (dest, some e)) ∧
    (∃ app idx, (pullRecord cat rc r object (some e)).2 = some (e.appended app idx) ∧
      ∀ x ∈ app, x.kind = .TypeMismatch ∧ x.kind ≠ .MemberMissing) ∧
    (∃ app idx, (pullCustom (pullRecord cat rc) r value (some e)).2 =
        some (e.appended app idx) ∧
      ∀ x ∈ app, x.kind = .TypeMismatch ∧ x.kind ≠ .MemberMissing) ∧
    ((∃ parseRes, fromJsonScalar Parse t json jsonSize (some e) = .error parseRes) ∨
      ∃ res app idx, fromJsonScalar Parse t json jsonSize (some e) =
          .ok (res, some (e.appended app idx)) ∧
        ∀ x ∈ app, x.kind = .TypeMismatch ∧ x.kind ≠ .MemberMissing) ∧
    ((∃ parseRes, fromJsonString Parse json jsonSize (some e) = .error parseRes) ∨
      ∃ res app idx, fromJsonString Parse json jsonSize (some e) =
          .ok (res, some (e.appended app idx)) ∧
        ∀ x ∈ app, x.kind = .TypeMismatch ∧ x.kind ≠ .MemberMissing) ∧
    ((∃ parseRes, fromJsonRecord Parse cat rc r json jsonSize (some e) = .error parseRes) ∨
      ∃ res app idx, fromJsonRecord Parse cat rc r json jsonSize (some e) =
          .ok (res, some (e.appended app idx)) ∧
        ∀ x ∈ app, x.kind = .TypeMismatch ∧ x.kind ≠ .MemberMissing) := by
  have hk : ∀ x : JsonDeserializationError, x.kind = .TypeMismatch →
      x.kind = .TypeMismatch ∧ x.kind ≠ .MemberMissing := by
    intro x hx
    exact ⟨hx, by rw [hx]; decide⟩
  have hnil : ∃ app idx, some e = some (e.appended app idx) ∧
      ∀ x ∈ app, x.kind = .TypeMismatch ∧ x.kind ≠ .MemberMissing :=
    ⟨[], e.currentIndex, by rw [e.appended_nil], by simp⟩
  refine ⟨?_, ?_, ?_, ?_, ?_, ?_, ?_, ?_⟩
  · obtain ⟨app, idx, h1, h2⟩ := pull_errors ty dest value e
    exact ⟨app, idx, h1, fun x hx => hk x (h2 x hx).1⟩
  · obtain ⟨app, idx, h1, h2⟩ := pullMember_errors ty dest name object e
    exact ⟨app, idx, h1, fun x hx => hk x (h2 x hx).1⟩
  · intro h
    simp [pullMember, h]
  · obtain ⟨app, idx, h1, h2⟩ := pullRecord_errors cat object rc r e
    exact ⟨app, idx, h1, fun x hx => hk x (h2 x hx).1⟩
  · obtain ⟨app, idx, h1, h2⟩ := pullCustom_kind cat rc r value e
    exact ⟨app, idx, h1, fun x hx => hk x (h2 x hx)⟩
  · unfold fromJsonScalar
    cases hp : parseJsonDocFromString Parse json jsonSize with
    | error p => exact Or.inl ⟨p, rfl⟩
    | ok doc =>
      right
      cases hd : doc.Is t
      · obtain ⟨app, idx, h1, h2⟩ := reportTypeMismatch_kind e doc.GetType
        refine ⟨(Ty.scalar t).default, app, idx, ?_, fun x hx => hk x (h2 x hx)⟩
        simp only [hd, Bool.not_false, if_true, h1]
        rfl
      · obtain ⟨app, idx, h1, h2⟩ := hnil
        refine ⟨doc.Get t, app, idx, ?_, h2⟩
        simp only [hd, Bool.not_true, Bool.false_eq_true, if_false, ← h1]
        rfl
  · unfold fromJsonString
    cases hp : parseJsonDocFromString Parse json jsonSize with
    | error p => exact Or.inl ⟨p, rfl⟩
    | ok doc =>
      right
      cases hd : doc.IsString
      · obtain ⟨app, idx, h1, h2⟩ := reportTypeMismatch_kind e doc.GetType
        refine ⟨Ty.string.default, app, idx, ?_, fun x hx => hk x (h2 x hx)⟩
        simp only [hd, Bool.not_false, if_true, h1]
        rfl
      · obtain ⟨app, idx, h1, h2⟩ := hnil
        refine ⟨Val.ofCString doc.GetString, app, idx, ?_, h2⟩
        simp only [hd, Bool.not_true, Bool.false_eq_true, if_false, ← h1]
        rfl
  · unfold fromJsonRecord fromJsonCustom
    cases hp : parseJsonDocFromString Parse json jsonSize with
    | error p => exact Or.inl ⟨p, rfl⟩
    | ok doc =>
      right
      cases hd : doc.IsObject
      · obtain ⟨app, idx, h1, h2⟩ := reportTypeMismatch_kind e doc.GetType
        refine ⟨rc.record.default, app, idx, ?_, fun x hx => hk x (h2 x hx)⟩
        simp only [hd, Bool.not_false, if_true, h1]
        rfl
      · obtain ⟨app, idx, h1, h2⟩ := pullRecord_errors cat doc.GetObject rc r e
        refine ⟨(pullRecord cat rc r doc.GetObject (some e)).1, app, idx, ?_,
          fun x hx => hk x (h2 x hx).1⟩
        simp only [hd, Bool.not_true, Bool.false_eq_true, if_false, ← h1]
        rfl

/-! ## The destination of a sequence `pull` -/

theorem pullArrayLoop_fst (pullItem : Pull Val) (fresh : Val) (items : List Value)
    (h : ∀ item ∈ items, ∀ e1 e2, (pullItem fresh item e1).1 = (pullItem fresh item e2).1) :
    ∀ (index : Nat) (acc : List Val) (errors : Option JsonDeserializationErrors),
      (pullArrayLoop pullItem fresh items index acc errors).1 =
        acc ++ items.map (fun item => (pullItem fresh item none).1) := by
  induction items with
  | nil => intro index acc errors; simp [pullArrayLoop]
  | cons item rest ih =>
    intro index acc errors
    simp only [pullArrayLoop, List.map_cons]
    rw [ih (fun x hx => h x (List.mem_cons_of_mem _ hx)),
      h item (List.mem_cons_self _ _) (setCurrentIndex errors (some index)) none]
    simp

theorem pull_seq_fst (traits : SeqTraits) (elem : Ty) (prior : Val) (items : List Value)
    (errors : Option JsonDeserializationErrors) :
    (pull (.seq traits elem) prior (.array items) errors).1 =
      .seq (items.map (fun item => (pull elem elem.default item none).1)) := by
  have h := pullArrayLoop_fst (pull elem) elem.default items
    (fun item _ e1 e2 => pull_fst_indep elem elem.default item e1 e2) 0 [] errors
  cases hr : traits.isReservable <;>
    simp [pull, hr, pullReservable, pullIteratable, Value.IsArray, Value.GetArray, pullArray, h]

theorem pull_leaf_fst (elem : Ty) (hleaf : elem.isLeaf = true) (item : Value) :
    (pull elem elem.default item none).1 =
      if elem.accepts item then elem.decode item else elem.default := by
  cases elem with
  | scalar t =>
    cases hm : item.Is t <;> simp [pull, pullScalar, hm, Ty.accepts, Ty.decode]
  | string =>
    cases hm : item.IsString <;> simp [pull, pullString, hm, Ty.accepts, Ty.decode]
  | seq traits inner => simp [Ty.isLeaf] at hleaf

theorem length_filterMap_enumFrom {β : Type} (P : Value → Bool)
    (f : Nat × Value → β) (items : List Value) :
    ∀ index : Nat,
      ((items.enumFrom index).filterMap (fun p => if P p.2 then none else some (f p))).length =
        (items.filter (fun item => !P item)).length := by
  induction items with
  | nil => intro index; rfl
  | cons item rest ih =>
    intro index
    simp only [List.enumFrom_cons, List.filterMap_cons, List.filter_cons]
    cases hP : P item
    · simp [ih]
    · simp [ih]

/-- A sequence `pull` from an array with elements of any kinds. Whatever the destination held
before, afterwards it has as many elements as the array, and element `i` is what the `pull` of
the element type stores into a value-initialised element from item `i`: what `Ty.decode` gives
for the item (its number or boolean, and of a text the characters before the first NUL
character) when the item has the right kind (at every level of nesting); the
value-initialised element when the element type is a boolean, integer or text type and the
item has another kind, or when the element type is a sequence and the item is not an array.
For a boolean, integer or text element type the errors appended are one `TypeMismatch` for
every item of another kind, as many as there are such items, each with the position of its
item as index. -/
theorem sequence_pull_with_mismatching_elements (traits : SeqTraits) (elem : Ty) (prior : Val)
    (items : List Value) (errors : Option JsonDeserializationErrors)
    (e : JsonDeserializationErrors) :
    (pull (.seq traits elem) prior (.array items) errors).1 =
      .seq (items.map (fun item => (pull elem elem.default item none).1)) ∧
    (pull (.seq traits elem) prior (.array items) errors).1.items.length = items.length ∧
    (∀ item, elem.accepts item = true →
      (pull elem elem.default item none).1 = elem.decode item) ∧
    (elem.isLeaf = true → ∀ item, elem.accepts item = false →
      (pull elem elem.default item none).1 = elem.default) ∧
    (elem.isLeaf = false → ∀ item, item.IsArray = false →
      (pull elem elem.default item none).1 = elem.default) ∧
    (elem.isLeaf = true →
      (pull (.seq traits elem) prior (.array items) errors).1 =
        .seq (items.map (fun item =>
          if elem.accepts item then elem.decode item else elem.default))) ∧
    (elem.isLeaf = true →
      (pull (.seq traits elem) prior (.array items) (some e)).2 =
          some (e.appended
            (items.enum.filterMap (fun p =>
              if elem.accepts p.2 then none
              else some { kind := .TypeMismatch, actualType := p.2.GetType,
                          record := e.currentRecord, member := e.currentMember,
                          index := some p.1 }))
            none) ∧
        (items.enum.filterMap (fun p =>
              if elem.accepts p.2 then none
              else some ({ kind := .TypeMismatch, actualType := p.2.GetType,
                           record := e.currentRecord, member := e.currentMember,
                           index := some p.1 } : JsonDeserializationError))).length =
          (items.filter (fun item => !elem.accepts item)).length) := by
  refine ⟨pull_seq_fst traits elem prior items errors, ?_, ?_, ?_, ?_, ?_, ?_⟩
  · rw [pull_seq_fst]
    simp [Val.items]
  · intro item h
    exact (pull_accepts elem elem.default item none h).1
  · intro hleaf item h
    rw [pull_leaf_fst elem hleaf, h]
    simp
  · intro hleaf item h
    cases elem with
    | scalar t => simp [Ty.isLeaf] at hleaf
    | string => simp [Ty.isLeaf] at hleaf
    | seq traits inner =>
      cases hr : traits.isReservable <;>
        simp [pull, hr, pullReservable, pullIteratable, h]
  · intro hleaf
    rw [pull_seq_fst]
    congr 1
    apply List.map_congr_left
    intro item _
    exact pull_leaf_fst elem hleaf item
  · intro hleaf
    constructor
    · obtain ⟨idx, h⟩ := pullArrayLoop_errors_of_leaf elem hleaf items 0 [] e
      cases hr : traits.isReservable <;>
        simp [pull, hr, pullReservable, pullIteratable, Value.IsArray, Value.GetArray,
          pullArray, h, setCurrentIndex, JsonDeserializationErrors.appended, List.enum]
    · exact length_filterMap_enumFrom (fun item => elem.accepts item) _ items 0

/-- The `pull` of `[1, "x", 3]` into a sequence of integers that held 7 and 8 gives `[1, 0, 3]`
and appends one `TypeMismatch`. -/
theorem sequence_pull_with_mismatching_elements_witness :
    (Ty.scalar .int).isLeaf = true ∧
    (pull (.seq Example.vector (.scalar .int)) (.seq [.int 7, .int 8])
        (.array [.int 1, .string "x", .int 3]) (some Example.noErrors)).1 =
      .seq [.int 1, .int 0, .int 3] ∧
    (pull (.seq Example.vector (.scalar .int)) (.seq [.int 7, .int 8])
        (.array [.int 1, .string "x", .int 3]) (some Example.noErrors)).2 =
      some { errors := [{ kind := .TypeMismatch, actualType := .kStringType, record := none,
                          member := none, index := some 1 }],
             currentRecord := none, currentMember := none, currentIndex := none } :=
  ⟨by decide,
    ((sequence_pull_with_mismatching_elements Example.vector (.scalar .int)
      (.seq [.int 7, .int 8]) [.int 1, .string "x", .int 3] (some Example.noErrors)
      Example.noErrors).2.2.2.2.2.1 (by decide)).trans (by decide),
    ((sequence_pull_with_mismatching_elements Example.vector (.scalar .int)
      (.seq [.int 7, .int 8]) [.int 1, .string "x", .int 3] (some Example.noErrors)
      Example.noErrors).2.2.2.2.2.2 (by decide)).1.trans (by decide)⟩

/-! ## The array a sequence `push` creates -/

/-- Claim C26: the `push` of a sequence `s` as member `n`. The member added is an array with
as many elements as `s` has; its element at position `i` is the one value that the `push` of
the item of `s` at position `i` into an empty array creates, so the array is the items pushed
one after the other in the order of the iteration. The overload for containers with `size()`,
which reserves the array first, and the overload for containers without create the same
member, whatever the `push` of the items does; and the `push` of a sequence into an array
appends the same array. -/
theorem sequence_push (traits : SeqTraits) (elem : Ty) (s : Val) (n : String) (o : Object)
    (array : List Value) (pushItem : Val → List Value → List Value) (isReservable : Bool) :
    pushMember (.seq traits elem) s n o =
      AddMember o n (.array (s.items.map (fun item => elem.encode item))) ∧
    (s.items.map (fun item => elem.encode item)).length = s.items.length ∧
    (∀ item, pushToArray elem item [] = [elem.encode item]) ∧
    (∀ i : Nat, (s.items.map (fun item => elem.encode item))[i]? =
      (s.items[i]?).map (fun item => elem.encode item)) ∧
    s.items.map (fun item => elem.encode item) =
      (s.items.map (fun item => pushToArray elem item [])).flatten ∧
    pushSizedMember pushItem s n o = pushIteratableMember pushItem s n o ∧
    pushMember (.seq { hasSize := true, isReservable := isReservable } elem) s n o =
      pushMember (.seq { hasSize := false, isReservable := isReservable } elem) s n o ∧
    pushToArray (.seq traits elem) s array =
      PushBack array (.array (s.items.map (fun item => elem.encode item))) := by
  have hitem : ∀ item, pushToArray elem item [] = [elem.encode item] := by
    intro item
    rw [pushToArray_eq]
    rfl
  refine ⟨?_, ?_, hitem, ?_, ?_, rfl, ?_, ?_⟩
  · rw [pushMember_eq]
    rfl
  · simp
  · intro i
    simp
  · induction s.items with
    | nil => rfl
    | cons item rest ih => simp [hitem, ih]
  · rw [pushMember_eq, pushMember_eq]
    rfl
  · rw [pushToArray_eq]
    rfl

/-! ## What a `push` leaves in place -/

theorem FindMember_append_of_some (o more : Object) (n : String) (old : Value)
    (h : FindMember o n = some old) : FindMember (o ++ more) n = some old := by
  induction o with
  | nil => simp [FindMember] at h
  | cons m rest ih =>
    obtain ⟨k, v⟩ := m
    simp only [List.cons_append, FindMember] at h ⊢
    by_cases hk : k = n
    · rw [if_pos hk] at h ⊢
      exact h
    · rw [if_neg hk] at h ⊢
      exact ih h

/-- Claim C27: a `push` only appends. The `push` of a scalar, a text or a sequence as member
`n` into an object `o` gives the members of `o`, in their order, followed by the one new
member `n` with the value created for what was pushed; the `push` of an object of a class of
the catalogue as member `n` does the same, the new member holding the object that the
generated specialisation fills. A member that `o` has under the name `n` already stays where
it is and keeps its value, and it is still the one that `FindMember` finds. Every `push` into
an array gives the elements of the array followed by one new element. The generated
specialisation itself adds its members behind those of the container it is given. -/
theorem push_only_appends (ty : Ty) (v : Val) (n : String) (o : Object) (array : List Value)
    (cat : List RelevantClass) (rc : RelevantClass) (r : Reflectable) (old : Value)
    (before after : Object) :
    pushMember ty v n o = o ++ [(n, ty.encode v)] ∧
    pushCustomMember (pushRecord cat rc) r n o = o ++ [(n, .object (pushRecord cat rc r []))] ∧
    (pushMember ty v n o).take o.length = o ∧
    (pushMember ty v n o).length = o.length + 1 ∧
    (pushCustomMember (pushRecord cat rc) r n o).take o.length = o ∧
    (pushCustomMember (pushRecord cat rc) r n o).length = o.length + 1 ∧
    pushMember ty v n (before ++ (n, old) :: after) =
      before ++ (n, old) :: (after ++ [(n, ty.encode v)]) ∧
    pushCustomMember (pushRecord cat rc) r n (before ++ (n, old) :: after) =
      before ++ (n, old) :: (after ++ [(n, .object (pushRecord cat rc r []))]) ∧
    (FindMember o n = some old →
      FindMember (pushMember ty v n o) n = some old ∧
      FindMember (pushCustomMember (pushRecord cat rc) r n o) n = some old) ∧
    pushToArray ty v array = array ++ [ty.encode v] ∧
    pushCustomToArray (pushRecord cat rc) r array =
      array ++ [.object (pushRecord cat rc r [])] ∧
    pushRecord cat rc r o = o ++ pushRecord cat rc r [] := by
  have hc : pushCustomMember (pushRecord cat rc) r n o =
      o ++ [(n, .object (pushRecord cat rc r []))] := rfl
  refine ⟨pushMember_eq ty v n o, hc, ?_, ?_, ?_, ?_, ?_, ?_, ?_, pushToArray_eq ty v array,
    rfl, pushRecord_append cat r rc o⟩
  · rw [pushMember_eq]; simp
  · rw [pushMember_eq]; simp
  · rw [hc]; simp
  · rw [hc]; simp
  · rw [pushMember_eq]; simp
  · simp [pushCustomMember, AddMember]
  · intro h
    constructor
    · rw [pushMember_eq]
      exact FindMember_append_of_some o _ n old h
    · rw [hc]
      exact FindMember_append_of_some o _ n old h

/-! ## The qualified names of the catalogue -/

/-- What a visit with an empty catalogue yields: nothing, or one entry that carries the
qualified name of the record visited. -/
theorem JsonSerializationCodeGenerator.addDeclaration_entries (options : Options)
    (decl : Decl) :
    (JsonSerializationCodeGenerator.addDeclaration
        { m_options := options, m_relevantClasses := [] } decl).m_relevantClasses = [] ∨
      ∃ record, decl = .CXXRecord record ∧
        (JsonSerializationCodeGenerator.addDeclaration
          { m_options := options, m_relevantClasses := [] } decl).m_relevantClasses =
          [{ qualifiedName := record.getQualifiedNameAsString, record := record }] := by
  cases decl with
  | CXXRecord record =>
    by_cases hr : Spec.relevant options record
    · by_cases hname : record.getQualifiedNameAsString = ""
      · left
        have hq : JsonSerializationCodeGenerator.qualifiedNameIfRelevant
            { m_options := options, m_relevantClasses := [] } record = "" := by
          unfold JsonSerializationCodeGenerator.qualifiedNameIfRelevant
          split
          · exact hname
          · split
            · rfl
            · by_cases hl : record.getQualifiedNameAsString ∈ options.additionalClassesArg.values
              · rw [JsonSerializationCodeGenerator.qualifiedNameIfListed_mem _ _ hl]
                exact hname
              · exact JsonSerializationCodeGenerator.qualifiedNameIfListed_not_mem _ _ hl
        simp only [JsonSerializationCodeGenerator.addDeclaration, hq]
        cases record.hasDefinition <;> simp [String.isEmpty]
      · right
        refine ⟨record, rfl, ?_⟩
        rw [JsonSerializationCodeGenerator.addDeclaration_relevant _ record hname hr]
        rfl
    · left
      rw [JsonSerializationCodeGenerator.addDeclaration_not_relevant _ record hr]
  | Enum => exact Or.inl rfl
  | Other => exact Or.inl rfl

/-- The entries of the catalogue after a pass carry the qualified names of their records, and
their names are among the names of the records visited, in the order of the visits. -/
theorem JsonSerializationCodeGenerator.catalogue_names (options : Options)
    (decls : List Decl) :
    (∀ entry ∈ (decls.foldl JsonSerializationCodeGenerator.addDeclaration
          { m_options := options, m_relevantClasses := [] }).m_relevantClasses,
        entry.qualifiedName = entry.record.getQualifiedNameAsString ∧
          Decl.CXXRecord entry.record ∈ decls) ∧
      List.Sublist
        ((decls.foldl JsonSerializationCodeGenerator.addDeclaration
          { m_options := options, m_relevantClasses := [] }).m_relevantClasses.map
            (fun entry => entry.qualifiedName))
        (decls.filterMap (fun decl =>
          match decl with
          | .CXXRecord record => some record.getQualifiedNameAsString
          | _ => none)) := by
  rw [JsonSerializationCodeGenerator.foldl_addDeclaration]
  simp only [List.nil_append]
  induction decls with
  | nil => simp
  | cons decl rest ih =>
    simp only [List.map_cons, List.flatten_cons, List.map_append, List.mem_append]
    rcases JsonSerializationCodeGenerator.addDeclaration_entries options decl with h | h
    · rw [h]
      refine ⟨?_, ?_⟩
      · intro entry hmem
        rcases hmem with hmem | hmem
        · simp at hmem
        · exact ⟨(ih.1 entry hmem).1, List.mem_cons_of_mem _ (ih.1 entry hmem).2⟩
      · simp only [List.map_nil, List.nil_append]
        cases decl with
        | CXXRecord record =>
          simp only [List.filterMap_cons]
          exact List.Sublist.cons _ ih.2
        | Enum => simpa [List.filterMap_cons] using ih.2
        | Other => simpa [List.filterMap_cons] using ih.2
    · obtain ⟨record, hd, he⟩ := h
      rw [he]
      subst hd
      refine ⟨?_, ?_⟩
      · intro entry hmem
        rcases hmem with hmem | hmem
        · rw [List.mem_singleton] at hmem
          rw [hmem]
          exact ⟨rfl, List.mem_cons_self _ _⟩
        · exact ⟨(ih.1 entry hmem).1, List.mem_cons_of_mem _ (ih.1 entry hmem).2⟩
      · simp only [List.map_cons, List.map_nil, List.singleton_append, List.filterMap_cons]
        exact List.Sublist.cons₂ _ ih.2

/-- Counterexample for C28: when the declaration of `Base` is visited twice, the catalogue
holds two entries with the qualified name `Base`. -/
theorem qualified_name_unique_counterexample :
    (List.foldl JsonSerializationCodeGenerator.addDeclaration
        { m_options := Example.noOptions, m_relevantClasses := [] }
        [.CXXRecord Example.Base, .CXXRecord Example.Base]).m_relevantClasses =
      [{ qualifiedName := "Base", record := Example.Base },
       { qualifiedName := "Base", record := Example.Base }] ∧
    ¬ ((List.foldl JsonSerializationCodeGenerator.addDeclaration
        { m_options := Example.noOptions, m_relevantClasses := [] }
        [.CXXRecord Example.Base, .CXXRecord Example.Base]).m_relevantClasses.map
          (fun entry => entry.qualifiedName)).Nodup := by
  decide

/-- Claim C28, amended: the qualified names of the catalogue. After any sequence of visits
that starts from an empty catalogue every entry carries the qualified name of its record,
which was visited, and the names of the entries are, in order, among the names of the records
visited; so no two entries have the same qualified name when no two records visited have. The
catalogue has one entry for every visit of a relevant declaration: the pass over two sequences
of declarations one after the other yields the entries of the first followed by the entries of
the second, whether or not a declaration occurs in both. -/
theorem qualified_name_unique_amended (options : Options) (decls more : List Decl) :
    (∀ entry ∈ (decls.foldl JsonSerializationCodeGenerator.addDeclaration
          { m_options := options, m_relevantClasses := [] }).m_relevantClasses,
        entry.qualifiedName = entry.record.getQualifiedNameAsString ∧
          Decl.CXXRecord entry.record ∈ decls) ∧
    List.Sublist
      ((decls.foldl JsonSerializationCodeGenerator.addDeclaration
        { m_options := options, m_relevantClasses := [] }).m_relevantClasses.map
          (fun entry => entry.qualifiedName))
      (decls.filterMap (fun decl =>
        match decl with
        | .CXXRecord record => some record.getQualifiedNameAsString
        | _ => none)) ∧
    ((decls.filterMap (fun decl =>
        match decl with
        | .CXXRecord record => some record.getQualifiedNameAsString
        | _ => none)).Nodup →
      ((decls.foldl JsonSerializationCodeGenerator.addDeclaration
        { m_options := options, m_relevantClasses := [] }).m_relevantClasses.map
          (fun entry => entry.qualifiedName)).Nodup) ∧
    ((decls ++ more).foldl JsonSerializationCodeGenerator.addDeclaration
        { m_options := options, m_relevantClasses := [] }).m_relevantClasses =
      (decls.foldl JsonSerializationCodeGenerator.addDeclaration
        { m_options := options, m_relevantClasses := [] }).m_relevantClasses ++
      (more.foldl JsonSerializationCodeGenerator.addDeclaration
        { m_options := options, m_relevantClasses := [] }).m_relevantClasses := by
  have h := JsonSerializationCodeGenerator.catalogue_names options decls
  refine ⟨h.1, h.2, fun hn => hn.sublist h.2, ?_⟩
  simp only [JsonSerializationCodeGenerator.foldl_addDeclaration, List.nil_append,
    List.map_append, List.flatten_append]

/-- Witness for C28: the records among the declarations of the example have the names
`Forward`, `Base`, `Plain`, `Derived` and `Leaf`, and the entries of the catalogue have the
names `Base`, `Derived` and `Leaf`. -/
theorem qualified_name_unique_amended_witness :
    (Example.declarations.filterMap (fun decl =>
        match decl with
        | .CXXRecord record => some record.getQualifiedNameAsString
        | _ => none)).Nodup ∧
    ((Example.declarations.foldl JsonSerializationCodeGenerator.addDeclaration
        { m_options := Example.options, m_relevantClasses := [] }).m_relevantClasses.map
          (fun entry => entry.qualifiedName)).Nodup :=
  ⟨by decide,
   (qualified_name_unique_amended Example.options Example.declarations []).2.2.1 (by decide)⟩

/-! ## A class without data members and without relevant base classes -/

/-- Claim C29: the pair of specialisations of an entry without data members and without
relevant base classes. The body of the `push` specialisation holds no statement, its text is
the head, the two comment lines and the closing brace; the body of the `pull` specialisation
holds the statement that saves and sets the record name and the statement that restores it,
and no `pull` statement. When run, the `push` specialisation returns the container as it was
given, and the `pull` specialisation returns the destination and the error context as they
were given, the current record name included, for every object and with or without an error
context. -/
theorem empty_bodied_pair (cat : List RelevantClass) (rc : RelevantClass)
    (hfields : rc.record.fields = []) (hbases : findRelevantBaseClasses cat rc = [])
    (r : Reflectable) (container value : Object) (errors : Option JsonDeserializationErrors)
    (e : JsonDeserializationErrors) :
    generatePush cat rc = [] ∧
    generatePull cat rc = [.setRecord rc.qualifiedName, .restoreRecord] ∧
    JsonSerializationCodeGenerator.printPushMethod (findRelevantBaseClasses cat rc) rc "" =
      "template <> inline void push<::" ++ rc.qualifiedName ++
        ">(const ::" ++ rc.qualifiedName ++
        " &reflectable, ::RAPIDJSON_NAMESPACE::Value::Object &value, ::RAPIDJSON_NAMESPACE::Document::AllocatorType &allocator)\n\x7b\n" ++
        "    // push base classes\n" ++
        "    // push members\n" ++
        "\x7d\n" ∧
    JsonSerializationCodeGenerator.printPullMethod (findRelevantBaseClasses cat rc) rc "" =
      "template <> inline void pull<::" ++ rc.qualifiedName ++
        ">(::" ++ rc.qualifiedName ++
        " &reflectable, const ::RAPIDJSON_NAMESPACE::GenericValue<::RAPIDJSON_NAMESPACE::UTF8<char>>::ConstObject &value, " ++
        "JsonDeserializationErrors " ++
        "*errors)\n\x7b\n" ++
        "    // pull base classes\n" ++
        "    // set error context for current record\n" ++
        ("    const char *previousRecord;\n" ++
         "    if (errors) \x7b\n" ++
         "        previousRecord = errors->currentRecord;\n" ++
         "        errors->currentRecord = \"" ++ rc.qualifiedName ++ "\";\n" ++
         "    \x7d\n") ++
        "    // pull members\n" ++
        "    // restore error context for previous record\n" ++
        ("    if (errors) \x7b\n" ++
         "        errors->currentRecord = previousRecord;\n" ++
         "    \x7d\n") ++
        "\x7d\n\n" ∧
    pushRecord cat rc r container = container ∧
    pullRecord cat rc r value errors = (r, errors) ∧
    pullRecord cat rc r value (some e) = (r, some e) ∧
    pullRecord cat rc r value none = (r, none) := by
  have hpull : ∀ errors, pullRecord cat rc r value errors = (r, errors) := by
    intro errors
    rw [pullRecord_eq, hbases, hfields]
    simp only [pullBases, pullFields, List.foldl_nil]
    rw [setCurrentRecord_restore]
  refine ⟨?_, ?_, ?_, ?_, ?_, hpull errors, hpull (some e), hpull none⟩
  · simp [generatePush, hfields, hbases]
  · simp [generatePull, hfields, hbases]
  · rw [JsonSerializationCodeGenerator.printPushMethod_eq, hbases, hfields]
    simp only [List.map_nil, String.join, List.foldl_nil, String.append_empty,
      String.empty_append, String.append_assoc]
  · rw [JsonSerializationCodeGenerator.printPullMethod_eq, hbases, hfields]
    simp only [List.map_nil, String.join, List.foldl_nil, String.append_empty,
      String.empty_append, String.append_assoc, Statement.text]
  · rw [pushRecord_eq, hbases, hfields]
    rfl

/-- Witness for C29: the class `Empty` in a catalogue that holds it and the classes `Base`,
`Derived` and `Leaf`; the error context given has a record name and an error already. -/
theorem empty_bodied_pair_witness :
    (Example.Empty.fields = [] ∧
      findRelevantBaseClasses ({ qualifiedName := "Empty", record := Example.Empty } ::
        Example.catalogue) { qualifiedName := "Empty", record := Example.Empty } = []) ∧
    pushRecord ({ qualifiedName := "Empty", record := Example.Empty } :: Example.catalogue)
        { qualifiedName := "Empty", record := Example.Empty } [] [("k", .int 1)] =
      [("k", .int 1)] ∧
    pullRecord ({ qualifiedName := "Empty", record := Example.Empty } :: Example.catalogue)
        { qualifiedName := "Empty", record := Example.Empty } [] [("a", .string "x")]
        (some { errors := [{ kind := .TypeMismatch, actualType := .kStringType,
                             record := some "Outer", member := some "m", index := none }],
                currentRecord := some "Outer", currentMember := none,
                currentIndex := none }) =
      ([], some { errors := [{ kind := .TypeMismatch, actualType := .kStringType,
                               record := some "Outer", member := some "m", index := none }],
                  currentRecord := some "Outer", currentMember := none,
                  currentIndex := none }) :=
  ⟨⟨by decide, by decide⟩,
   (empty_bodied_pair _ { qualifiedName := "Empty", record := Example.Empty }
      (by decide) (by decide) [] [("k", .int 1)] [] none Example.noErrors).2.2.2.2.1,
   (empty_bodied_pair _ { qualifiedName := "Empty", record := Example.Empty }
      (by decide) (by decide) [] [] [("a", .string "x")]
      (some { errors := [{ kind := .TypeMismatch, actualType := .kStringType,
                           record := some "Outer", member := some "m", index := none }],
              currentRecord := some "Outer", currentMember := none,
              currentIndex := none }) Example.noErrors).2.2.2.2.2.1⟩

/-! ## The record names of the errors of a derived class -/

/-- The member pull of a data member whose member is found with another kind appends exactly
one error, with the current record and the name of the data member. -/
theorem pullField_errors_of_kind_mismatch (self : CXXRecordDecl) (value : Object)
    (f : FieldDecl) (v : Value) (hfind : FindMember value f.name = some v)
    (hkind : f.type.kindMatches v = false) (r : Reflectable)
    (e : JsonDeserializationErrors) :
    (pullField self value f (r, some e)).2 =
      some (e.appended
        [{ kind := .TypeMismatch, actualType := v.GetType, record := e.currentRecord,
           member := some f.name, index := e.currentIndex }] e.currentIndex) := by
  cases ht : f.type with
  | scalar t =>
    rw [ht] at hkind
    simp only [Ty.kindMatches] at hkind
    simp [pullField, pullMember, hfind, ht, pull, pullScalar, hkind, reportTypeMismatch,
      JsonDeserializationErrors.reportTypeMismatch, setCurrentMember,
      JsonDeserializationErrors.appended]
  | string =>
    rw [ht] at hkind
    simp only [Ty.kindMatches] at hkind
    simp [pullField, pullMember, hfind, ht, pull, pullString, hkind, reportTypeMismatch,
      JsonDeserializationErrors.reportTypeMismatch, setCurrentMember,
      JsonDeserializationErrors.appended]
  | seq traits elem =>
    rw [ht] at hkind
    simp only [Ty.kindMatches] at hkind
    cases hr : traits.isReservable <;>
      simp [pullField, pullMember, hfind, ht, pull, hr, pullReservable, pullIteratable, hkind,
        reportTypeMismatch, JsonDeserializationErrors.reportTypeMismatch, setCurrentMember,
        JsonDeserializationErrors.appended]

/-- The member pulls of a class record an error for every data member whose member is found
with another kind, under the current record and the name of the data member. -/
theorem pullFields_errors_hit (self : CXXRecordDecl) (value : Object)
    (fields : List FieldDecl) :
    ∀ (r : Reflectable) (e : JsonDeserializationErrors), ∃ app idx,
      (pullFields self value fields (r, some e)).2 = some (e.appended app idx) ∧
      (∀ x ∈ app, x.kind = .TypeMismatch ∧ x.record = e.currentRecord ∧
        ∃ g ∈ fields, x.member = some g.name) ∧
      ∀ f ∈ fields, ∀ v, FindMember value f.name = some v → f.type.kindMatches v = false →
        ∃ i, ({ kind := .TypeMismatch, actualType := v.GetType, record := e.currentRecord,
                member := some f.name, index := i } : JsonDeserializationError) ∈ app := by
  induction fields with
  | nil =>
    intro r e
    exact ⟨[], e.currentIndex, by simp [pullFields, e.appended_nil], by simp, by simp⟩
  | cons g rest ih =>
    intro r e
    obtain ⟨a1, i1, h1, hx1⟩ := pullField_errors self value g r e
    obtain ⟨a2, i2, h2, hx2, hhit2⟩ := ih (pullField self value g (r, some e)).1
      (e.appended a1 i1)
    have hs : pullField self value g (r, some e) =
        ((pullField self value g (r, some e)).1, some (e.appended a1 i1)) := by
      rw [← h1]
    refine ⟨a1 ++ a2, i2, ?_, ?_, ?_⟩
    · simp only [pullFields, List.foldl_cons] at h2 ⊢
      rw [hs, h2, JsonDeserializationErrors.appended_appended]
    · intro x hx
      rcases List.mem_append.mp hx with hx | hx
      · exact ⟨(hx1 x hx).1, (hx1 x hx).2.1, g, List.mem_cons_self _ _, (hx1 x hx).2.2⟩
      · obtain ⟨hk, hrec, g2, hg2, hm⟩ := hx2 x hx
        exact ⟨hk, hrec, g2, List.mem_cons_of_mem _ hg2, hm⟩
    · intro f hf v hfind hkind
      rcases List.mem_cons.mp hf with hfg | hfr
      · subst hfg
        have hexact := pullField_errors_of_kind_mismatch self value f v hfind hkind r e
        rw [h1] at hexact
        have ha : a1 =
            [{ kind := .TypeMismatch, actualType := v.GetType, record := e.currentRecord,
               member := some f.name, index := e.currentIndex }] := by
          have := congrArg (fun o => o.map (fun c => c.errors)) hexact
          simpa [JsonDeserializationErrors.appended] using this
        exact ⟨e.currentIndex, by rw [ha]; simp⟩
      · obtain ⟨i, hi⟩ := hhit2 f hfr v hfind hkind
        exact ⟨i, List.mem_append_right _ hi⟩

/-- The base class calls of a generated `pull`: the errors appended are those the calls
append one after the other, so what every call of a base class is sure to record is
recorded. -/
theorem pullBases_errors_hit {τ : Type} (cb : RelevantClass → PullObject Reflectable)
    (value : Object) (Q : RelevantClass → JsonDeserializationError → Prop)
    (Target : RelevantClass → τ → Prop)
    (Hit : RelevantClass → τ → JsonDeserializationError → Prop) (bases : List RelevantClass)
    (h : ∀ b ∈ bases, ∀ (r : Reflectable) (e : JsonDeserializationErrors), ∃ app idx,
      (cb b r value (some e)).2 = some (e.appended app idx) ∧ (∀ x ∈ app, Q b x) ∧
      ∀ t, Target b t → ∃ x ∈ app, Hit b t x) :
    ∀ (r : Reflectable) (e : JsonDeserializationErrors), ∃ app idx,
      (pullBases cb value bases (r, some e)).2 = some (e.appended app idx) ∧
      (∀ x ∈ app, ∃ b ∈ bases, Q b x) ∧
      ∀ b ∈ bases, ∀ t, Target b t → ∃ x ∈ app, Hit b t x := by
  induction bases with
  | nil =>
    intro r e
    exact ⟨[], e.currentIndex, by simp [pullBases, e.appended_nil], by simp, by simp⟩
  | cons b bs ih =>
    intro r e
    obtain ⟨a1, i1, h1, hx1, hhit1⟩ := h b (List.mem_cons_self _ _) r e
    obtain ⟨a2, i2, h2, hx2, hhit2⟩ := ih (fun x hx => h x (List.mem_cons_of_mem _ hx))
      (cb b r value (some e)).1 (e.appended a1 i1)
    refine ⟨a1 ++ a2, i2, ?_, ?_, ?_⟩
    · simp only [pullBases, List.foldl_cons] at h2 ⊢
      have hs : cb b r value (some e) = ((cb b r value (some e)).1, some (e.appended a1 i1)) := by
        rw [← h1]
      rw [hs, h2, JsonDeserializationErrors.appended_appended]
    · intro x hx
      rcases List.mem_append.mp hx with hx | hx
      · exact ⟨b, List.mem_cons_self _ _, hx1 x hx⟩
      · obtain ⟨b2, hb2, hq⟩ := hx2 x hx
        exact ⟨b2, List.mem_cons_of_mem _ hb2, hq⟩
    · intro b' hb' t ht
      rcases List.mem_cons.mp hb' with hbb | hbr
      · subst hbb
        obtain ⟨x, hx, hh⟩ := hhit1 t ht
        exact ⟨x, List.mem_append_left _ hx, hh⟩
      · obtain ⟨x, hx, hh⟩ := hhit2 b' hbr t ht
        exact ⟨x, List.mem_append_right _ hx, hh⟩

/-- The errors a generated `pull` appends, in two parts: those of the base class calls, each
under the qualified name of a base class of the catalogue and the name of one of its data
members, and behind them those of the data members of the class, under its qualified name;
and a data member whose member is found with another kind has its error there. -/
theorem pullRecord_errors_split (cat : List RelevantClass) (value : Object)
    (rc : RelevantClass) :
    ∀ (r : Reflectable) (e : JsonDeserializationErrors), ∃ baseApp ownApp idx1 idx2,
      (pullBases (pullRecord cat) value (findRelevantBaseClasses cat rc) (r, some e)).2 =
        some (e.appended baseApp idx1) ∧
      (pullRecord cat rc r value (some e)).2 = some (e.appended (baseApp ++ ownApp) idx2) ∧
      (∀ x ∈ baseApp, x.kind = .TypeMismatch ∧
        ∃ b ∈ cat, rc.record.hasBase b.record = true ∧ x.record = some b.qualifiedName ∧
          ∃ g ∈ b.record.fields, x.member = some g.name) ∧
      (∀ x ∈ ownApp, x.kind = .TypeMismatch ∧ x.record = some rc.qualifiedName ∧
        ∃ g ∈ rc.record.fields, x.member = some g.name) ∧
      (∀ b ∈ findRelevantBaseClasses cat rc, ∀ f ∈ b.record.fields, ∀ v,
        FindMember value f.name = some v → f.type.kindMatches v = false →
        ∃ i, ({ kind := .TypeMismatch, actualType := v.GetType,
                record := some b.qualifiedName, member := some f.name, index := i } :
              JsonDeserializationError) ∈ baseApp) ∧
      (∀ f ∈ rc.record.fields, ∀ v,
        FindMember value f.name = some v → f.type.kindMatches v = false →
        ∃ i, ({ kind := .TypeMismatch, actualType := v.GetType,
                record := some rc.qualifiedName, member := some f.name, index := i } :
              JsonDeserializationError) ∈ ownApp) := by
  refine relevantClass_induction cat (fun rc =>
    ∀ (r : Reflectable) (e : JsonDeserializationErrors), ∃ baseApp ownApp idx1 idx2,
      (pullBases (pullRecord cat) value (findRelevantBaseClasses cat rc) (r, some e)).2 =
        some (e.appended baseApp idx1) ∧
      (pullRecord cat rc r value (some e)).2 = some (e.appended (baseApp ++ ownApp) idx2) ∧
      (∀ x ∈ baseApp, x.kind = .TypeMismatch ∧
        ∃ b ∈ cat, rc.record.hasBase b.record = true ∧ x.record = some b.qualifiedName ∧
          ∃ g ∈ b.record.fields, x.member = some g.name) ∧
      (∀ x ∈ ownApp, x.kind = .TypeMismatch ∧ x.record = some rc.qualifiedName ∧
        ∃ g ∈ rc.record.fields, x.member = some g.name) ∧
      (∀ b ∈ findRelevantBaseClasses cat rc, ∀ f ∈ b.record.fields, ∀ v,
        FindMember value f.name = some v → f.type.kindMatches v = false →
        ∃ i, ({ kind := .TypeMismatch, actualType := v.GetType,
                record := some b.qualifiedName, member := some f.name, index := i } :
              JsonDeserializationError) ∈ baseApp) ∧
      (∀ f ∈ rc.record.fields, ∀ v,
        FindMember value f.name = some v → f.type.kindMatches v = false →
        ∃ i, ({ kind := .TypeMismatch, actualType := v.GetType,
                record := some rc.qualifiedName, member := some f.name, index := i } :
              JsonDeserializationError) ∈ ownApp))
    ?_ rc
  intro rc ih r e
  obtain ⟨aB, iB, hB, hxB, hhitB⟩ := pullBases_errors_hit (pullRecord cat) value
    (fun b x => x.kind = .TypeMismatch ∧
      ((x.record = some b.qualifiedName ∧ ∃ g ∈ b.record.fields, x.member = some g.name) ∨
        ∃ b2 ∈ cat, b.record.hasBase b2.record = true ∧ x.record = some b2.qualifiedName ∧
          ∃ g ∈ b2.record.fields, x.member = some g.name))
    (fun b (t : FieldDecl × Value) => t.1 ∈ b.record.fields ∧
      FindMember value t.1.name = some t.2 ∧ t.1.type.kindMatches t.2 = false)
    (fun b t x => ∃ i, x =
      { kind := .TypeMismatch, actualType := t.2.GetType, record := some b.qualifiedName,
        member := some t.1.name, index := i })
    (findRelevantBaseClasses cat rc)
    (by
      intro b hb r' e'
      obtain ⟨a1, a2, j1, j2, _, hrec, hx1, hx2, _, hhit⟩ := ih b hb r' e'
      refine ⟨a1 ++ a2, j2, hrec, ?_, ?_⟩
      · intro x hx
        rcases List.mem_append.mp hx with hx | hx
        · exact ⟨(hx1 x hx).1, Or.inr (hx1 x hx).2⟩
        · exact ⟨(hx2 x hx).1, Or.inl (hx2 x hx).2⟩
      · rintro ⟨f, v⟩ ⟨hf, hfind, hkind⟩
        obtain ⟨i, hi⟩ := hhit f hf v hfind hkind
        exact ⟨_, List.mem_append_right _ hi, i, rfl⟩)
    r e
  obtain ⟨aF, iF, hF, hxF, hhitF⟩ := pullFields_errors_hit rc.record value rc.record.fields
    (pullBases (pullRecord cat) value (findRelevantBaseClasses cat rc) (r, some e)).1
    { e.appended aB iB with currentRecord := some rc.qualifiedName }
  refine ⟨aB, aF, iB, iF, hB, ?_, ?_, ?_, ?_, ?_⟩
  · rw [pullRecord_eq]
    simp only [hB, setCurrentRecord, Option.map_some', hF, savedRecord, Option.some_bind]
    simp [JsonDeserializationErrors.appended]
  · intro x hx
    obtain ⟨b, hb, hk, hrec⟩ := hxB x hx
    have hbm := (mem_findRelevantBaseClasses cat rc b).mp hb
    refine ⟨hk, ?_⟩
    rcases hrec with ⟨hrec, hg⟩ | ⟨b2, hb2, hbase2, hrec, hg⟩
    · exact ⟨b, hbm.1, hbm.2, hrec, hg⟩
    · exact ⟨b2, hb2, CXXRecordDecl.hasBase_trans _ _ _ hbm.2 hbase2, hrec, hg⟩
  · intro x hx
    exact hxF x hx
  · intro b hb f hf v hfind hkind
    obtain ⟨x, hx, i, hi⟩ := hhitB b hb (f, v) ⟨hf, hfind, hkind⟩
    exact ⟨i, hi ▸ hx⟩
  · intro f hf v hfind hkind
    exact hhitF f hf v hfind hkind

/-- Claim C30: the record names of the errors of a derived class. The generated `pull` of an
entry of the catalogue, run with an error context, appends to the errors recorded before first
the errors of the calls for its relevant base classes and behind them the errors of its own
data members. Every error of the first part carries the qualified name of a base class of the
catalogue and the name of a data member of that base class; every error of the second part
carries the qualified name of the entry and the name of one of its data members. A data member
of a relevant base class whose member is found with another kind than its type asks for has
an error under the qualified name of that base class in the first part, and a data member of
the entry itself has its error under the qualified name of the entry in the second part. -/
theorem error_attribution_across_inheritance (cat : List RelevantClass) (rc : RelevantClass)
    (r : Reflectable) (value : Object) (e : JsonDeserializationErrors) :
    ∃ baseApp ownApp idx1 idx2,
      (pullBases (pullRecord cat) value (findRelevantBaseClasses cat rc) (r, some e)).2 =
        some (e.appended baseApp idx1) ∧
      (pullRecord cat rc r value (some e)).2 = some (e.appended (baseApp ++ ownApp) idx2) ∧
      (∀ x ∈ baseApp, x.kind = .TypeMismatch ∧
        ∃ b ∈ cat, rc.record.hasBase b.record = true ∧ x.record = some b.qualifiedName ∧
          ∃ g ∈ b.record.fields, x.member = some g.name) ∧
      (∀ x ∈ ownApp, x.kind = .TypeMismatch ∧ x.record = some rc.qualifiedName ∧
        ∃ g ∈ rc.record.fields, x.member = some g.name) ∧
      (∀ b ∈ findRelevantBaseClasses cat rc, ∀ f ∈ b.record.fields, ∀ v,
        FindMember value f.name = some v → f.type.kindMatches v = false →
        ∃ i, ({ kind := .TypeMismatch, actualType := v.GetType,
                record := some b.qualifiedName, member := some f.name, index := i } :
              JsonDeserializationError) ∈ baseApp) ∧
      (∀ f ∈ rc.record.fields, ∀ v,
        FindMember value f.name = some v → f.type.kindMatches v = false →
        ∃ i, ({ kind := .TypeMismatch, actualType := v.GetType,
                record := some rc.qualifiedName, member := some f.name, index := i } :
              JsonDeserializationError) ∈ ownApp) :=
  pullRecord_errors_split cat value rc r e

/-- Witness for C30: `Derived{a = 1, b = "x"}` pulled from the object with the text `"s"`
under `a` and the number 5 under `b`: the error for `a` has the record `Base` and comes first,
the error for `b` has the record `Derived`; the destination keeps both values. -/
theorem error_attribution_across_inheritance_witness :
    (∃ baseApp ownApp idx1 idx2,
      (pullBases (pullRecord Example.catalogue) [("a", .string "s"), ("b", .int 5)]
          (findRelevantBaseClasses Example.catalogue
            { qualifiedName := "Derived", record := Example.Derived })
          (Example.derived, some Example.noErrors)).2 =
        some (Example.noErrors.appended baseApp idx1) ∧
      (pullRecord Example.catalogue { qualifiedName := "Derived", record := Example.Derived }
          Example.derived [("a", .string "s"), ("b", .int 5)] (some Example.noErrors)).2 =
        some (Example.noErrors.appended (baseApp ++ ownApp) idx2) ∧
      (∀ x ∈ baseApp, x.kind = .TypeMismatch ∧
        ∃ b ∈ Example.catalogue, Example.Derived.hasBase b.record = true ∧
          x.record = some b.qualifiedName ∧ ∃ g ∈ b.record.fields, x.member = some g.name) ∧
      (∀ x ∈ ownApp, x.kind = .TypeMismatch ∧ x.record = some "Derived" ∧
        ∃ g ∈ Example.Derived.fields, x.member = some g.name)) ∧
    pullRecord Example.catalogue { qualifiedName := "Derived", record := Example.Derived }
        Example.derived [("a", .string "s"), ("b", .int 5)] (some Example.noErrors) =
      (Example.derived,
        some { errors := [{ kind := .TypeMismatch, actualType := .kStringType,
                            record := some "Base", member := some "a", index := none },
                          { kind := .TypeMismatch, actualType := .kNumberType,
                            record := some "Derived", member := some "b", index := none }],
               currentRecord := none, currentMember := none, currentIndex := none }) := by
  refine ⟨?_, by decide⟩
  obtain ⟨baseApp, ownApp, idx1, idx2, h1, h2, h3, h4, _, _⟩ :=
    error_attribution_across_inheritance Example.catalogue
      { qualifiedName := "Derived", record := Example.Derived } Example.derived
      [("a", .string "s"), ("b", .int 5)] Example.noErrors
  exact ⟨baseApp, ownApp, idx1, idx2, h1, h2, h3, h4⟩

/-! ## The operators of `ErrorFlags` -/

theorem ErrorFlags.and_comm_all (a b : ErrorFlags) : a.and b = b.and a := by
  simp only [ErrorFlags.and, Nat.land_comm]

theorem ErrorFlags.or_comm_all (a b : ErrorFlags) : a.or b = b.or a := by
  simp only [ErrorFlags.or, Nat.lor_comm]

/-- Claim C34: the operators of `ErrorFlags`. With `TypeMismatch` the value 0 and
`MemberMissing` the value 1: for all flags `a`, `b`, `c` among the two enumerators, `a | b` and
`a & b` are one of the two enumerators again, both operators are commutative, associative and
idempotent, `a | TypeMismatch` is `a` and `a & TypeMismatch` is `TypeMismatch`; so
`TypeMismatch | MemberMissing` is `MemberMissing`, the same flag that `MemberMissing` alone
gives, and `f & TypeMismatch = TypeMismatch` holds for `f = MemberMissing` too, which does not
include it. Commutativity holds for all values of the enumeration type. -/
theorem error_flags_algebra :
    ErrorFlags.TypeMismatch.value = 0 ∧ ErrorFlags.MemberMissing.value = 1 ∧
    (∀ a ∈ [ErrorFlags.TypeMismatch, ErrorFlags.MemberMissing],
      ∀ b ∈ [ErrorFlags.TypeMismatch, ErrorFlags.MemberMissing],
      ∀ c ∈ [ErrorFlags.TypeMismatch, ErrorFlags.MemberMissing],
        a.or b ∈ [ErrorFlags.TypeMismatch, ErrorFlags.MemberMissing] ∧
        a.and b ∈ [ErrorFlags.TypeMismatch, ErrorFlags.MemberMissing] ∧
        a.or b = b.or a ∧ a.and b = b.and a ∧
        (a.or b).or c = a.or (b.or c) ∧ (a.and b).and c = a.and (b.and c) ∧
        a.or a = a ∧ a.and a = a ∧
        a.or ErrorFlags.TypeMismatch = a ∧
        a.and ErrorFlags.TypeMismatch = ErrorFlags.TypeMismatch) ∧
    ErrorFlags.TypeMismatch.or ErrorFlags.MemberMissing = ErrorFlags.MemberMissing ∧
    ErrorFlags.MemberMissing.or ErrorFlags.MemberMissing = ErrorFlags.MemberMissing ∧
    ErrorFlags.MemberMissing.and ErrorFlags.TypeMismatch = ErrorFlags.TypeMismatch ∧
    ErrorFlags.TypeMismatch.and ErrorFlags.TypeMismatch = ErrorFlags.TypeMismatch ∧
    ErrorFlags.MemberMissing.and ErrorFlags.MemberMissing = ErrorFlags.MemberMissing ∧
    ErrorFlags.TypeMismatch.or ErrorFlags.TypeMismatch = ErrorFlags.TypeMismatch ∧
    (∀ a b : ErrorFlags, a.or b = b.or a ∧ a.and b = b.and a) := by
  refine ⟨rfl, rfl, by decide, by decide, by decide, by decide, by decide, by decide,
    by decide, fun a b => ⟨ErrorFlags.or_comm_all a b, ErrorFlags.and_comm_all a b⟩⟩

/-! ## The overloads of `pull` from a value iterator -/

/-- An overload from a value iterator does to the destination and to the error context what
the overload from a value does with the element pointed at, and moves the iterator to the next
element exactly when that element has the kind the overload tests for. -/
theorem pullFromIterator_eq (ty : Ty) (dest : Val) (value : ValueIterator)
    (errors : Option JsonDeserializationErrors) :
    pullFromIterator ty dest value errors =
      ((pull ty dest value.deref errors).1,
        if ty.kindMatches value.deref = true then value.next else value,
        (pull ty dest value.deref errors).2) := by
  cases ty with
  | scalar t =>
    cases h : value.deref.Is t <;>
      simp [pullFromIterator, pullScalarFromIterator, pull, pullScalar, Ty.kindMatches, h]
  | string =>
    cases h : value.deref.IsString <;>
      simp [pullFromIterator, pullStringFromIterator, pull, pullString, Ty.kindMatches, h]
  | seq traits elem =>
    cases h : value.deref.IsArray <;> cases hr : traits.isReservable <;>
      simp [pullFromIterator, pullReservableFromIterator, pullIteratableFromIterator, pull,
        pullReservable, pullIteratable, Ty.kindMatches, h, hr]

/-- Claim C33: the cursor of the overloads of `pull` from a value iterator, for an integer or
boolean, a text, and a sequence with and without `reserve()`. When the element the iterator
points at has the kind the overload tests for, the destination is set from it (to the number or
boolean, to the characters of the text before its first NUL character, to the outcome of the
`pull` from the array), and the iterator afterwards points at the next position of the same
array; the error context is the one given, or the one the `pull` from the array returns. When the kind is another one, the destination and the
iterator are as before, and the error context, if there is one, has one `TypeMismatch` with
the kind found and the current path appended; without an error context none is returned. In
every case the destination and the error context are those of the overload from a value. -/
theorem iterator_pull_cursor (t : ScalarType) (traits : SeqTraits) (elem : Ty) (ty : Ty)
    (dest : Val) (value : ValueIterator) (errors : Option JsonDeserializationErrors)
    (e : JsonDeserializationErrors) :
    (value.deref.Is t = true →
      pullFromIterator (.scalar t) dest value errors =
        (value.deref.Get t, value.next, errors)) ∧
    (value.deref.Is t = false →
      pullFromIterator (.scalar t) dest value errors =
        (dest, value, reportTypeMismatch errors value.deref.GetType)) ∧
    (value.deref.IsString = true →
      pullFromIterator .string dest value errors =
        (Val.ofCString value.deref.GetString, value.next, errors)) ∧
    (value.deref.IsString = false →
      pullFromIterator .string dest value errors =
        (dest, value, reportTypeMismatch errors value.deref.GetType)) ∧
    (value.deref.IsArray = true →
      pullFromIterator (.seq traits elem) dest value errors =
        ((pullArray (pull elem) elem.default dest value.deref.GetArray errors).1, value.next,
          (pullArray (pull elem) elem.default dest value.deref.GetArray errors).2)) ∧
    (value.deref.IsArray = false →
      pullFromIterator (.seq traits elem) dest value errors =
        (dest, value, reportTypeMismatch errors value.deref.GetType)) ∧
    (value.next.position = value.position + 1 ∧ value.next.values = value.values) ∧
    (reportTypeMismatch (some e) value.deref.GetType =
        some (e.appended
          [{ kind := .TypeMismatch, actualType := value.deref.GetType,
             record := e.currentRecord, member := e.currentMember,
             index := e.currentIndex }] e.currentIndex) ∧
      reportTypeMismatch none value.deref.GetType = none) ∧
    pullFromIterator ty dest value errors =
      ((pull ty dest value.deref errors).1,
        if ty.kindMatches value.deref = true then value.next else value,
        (pull ty dest value.deref errors).2) := by
  refine ⟨?_, ?_, ?_, ?_, ?_, ?_, ⟨rfl, rfl⟩, ⟨?_, rfl⟩, pullFromIterator_eq ty dest value errors⟩
  · intro h
    simp [pullFromIterator, pullScalarFromIterator, h]
  · intro h
    simp [pullFromIterator, pullScalarFromIterator, h]
  · intro h
    simp [pullFromIterator, pullStringFromIterator, h]
  · intro h
    simp [pullFromIterator, pullStringFromIterator, h]
  · intro h
    cases hr : traits.isReservable <;>
      simp [pullFromIterator, pullReservableFromIterator, pullIteratableFromIterator, h, hr,
        pullArray]
  · intro h
    cases hr : traits.isReservable <;>
      simp [pullFromIterator, pullReservableFromIterator, pullIteratableFromIterator, h, hr]
  · exact congrArg some (e.reportTypeMismatch_eq _)

/-- Witness for C33: the iterator points at the second element of `[true, 5, "x"]`. The
`pull` of an integer stores 5 and moves the iterator to the third element; the `pull` of a
text leaves the destination and the iterator as they were and records one `TypeMismatch`. -/
theorem iterator_pull_cursor_witness :
    (ValueIterator.deref { values := [.bool true, .int 5, .string "x"], position := 1 }).Is
        .int = true ∧
    pullFromIterator (.scalar .int) (.int 0)
        { values := [.bool true, .int 5, .string "x"], position := 1 }
        (some Example.noErrors) =
      (.int 5, { values := [.bool true, .int 5, .string "x"], position := 2 },
        some Example.noErrors) ∧
    pullFromIterator .string (.string "old")
        { values := [.bool true, .int 5, .string "x"], position := 1 }
        (some Example.noErrors) =
      (.string "old", { values := [.bool true, .int 5, .string "x"], position := 1 },
        some { errors := [{ kind := .TypeMismatch, actualType := .kNumberType, record := none,
                            member := none, index := none }],
               currentRecord := none, currentMember := none, currentIndex := none }) :=
  ⟨by decide,
   ((iterator_pull_cursor .int Example.vector (.scalar .int) .string (.int 0)
      { values := [.bool true, .int 5, .string "x"], position := 1 }
      (some Example.noErrors) Example.noErrors).1 (by decide)).trans (by decide),
   ((iterator_pull_cursor .int Example.vector (.scalar .int) .string (.string "old")
      { values := [.bool true, .int 5, .string "x"], position := 1 }
      (some Example.noErrors) Example.noErrors).2.2.2.1 (by decide)).trans (by decide)⟩

/-! ## Integers are pulled exactly -/

/-- The kind test of an integer type holds exactly for the integer numbers in its range. -/
theorem Value.is_integer_iff (t : ScalarType) (ht : t ≠ .bool) (value : Value) :
    value.Is t = true ↔ ∃ i, value = .int i ∧ t.range.1 ≤ i ∧ i < t.range.2 := by
  cases t <;> cases value <;> simp [Value.Is] at ht ⊢

/-- Claim C32: integers are pulled exactly. The kind test `Is<T>` of an integer type holds
exactly for the integer numbers within the range of the type. The `pull` into a destination of
such a type either finds the test true, and then the source is an integer number within the
range and the destination becomes that very number, with the error context untouched; or it
finds the test false, and then the destination is what it was and a `TypeMismatch` is reported
to the error context. A number that is not an integer, a negative number for an unsigned type
and a number outside the range of the type are rejected in this way, so nothing truncated,
wrapped or rounded is ever stored. `fromJson` for such a type returns the number of the
document itself, or the value-initialised number together with a `TypeMismatch`. -/
theorem exact_integer_pull (t : ScalarType) (dest : Val) (value : Value)
    (errors : Option JsonDeserializationErrors) (e : JsonDeserializationErrors) (i : Int)
    (bits : Nat) (Parse : Parser) (json : String) (jsonSize : Nat) :
    (t ≠ .bool →
      (value.Is t = true ↔ ∃ n, value = .int n ∧ t.range.1 ≤ n ∧ n < t.range.2)) ∧
    (t ≠ .bool →
      (∃ n, value = .int n ∧ t.range.1 ≤ n ∧ n < t.range.2 ∧
        pull (.scalar t) dest value errors = (.int n, errors)) ∨
      (value.Is t = false ∧
        pull (.scalar t) dest value errors =
          (dest, reportTypeMismatch errors value.GetType))) ∧
    (t ≠ .bool →
      pull (.scalar t) dest (.double bits) errors =
        (dest, reportTypeMismatch errors .kNumberType)) ∧
    (i < 0 →
      pull (.scalar .unsigned) dest (.int i) errors =
          (dest, reportTypeMismatch errors .kNumberType) ∧
        pull (.scalar .uint64) dest (.int i) errors =
          (dest, reportTypeMismatch errors .kNumberType)) ∧
    (t ≠ .bool → ¬ (t.range.1 ≤ i ∧ i < t.range.2) →
      pull (.scalar t) dest (.int i) errors =
        (dest, reportTypeMismatch errors .kNumberType)) ∧
    (t ≠ .bool → t.range.1 ≤ i → i < t.range.2 →
      pull (.scalar t) dest (.int i) errors = (.int i, errors)) ∧
    reportTypeMismatch (some e) .kNumberType =
      some (e.appended
        [{ kind := .TypeMismatch, actualType := .kNumberType, record := e.currentRecord,
           member := e.currentMember, index := e.currentIndex }] e.currentIndex) ∧
    (t ≠ .bool → (Parse json jsonSize).2.IsError = false →
      (∃ n, (Parse json jsonSize).1 = .int n ∧ t.range.1 ≤ n ∧ n < t.range.2 ∧
        fromJsonScalar Parse t json jsonSize errors = .ok (.int n, errors)) ∨
      ((Parse json jsonSize).1.Is t = false ∧
        fromJsonScalar Parse t json jsonSize errors =
          .ok (.int 0, reportTypeMismatch errors (Parse json jsonSize).1.GetType))) := by
  have hrej : ∀ v : Value, v.Is t = false →
      pull (.scalar t) dest v errors = (dest, reportTypeMismatch errors v.GetType) := by
    intro v h
    simp [pull, pullScalar, h]
  have hacc : ∀ n : Int, t ≠ .bool → t.range.1 ≤ n → n < t.range.2 →
      pull (.scalar t) dest (.int n) errors = (.int n, errors) := by
    intro n ht h1 h2
    have hIs : (Value.int n).Is t = true :=
      (Value.is_integer_iff t ht _).mpr ⟨n, rfl, h1, h2⟩
    have hGet : (Value.int n).Get t = .int n := by
      cases t <;> simp [Value.Get] at ht ⊢
    simp [pull, pullScalar, hIs, hGet]
  refine ⟨fun ht => Value.is_integer_iff t ht value, ?_, ?_, ?_, ?_, hacc i, ?_, ?_⟩
  · intro ht
    cases h : value.Is t
    · exact Or.inr ⟨rfl, hrej value h⟩
    · obtain ⟨n, hn, h1, h2⟩ := (Value.is_integer_iff t ht value).mp h
      subst hn
      exact Or.inl ⟨n, rfl, h1, h2, hacc n ht h1 h2⟩
  · intro ht
    have h : (Value.double bits).Is t = false := by
      cases t <;> simp [Value.Is] at ht ⊢
    exact hrej _ h
  · intro hneg
    constructor
    · simp only [pull, pullScalar]
      have h : (Value.int i).Is .unsigned = false := by
        simp only [Value.Is, ScalarType.range, Bool.and_eq_false_iff, decide_eq_false_iff_not]
        left
        omega
      simp [h, Value.GetType]
    · simp only [pull, pullScalar]
      have h : (Value.int i).Is .uint64 = false := by
        simp only [Value.Is, ScalarType.range, Bool.and_eq_false_iff, decide_eq_false_iff_not]
        left
        omega
      simp [h, Value.GetType]
  · intro ht hout
    have h : (Value.int i).Is t = false := by
      cases hI : (Value.int i).Is t
      · rfl
      · obtain ⟨n, hn, h1, h2⟩ := (Value.is_integer_iff t ht _).mp hI
        cases hn
        exact absurd ⟨h1, h2⟩ hout
    exact hrej _ h
  · exact congrArg some (e.reportTypeMismatch_eq _)
  · intro ht hok
    have hparse : parseJsonDocFromString Parse json jsonSize = .ok (Parse json jsonSize).1 := by
      simp [parseJsonDocFromString, hok]
      rfl
    cases h : (Parse json jsonSize).1.Is t
    · right
      refine ⟨rfl, ?_⟩
      have hd : (Ty.scalar t).default = .int 0 := by
        cases t <;> simp [Ty.default] at ht ⊢
      simp [fromJsonScalar, hparse, h, hd]
      rfl
    · left
      obtain ⟨n, hn, h1, h2⟩ := (Value.is_integer_iff t ht _).mp h
      refine ⟨n, hn, h1, h2, ?_⟩
      have hGet : (Parse json jsonSize).1.Get t = .int n := by
        rw [hn]
        cases t <;> simp [Value.Get] at ht ⊢
      simp [fromJsonScalar, hparse, h, hGet]
      rfl

/-- Witness for C32: the number 7 is stored as it is; the number 2^31 is rejected for `int`
and the number -1 for `unsigned`, the destination 42 staying as it was. -/
theorem exact_integer_pull_witness :
    pull (.scalar .int) (.int 42) (.int 7) (some Example.noErrors) =
      (.int 7, some Example.noErrors) ∧
    pull (.scalar .int) (.int 42) (.int 2147483648) none = (.int 42, none) ∧
    pull (.scalar .unsigned) (.int 42) (.int (-1)) none = (.int 42, none) :=
  ⟨(exact_integer_pull .int (.int 42) (.int 7) (some Example.noErrors) Example.noErrors 7 0
      Example.Parse "" 0).2.2.2.2.2.1 (by decide) (by decide) (by decide),
   ((exact_integer_pull .int (.int 42) (.int 2147483648) none Example.noErrors 2147483648 0
      Example.Parse "" 0).2.2.2.2.1 (by decide) (by decide)).trans (by decide),
   ((exact_integer_pull .unsigned (.int 42) (.int (-1)) none Example.noErrors (-1) 0
      Example.Parse "" 0).2.2.2.1 (by decide)).1.trans (by decide)⟩

/-! ## The earlier header does what the later one does without an error context -/

theorem legacy_pullArrayLoop_eq (pullItem : Val → Value → Val) (fresh : Val)
    (items : List Value) :
    ∀ acc : List Val, Legacy.pullArrayLoop pullItem fresh items acc =
      acc ++ items.map (fun item => pullItem fresh item) := by
  induction items with
  | nil => intro acc; simp [Legacy.pullArrayLoop]
  | cons item rest ih =>
    intro acc
    simp [Legacy.pullArrayLoop, ih]

theorem legacy_pullArray_eq (legacyItem : Val → Value → Val) (pullItem : Pull Val)
    (fresh : Val) (array : List Value)
    (hitem : ∀ item ∈ array, ∀ errors, legacyItem fresh item = (pullItem fresh item errors).1)
    (reflectable reflectable2 : Val) :
    Legacy.pullArray legacyItem fresh reflectable array =
      (pullArray pullItem fresh reflectable2 array none).1 := by
  simp only [Legacy.pullArray, pullArray, legacy_pullArrayLoop_eq, List.nil_append]
  rw [pullArrayLoop_fst pullItem fresh array
    (fun item hi e1 e2 => by rw [← hitem item hi e1, ← hitem item hi e2])]
  simp only [List.nil_append]
  congr 1
  apply List.map_congr_left
  intro item hi
  exact hitem item hi none

theorem legacy_pull_eq (ty : Ty) :
    ∀ (dest : Val) (value : Value) (errors : Option JsonDeserializationErrors),
      Legacy.pull ty dest value = (pull ty dest value errors).1 := by
  induction ty with
  | scalar t =>
    intro dest value errors
    cases h : value.Is t <;> simp [Legacy.pull, Legacy.pullScalar, pull, pullScalar, h]
  | string =>
    intro dest value errors
    cases h : value.IsString <;> simp [Legacy.pull, Legacy.pullString, pull, pullString, h]
  | seq traits elem ih =>
    intro dest value errors
    have harr : ∀ r1 r2, Legacy.pullArray (Legacy.pull elem) elem.default r1 value.GetArray =
        (pullArray (pull elem) elem.default r2 value.GetArray errors).1 := by
      intro r1 r2
      rw [legacy_pullArray_eq (Legacy.pull elem) (pull elem) elem.default value.GetArray
        (fun item _ errs => ih elem.default item errs) r1 r2]
      simp only [pullArray]
      rw [pullArrayLoop_fst_indep (pull elem) elem.default value.GetArray
        (fun item _ e1 e2 => pull_fst_indep elem elem.default item e1 e2) 0 [] none errors]
    cases h : value.IsArray <;> cases hr : traits.isReservable <;>
      simp only [Legacy.pull, Legacy.pullReservable, Legacy.pullIteratable, pull,
        pullReservable, pullIteratable, h, hr, Bool.not_true, Bool.not_false,
        Bool.false_eq_true, if_true, if_false] <;>
      first
        | rfl
        | exact harr _ _

/-- Claim C31: the earlier header and the later one without an error context. For every
destination and every source: the `pull` of the earlier header `lib/jsonreflector.h` for a
scalar, a text or a sequence (at any nesting, with or without `reserve()`) leaves the
destination as the `pull` of `lib/json/reflector.h` does when it is called with the null
pointer as error context, which then returns no context; so do the overload from an array,
the overload for a member by name and the overload for a custom type, for whatever nested
`pull` the later header is given, the earlier one being given the same `pull` without error
context; so do the overloads from a value iterator, which also leave the iterator at the same
position. `fromJson` of the earlier header throws when and what the later one throws, and
otherwise returns the value that the later one returns with the null pointer. -/
theorem legacy_runtime_equivalence {α : Type} (ty : Ty) (elem : Ty) (dest : Val)
    (value : Value) (array : List Value) (name : String) (object : Object)
    (iterator : ValueIterator) (pullValue : Pull α) (pullObject : PullObject α)
    (reflectable fresh res : α) (Parse : Parser) (t : ScalarType) (json : String)
    (jsonSize : Nat) :
    Legacy.pull ty dest value = (pull ty dest value none).1 ∧
    (pull ty dest value none).2 = none ∧
    Legacy.pullArray (Legacy.pull elem) elem.default dest array =
      (pullArray (pull elem) elem.default dest array none).1 ∧
    Legacy.pullMember (Legacy.pull ty) dest name object =
      (pullMember (pull ty) dest name object none).1 ∧
    Legacy.pullMember (fun r v => (pullValue r v none).1) reflectable name object =
      (pullMember pullValue reflectable name object none).1 ∧
    Legacy.pullCustom (fun r o => (pullObject r o none).1) reflectable value =
      (pullCustom pullObject reflectable value none).1 ∧
    Legacy.pullFromIterator ty dest iterator =
      ((pullFromIterator ty dest iterator none).1,
        (pullFromIterator ty dest iterator none).2.1) ∧
    Legacy.parseDocumentFromString Parse json jsonSize =
      parseJsonDocFromString Parse json jsonSize ∧
    Legacy.fromJsonScalar Parse t json jsonSize =
      (fromJsonScalar Parse t json jsonSize none).map Prod.fst ∧
    Legacy.fromJsonString Parse json jsonSize =
      (fromJsonString Parse json jsonSize none).map Prod.fst ∧
    Legacy.fromJsonCustom Parse (fun r o => (pullObject r o none).1) fresh res json jsonSize =
      (fromJsonCustom Parse pullObject fresh res json jsonSize none).map Prod.fst := by
  have hparse : Legacy.parseDocumentFromString Parse json jsonSize =
      parseJsonDocFromString Parse json jsonSize := rfl
  refine ⟨legacy_pull_eq ty dest value none, pull_snd_none ty dest value, ?_, ?_, ?_, ?_, ?_,
    hparse, ?_, ?_, ?_⟩
  · exact legacy_pullArray_eq (Legacy.pull elem) (pull elem) elem.default array
      (fun item _ errs => legacy_pull_eq elem elem.default item errs) dest dest
  · cases h : FindMember object name with
    | none => simp [Legacy.pullMember, pullMember, h]
    | some member =>
      simp only [Legacy.pullMember, pullMember, h]
      exact legacy_pull_eq ty dest member none
  · cases h : FindMember object name with
    | none => simp [Legacy.pullMember, pullMember, h]
    | some member => simp [Legacy.pullMember, pullMember, h]
  · cases h : value.IsObject <;> simp [Legacy.pullCustom, pullCustom, h, reportTypeMismatch]
  · rw [pullFromIterator_eq]
    cases ty with
    | scalar t2 =>
      cases h : iterator.deref.Is t2 <;>
        simp [Legacy.pullFromIterator, Legacy.pullScalarFromIterator, pull, pullScalar,
          Ty.kindMatches, h]
    | string =>
      cases h : iterator.deref.IsString <;>
        simp [Legacy.pullFromIterator, Legacy.pullStringFromIterator, pull, pullString,
          Ty.kindMatches, h]
    | seq traits inner =>
      have harr : ∀ r1 r2,
          Legacy.pullArray (Legacy.pull inner) inner.default r1 iterator.deref.GetArray =
            (pullArray (pull inner) inner.default r2 iterator.deref.GetArray none).1 :=
        fun r1 r2 => legacy_pullArray_eq (Legacy.pull inner) (pull inner) inner.default
          iterator.deref.GetArray
          (fun item _ errs => legacy_pull_eq inner inner.default item errs) r1 r2
      cases h : iterator.deref.IsArray <;> cases hr : traits.isReservable <;>
        simp only [Legacy.pullFromIterator, Legacy.pullReservableFromIterator,
          Legacy.pullIteratableFromIterator, pull, pullReservable, pullIteratable,
          Ty.kindMatches, h, hr, Bool.not_true, Bool.not_false, Bool.false_eq_true, if_true,
          if_false] <;>
        first
          | rfl
          | exact Prod.ext (harr dest dest) rfl
  · simp only [Legacy.fromJsonScalar, fromJsonScalar, hparse]
    cases parseJsonDocFromString Parse json jsonSize with
    | error p => rfl
    | ok doc => cases h : doc.Is t <;> simp [h, Except.map, pure, Except.pure]
  · simp only [Legacy.fromJsonString, fromJsonString, hparse]
    cases parseJsonDocFromString Parse json jsonSize with
    | error p => rfl
    | ok doc => cases h : doc.IsString <;> simp [h, Except.map, pure, Except.pure]
  · simp only [Legacy.fromJsonCustom, fromJsonCustom, hparse]
    cases parseJsonDocFromString Parse json jsonSize with
    | error p => rfl
    | ok doc => cases h : doc.IsObject <;> simp [h, Except.map, pure, Except.pure]

/-! ## Texts that hold a NUL character, and the object `fromJson` declares -/

/-- C5: a text `pull` from a String that holds a NUL character. The kind matches, and the
destination is set to the characters before the NUL character, not to the text of the source;
no error is appended. -/
theorem pull_text_stops_at_nul :
    (Value.string "a\x00b").IsString = true ∧
    (Value.string "a\x00b").GetString = "a\x00b" ∧
    pullString (.string "old") (.string "a\x00b") (some Example.noErrors) =
      (.string "a", some Example.noErrors) ∧
    pull .string (.string "old") (.string "a\x00b") none = (.string "a", none) ∧
    Val.string "a" ≠ Val.string "a\x00b" := by
  decide

/-- C2: the text of the three characters `a`, NUL, `b`, pushed as member `n` into the empty
object and pulled from member `n` of that object, comes back as the text `a`: `push` creates
the String with all three characters, `pull` stores the characters before the NUL character,
and no error is appended.  A sequence with that text comes back with the text `a` as well. -/
theorem text_round_trip_stops_at_nul :
    "a\x00b".data = ['a', Char.ofNat 0, 'b'] ∧
    Ty.string.hasType (.string "a\x00b") = true ∧
    pushMember .string (.string "a\x00b") "n" [] = [("n", .string "a\x00b")] ∧
    pullMember (pull .string) (.string "") "n"
        (pushMember .string (.string "a\x00b") "n" []) (some Example.noErrors) =
      (.string "a", some Example.noErrors) ∧
    pullMember (pull (.seq Example.vector .string)) (.seq []) "n"
        (pushMember (.seq Example.vector .string) (.seq [.string "a\x00b", .string "c"]) "n" [])
        (some Example.noErrors) =
      (.seq [.string "a", .string "c"], some Example.noErrors) := by
  decide

/-- C7: a sequence `pull` from the array of the Strings `a`, NUL, `b` and `c` into a sequence
of texts. Both items have the kind of the element type, and the destination becomes the texts
`a` and `c`: the first element is not the text of the first item. -/
theorem sequence_reset_text_stops_at_nul :
    (∀ item ∈ [Value.string "a\x00b", Value.string "c"], Ty.string.accepts item = true) ∧
    pull (.seq Example.vector .string) (.seq [.string "old"])
        (.array [.string "a\x00b", .string "c"]) (some Example.noErrors) =
      (.seq [.string "a", .string "c"], some Example.noErrors) ∧
    Val.seq [.string "a", .string "c"] ≠
      Val.seq ([Value.string "a\x00b", Value.string "c"].map
        (fun item => .string item.GetString)) := by
  decide

/-- C25: a sequence `pull` from the array of the String `a`, NUL, `b` and the number 5 into a
sequence of texts. The destination has two elements; the second is the value-initialised text
and has one `TypeMismatch` with index 1; the first, whose item has the kind of the element
type, is the text `a`, not the text of the item. -/
theorem sequence_pull_matching_text_stops_at_nul :
    Ty.string.accepts (.string "a\x00b") = true ∧
    Ty.string.accepts (.int 5) = false ∧
    pull (.seq Example.vector .string) (.seq [.string "old"])
        (.array [.string "a\x00b", .int 5]) (some Example.noErrors) =
      (.seq [.string "a", .string ""],
       some { errors := [{ kind := .TypeMismatch, actualType := .kNumberType, record := none,
                           member := none, index := some 1 }],
              currentRecord := none, currentMember := none, currentIndex := none }) := by
  decide

/-- C4: the generated `pull` for `Triple` from the object with the String `not-a-number` as
member `x` and the String `a`, NUL, `b` as member `y`. One `TypeMismatch` is appended for
`x`, which keeps its value 5; the text member `y`, present with the matching kind, is set to the
text `a`, not to the text of the member. -/
theorem error_path_text_member_stops_at_nul :
    FindMember [("x", .string "not-a-number"), ("y", .string "a\x00b")] "y" =
      some (.string "a\x00b") ∧
    Ty.string.accepts (.string "a\x00b") = true ∧
    pullRecord [{ qualifiedName := "Triple", record := Example.Triple }]
        { qualifiedName := "Triple", record := Example.Triple } Example.triple
        [("x", .string "not-a-number"), ("y", .string "a\x00b")] (some Example.noErrors) =
      ([{ owner := Example.Triple, name := "x", value := .int 5 },
        { owner := Example.Triple, name := "y", value := .string "a" },
        { owner := Example.Triple, name := "z", value := .seq [.int 9, .int 9, .int 9, .int 9] }],
       some { errors := [{ kind := .TypeMismatch, actualType := .kStringType,
                           record := some "Triple", member := some "x", index := none }],
              currentRecord := none, currentMember := none, currentIndex := none }) := by
  decide

/-- C9: `fromJson` for a text from the JSON text `"a\u0000b"`, which parses to the String of
the characters `a`, NUL, `b`: the kind matches and the text `a` is returned, not the value of
the document.  `fromJson` for a class pulls into the declared object `res`, whatever it holds:
from the JSON text of the empty object the result is `res` itself, which for `res` with 7 as
member `a` is not the value-initialised object. -/
theorem fromJson_text_stops_at_nul :
    Example.ParseEscaped "\"a\\u0000b\"" 10 =
      (.string "a\x00b", { IsError := false, code := 0, offset := 0 }) ∧
    (Value.string "a\x00b").IsString = true ∧
    fromJsonString Example.ParseEscaped "\"a\\u0000b\"" 10 (some Example.noErrors) =
      .ok (.string "a", some Example.noErrors) ∧
    (∀ res : Reflectable,
      fromJsonRecord Example.ParseEscaped Example.catalogue
          { qualifiedName := "Derived", record := Example.Derived } res "\x7b\x7d" 2
          (some Example.noErrors) = .ok (res, some Example.noErrors)) ∧
    fromJsonRecord Example.ParseEscaped Example.catalogue
        { qualifiedName := "Derived", record := Example.Derived }
        [{ owner := Example.Base, name := "a", value := .int 7 },
         { owner := Example.Derived, name := "b", value := .string "" }] "\x7b\x7d" 2
        (some Example.noErrors) ≠ .ok (Example.Derived.default, some Example.noErrors) := by
  have hp : Example.ParseEscaped "\x7b\x7d" 2 =
      (.object [], { IsError := false, code := 0, offset := 0 }) := by decide
  have hrec : ∀ res : Reflectable,
      fromJsonRecord Example.ParseEscaped Example.catalogue
          { qualifiedName := "Derived", record := Example.Derived } res "\x7b\x7d" 2
          (some Example.noErrors) = .ok (res, some Example.noErrors) := by
    intro res
    have h := (fromJson_top_level_kind_check Example.ParseEscaped "\x7b\x7d" 2 Example.catalogue
      { qualifiedName := "Derived", record := Example.Derived } res .int Example.noErrors
      (some Example.noErrors) (by rw [hp])).1 [] (by rw [hp])
    rw [h, pullRecord_nil_object]
  have hq : Example.ParseEscaped "\"a\\u0000b\"" 10 =
      (.string "a\x00b", { IsError := false, code := 0, offset := 0 }) := by decide
  refine ⟨hq, by decide, ?_, hrec, ?_⟩
  · exact ((fromJson_top_level_kind_check Example.ParseEscaped "\"a\\u0000b\"" 10
      Example.catalogue { qualifiedName := "Derived", record := Example.Derived } [] .int
      Example.noErrors (some Example.noErrors) (by rw [hq])).2.2.2.1 "a\x00b"
        (by rw [hq])).trans (congrArg Except.ok (by decide))
  · rw [hrec]
    intro h
    exact absurd (Except.ok.inj h) (by decide)

/-- C1, counterexample: two classes that meet the conditions and do not come back.  `Mixed`
derives from the marker type and from `Plain`, which does not and is no catalogue class: the
generated `push` leaves the member `x` of `Plain` out, and `Mixed{x = 5, y = 1}` comes back
with `x = 0`.  `Derived{a = 1, b}` with the text `a`, NUL, `b` as `b` comes back with the
text `a` as `b`. -/
theorem record_round_trip_counterexample :
    ((JsonSerializationCodeGenerator.addDeclaration
        (JsonSerializationCodeGenerator.addDeclaration
          { m_options := Example.noOptions, m_relevantClasses := [] }
          (.CXXRecord Example.Plain)) (.CXXRecord Example.Mixed)).m_relevantClasses =
        [{ qualifiedName := "Mixed", record := Example.Mixed }] ∧
      Example.Mixed.hasInstance Example.mixed = true ∧
      (Example.Mixed.layout.map (fun p => p.2.name)).Nodup ∧
      pushRecord [{ qualifiedName := "Mixed", record := Example.Mixed }]
          { qualifiedName := "Mixed", record := Example.Mixed } Example.mixed [] =
        [("y", .int 1)] ∧
      pullRecord [{ qualifiedName := "Mixed", record := Example.Mixed }]
          { qualifiedName := "Mixed", record := Example.Mixed } Example.Mixed.default
          (pushRecord [{ qualifiedName := "Mixed", record := Example.Mixed }]
            { qualifiedName := "Mixed", record := Example.Mixed } Example.mixed [])
          (some Example.noErrors) =
        ([{ owner := Example.Plain, name := "x", value := .int 0 },
          { owner := Example.Mixed, name := "y", value := .int 1 }], some Example.noErrors)) ∧
    (Example.Derived.hasInstance Example.derivedNul = true ∧
      (Example.Derived.layout.map (fun p => p.2.name)).Nodup ∧
      pushRecord Example.catalogue { qualifiedName := "Derived", record := Example.Derived }
          Example.derivedNul [] = [("a", .int 1), ("b", .string "a\x00b")] ∧
      pullRecord Example.catalogue { qualifiedName := "Derived", record := Example.Derived }
          Example.Derived.default
          (pushRecord Example.catalogue { qualifiedName := "Derived", record := Example.Derived }
            Example.derivedNul []) (some Example.noErrors) =
        ([{ owner := Example.Base, name := "a", value := .int 1 },
          { owner := Example.Derived, name := "b", value := .string "a" }],
         some Example.noErrors)) := by
  decide

end ReflectiveRapidJSON
